import Mathlib

/-!
# Filefinder: a verification development

The Go package `filefinder` (`finder.go`) walks a file tree with one goroutine per
directory entry and sends, over an unbuffered channel, the relative path of a file for
every line of that file that contains a given word.  A `sync.WaitGroup` counts the
goroutines; a last goroutine waits for the counter to reach zero and closes the channel.

The development has three layers.

* The library functions the code calls: `strings.Contains`, `filepath.Join` with
  `filepath.Clean`, and the line splitting of `bufio.Scanner`.  Go strings are lists of
  characters.  The separator is a parameter; `Clean` is the lexical algorithm of the Go
  library on the elements of a path, for paths without a volume name.
* The file tree as the code observes it: what `fs.ReadDir` returns on a file system, what
  `fs.Sub` returns for a directory entry, and which lines the scanner yields from a file
  that `Open` has opened.  Each of the three can fail.
* A small-step machine for the goroutines of one `FindFiles` call: the caller, the
  goroutines launched at `finder.go:37`, and the closing goroutine of `finder.go:20`.
  A step is one statement that touches the counter or the channel (`wg.Add`, `go`, the
  send, `wg.Done`, the return of `wg.Wait`, `close`) or one local move up to the next
  such statement.  A schedule is a list of actors; a pick of an actor that is blocked or
  absent is skipped.  The caller of `FindFiles` ranges over the channel as soon as it has
  it, so a send proceeds once `FindFiles` has returned the channel.  Next to the machine
  stands the sequential reading of the same code, `checkDirectory`, to which every schedule is
  related by `pending_exec`.
-/

namespace Filefinder

/-! ## Strings -/

/-- A Go `string`: a sequence of bytes, each written as a character. -/
abbrev GoString := List Char

/-- A Go `error` value, identified by its message. -/
abbrev GoError := String

/-- Go `strings.HasPrefix s pre`. -/
def HasPrefix : GoString → GoString → Bool
  | _, [] => true
  | [], _ :: _ => false
  | c :: s, d :: pre => c == d && HasPrefix s pre

/-- Go `strings.Contains s substr`: `substr` occurs in `s` as a literal substring. -/
def Contains : GoString → GoString → Bool
  | [], substr => HasPrefix [] substr
  | c :: s, substr => HasPrefix (c :: s) substr || Contains s substr

/-! ## `path/filepath` -/

/-- The elements of a path: the pieces between separators. -/
def splitElems (sep : Char) : GoString → List GoString
  | [] => [[]]
  | c :: cs =>
    if c = sep then [] :: splitElems sep cs
    else
      match splitElems sep cs with
      | [] => [[c]]
      | e :: es => (c :: e) :: es

/-- Go `strings.Join elems sep` for a one-character separator. -/
def stringsJoin (sep : Char) : List GoString → GoString
  | [] => []
  | [e] => e
  | e :: es => e ++ sep :: stringsJoin sep es

/-- One element of the loop of `filepath.Clean`, on the stack `out` of the elements kept so
far (innermost first): empty and `.` elements are skipped, `..` removes the last real
element when there is one, is kept in front of a relative path and is dropped at the
root, and any other element is kept. -/
def cleanElem (rooted : Bool) (out : List GoString) (e : GoString) : List GoString :=
  if e = [] ∨ e = ['.'] then out
  else if e = ['.', '.'] then
    match out with
    | [] => if rooted then [] else [e]
    | top :: rest => if top = ['.', '.'] then e :: out else rest
  else e :: out

/-- Go `filepath.Clean` for paths without a volume name: the shortest path equivalent to
`path` by purely lexical processing; the empty path becomes `.`. -/
def Clean (sep : Char) (path : GoString) : GoString :=
  if path = [] then ['.']
  else
    let rooted := path.head? == some sep
    let out := (splitElems sep path).foldl (cleanElem rooted) []
    let body := stringsJoin sep out.reverse
    if rooted then sep :: body
    else if out = [] then ['.'] else body

/-- Go `filepath.Join`: the elements from the first non-empty one on are joined with the
separator and the result is cleaned; when every element is empty the result is empty. -/
def Join (sep : Char) (elem : List GoString) : GoString :=
  match elem.dropWhile (fun e => e = []) with
  | [] => []
  | es => Clean sep (stringsJoin sep es)

/-! ## `bufio.Scanner` -/

/-- Go `bufio.MaxScanTokenSize`. -/
def maxScanTokenSize : Nat := 64 * 1024

/-- The segments of `data` between newlines, without the empty segment that follows a
final newline (or is the whole of an empty input). -/
def rawLines (data : GoString) : List GoString :=
  let segs := splitElems '\n' data
  if segs.getLast? = some [] then segs.dropLast else segs

/-- Go `dropCR`: one trailing carriage return is removed. -/
def dropCR (line : GoString) : GoString :=
  if line.getLast? = some '\r' then line.dropLast else line

/-- The lines a `bufio.Scanner` with `ScanLines` yields while `Scan` returns true on a
reader that delivers `data` without error: the newline-delimited lines without their end
of line marker, up to the first line that does not fit the scanner's buffer. -/
def scanLines (data : GoString) : List GoString :=
  ((rawLines data).takeWhile (fun l => l.length < maxScanTokenSize)).map dropCR

/-! ## The file tree, as observed through `io/fs` -/

mutual
/-- A file system value `fs.FS`, by what `fs.ReadDir(fileSystem, ".")` returns on it. -/
inductive FS where
  /-- The listing fails with `err`. -/
  | failing (err : GoError)
  /-- The listing succeeds with these entries. -/
  | listing (entries : List DirEntry)
/-- A directory entry `fs.DirEntry` together with what the code can obtain from it. -/
inductive DirEntry where
  /-- An entry with `IsDir() = false`; `opened` is `none` when `Open(name)` fails and
  otherwise the lines the scanner yields from the opened file. -/
  | file (name : GoString) (opened : Option (List GoString))
  /-- An entry with `IsDir() = true`; `sub` is `none` when `fs.Sub(fileSystem, name)` fails
  and otherwise the file system rooted at the entry. -/
  | dir (name : GoString) (sub : Option FS)
end

/-- The name of an entry, `entry.Name()`. -/
def DirEntry.name : DirEntry → GoString
  | .file n _ => n
  | .dir n _ => n

/-- A regular file with in-memory content `data`, as `fstest.MapFS` serves it. -/
def mapFile (name data : String) : DirEntry :=
  .file name.data (some (scanLines data.data))

/-- A directory of an in-memory file system. -/
def mapDir (name : String) (entries : List DirEntry) : DirEntry :=
  .dir name.data (some (.listing entries))

/-! ## The sequential reading of `checkDirectory` and `checkFile`

What one call sends to the channel when every goroutine it launches is run to completion
at the point where it is launched. -/

/-- The sends of `checkFile` on an opened file: one per line that contains `word`. -/
def checkFile (sep : Char) (word directory fileName : GoString) (lines : List GoString) :
    List GoString :=
  (lines.filter (fun line => Contains line word)).map (fun _ => Join sep [directory, fileName])

mutual
/-- The sends of `checkDirectory(fileSystem, directory, word, ...)`. -/
def checkDirectory (sep : Char) (word : GoString) : FS → GoString → List GoString
  | .failing _, _ => []
  | .listing es, directory => checkEntries sep word es directory
/-- The sends of the loop of `checkDirectory` over the entries still to visit. -/
def checkEntries (sep : Char) (word : GoString) : List DirEntry → GoString → List GoString
  | [], _ => []
  | e :: es, directory => checkEntry sep word e directory ++ checkEntries sep word es directory
/-- The sends of the goroutine launched for one entry. -/
def checkEntry (sep : Char) (word : GoString) : DirEntry → GoString → List GoString
  | .file _ none, _ => []
  | .file name (some lines), directory => checkFile sep word directory name lines
  | .dir _ none, _ => []
  | .dir name (some sub), directory => checkDirectory sep word sub (Join sep [directory, name])
end

/-- The sequential reading of `FindFiles`: the error of the root listing when there is
one, and otherwise the paths received from the channel until it is closed. -/
def FindFiles (sep : Char) (fileSystem : FS) (word : GoString) :
    Except GoError (List GoString) :=
  match fileSystem with
  | .failing err => .error err
  | .listing _ => .ok (checkDirectory sep word fileSystem ['.'])

/-! ## The goroutines of one `FindFiles` call -/

/-- The control points of one activation of `checkDirectory`. -/
inductive DirPC where
  /-- About to list the entries of `fsys` (the call of `fs.ReadDir`). -/
  | readDir (fsys : FS) (directory : GoString)
  /-- At the head of the loop, with the entries still to visit. -/
  | loop (directory : GoString) (rest : List DirEntry)
  /-- After `wg.Add(1)` for `entry`, before the `go` statement that launches its goroutine. -/
  | spawn (directory : GoString) (entry : DirEntry) (rest : List DirEntry)
  /-- The activation has returned `err`. -/
  | ret (err : Option GoError)

/-- What a step does to the state shared by the goroutines. -/
inductive Effect where
  /-- Nothing: the step is local to the goroutine. -/
  | none
  /-- The step is `wg.Add(1)`. -/
  | add
  /-- The step is the `go` statement that launches the goroutine of `entry`. -/
  | go (directory : GoString) (entry : DirEntry)
  /-- The step is the send of `path` on the channel. -/
  | send (path : GoString)

/-- One step of an activation of `checkDirectory`; `none` once it has returned. -/
def stepCheckDirectory : DirPC → Option (DirPC × Effect)
  | .readDir (.failing err) _ => some (.ret (some err), .none)
  | .readDir (.listing es) directory => some (.loop directory es, .none)
  | .loop _ [] => some (.ret none, .none)
  | .loop directory (e :: rest) => some (.spawn directory e rest, .add)
  | .spawn directory e rest => some (.loop directory rest, .go directory e)
  | .ret _ => none

/-- The control points of a goroutine launched by the loop of `checkDirectory`. -/
inductive Task where
  /-- Launched for `entry`, nothing executed yet. -/
  | start (directory : GoString) (entry : DirEntry)
  /-- Inside the recursive call of `checkDirectory`. -/
  | inDir (pc : DirPC)
  /-- Inside the loop of `checkFile`, with the lines the scanner has still to yield. -/
  | scan (directory fileName : GoString) (lines : List GoString)
  /-- The body is over; the deferred `wg.Done()` is pending. -/
  | exit

/-- Where the goroutine of an entry is after its first step: a directory is narrowed with
`fs.Sub` and entered under the joined path, a file is opened; when either fails the
goroutine is over. -/
def enter (sep : Char) (directory : GoString) : DirEntry → Task
  | .file _ none => .exit
  | .file name (some lines) => .scan directory name lines
  | .dir _ none => .exit
  | .dir name (some sub) => .inDir (.readDir sub (Join sep [directory, name]))

/-- One step of the body of a goroutine; `none` when only the deferred `wg.Done()` is
left.  The error a recursive `checkDirectory` returns is dropped, and `checkFile` sends the
joined path for every line that contains `word`, going on with the next line. -/
def stepGoroutine (sep : Char) (word : GoString) : Task → Option (Task × Effect)
  | .start directory entry => some (enter sep directory entry, .none)
  | .inDir pc =>
    match stepCheckDirectory pc with
    | none => some (.exit, .none)
    | some (pc', eff) => some (.inDir pc', eff)
  | .scan _ _ [] => some (.exit, .none)
  | .scan directory name (line :: rest) =>
    if Contains line word then some (.scan directory name rest, .send (Join sep [directory, name]))
    else some (.scan directory name rest, .none)
  | .exit => none

/-- The control points of `FindFiles` in the goroutine of its caller. -/
inductive MainPC where
  /-- Inside the call of `checkDirectory` on the root. -/
  | inDir (pc : DirPC)
  /-- The root call returned no error; about to launch the goroutine that closes the channel. -/
  | goCloser
  /-- About to return the channel. -/
  | retChan
  /-- Returned: `some err` stands for `(nil, err)` and `none` for `(outChan, nil)`. -/
  | returned (err : Option GoError)

/-- The control points of the goroutine that waits for the counter and closes the channel. -/
inductive CloserPC where
  /-- Not launched. -/
  | absent
  /-- Blocked in `wg.Wait()`. -/
  | waiting
  /-- The call `wg.Wait()` has returned; `close(outChan)` is pending. -/
  | closing
  /-- The channel is closed and the goroutine is over. -/
  | finished
  deriving DecidableEq

/-- The goroutines a schedule can pick. -/
inductive Actor where
  /-- The caller of `FindFiles`. -/
  | main
  /-- The goroutine launched with this identifier. -/
  | task (id : Nat)
  /-- The goroutine that closes the channel. -/
  | closer
  deriving DecidableEq

/-- The operations on the counter and the channel, in the order they happen. -/
inductive Event where
  /-- The actor executed `wg.Add(1)`. -/
  | add (who : Actor)
  /-- The actor launched goroutine `id`. -/
  | go (who : Actor) (id : Nat)
  /-- The actor sent `path` on the channel. -/
  | send (who : Actor) (path : GoString)
  /-- Goroutine `id` executed its deferred `wg.Done()` and ended. -/
  | done (id : Nat)
  /-- The call `wg.Wait()` returned. -/
  | waitReturn
  /-- The channel was closed. -/
  | close
  deriving DecidableEq

/-- The state of one `FindFiles` call. -/
structure State where
  /-- Where the caller of `FindFiles` is. -/
  main : MainPC
  /-- The goroutines launched by `checkDirectory` that have not ended, with their identifiers. -/
  tasks : List (Nat × Task)
  /-- The identifier of the next goroutine. -/
  nextId : Nat
  /-- Where the closing goroutine is. -/
  closer : CloserPC
  /-- The counter of the `sync.WaitGroup`. -/
  wg : Int
  /-- Whether the channel is closed. -/
  closed : Bool
  /-- Everything that happened on the counter and the channel, oldest first. -/
  trace : List Event

/-- The state in which `FindFiles(fileSystem, word)` is entered. -/
def initial (fileSystem : FS) : State :=
  { main := .inDir (.readDir fileSystem ['.']), tasks := [], nextId := 0,
    closer := .absent, wg := 0, closed := false, trace := [] }

/-- The goroutine with identifier `id`, when it has not ended. -/
def findTask (id : Nat) : List (Nat × Task) → Option Task
  | [] => none
  | (i, t) :: ts => if i = id then some t else findTask id ts

/-- The pool with goroutine `id` moved to control point `t`. -/
def setTask (id : Nat) (t : Task) : List (Nat × Task) → List (Nat × Task)
  | [] => []
  | (i, u) :: ts => if i = id then (i, t) :: ts else (i, u) :: setTask id t ts

/-- The pool without goroutine `id`. -/
def removeTask (id : Nat) : List (Nat × Task) → List (Nat × Task)
  | [] => []
  | (i, u) :: ts => if i = id then ts else (i, u) :: removeTask id ts

/-- A send can proceed: the channel is unbuffered, so the caller must have received it from
`FindFiles` and be ranging over it; a send on a closed channel does not block (it panics). -/
def canSend (s : State) : Bool :=
  s.closed ||
  match s.main with
  | .returned none => true
  | _ => false

/-- The shared part of a step executed by `who`; `none` when the step blocks. -/
def applyEffect (who : Actor) (s : State) : Effect → Option State
  | .none => some s
  | .add => some { s with wg := s.wg + 1, trace := s.trace ++ [.add who] }
  | .go directory entry =>
    some { s with tasks := s.tasks ++ [(s.nextId, .start directory entry)],
                  nextId := s.nextId + 1,
                  trace := s.trace ++ [.go who s.nextId] }
  | .send path =>
    if canSend s then some { s with trace := s.trace ++ [.send who path] } else none

/-- One step of the caller of `FindFiles`. -/
def stepFindFiles (s : State) : Option State :=
  match s.main with
  | .inDir pc =>
    match stepCheckDirectory pc with
    | some (pc', eff) => applyEffect .main { s with main := .inDir pc' } eff
    | none =>
      match pc with
      | .ret (some err) => some { s with main := .returned (some err) }
      | _ => some { s with main := .goCloser }
  | .goCloser => some { s with main := .retChan, closer := .waiting }
  | .retChan => some { s with main := .returned none }
  | .returned _ => none

/-- One step of the goroutine `id`, which is at control point `t`. -/
def stepTask (sep : Char) (word : GoString) (s : State) (id : Nat) (t : Task) : Option State :=
  match stepGoroutine sep word t with
  | some (t', eff) => applyEffect (.task id) { s with tasks := setTask id t' s.tasks } eff
  | none =>
    some { s with tasks := removeTask id s.tasks, wg := s.wg - 1,
                  trace := s.trace ++ [.done id] }

/-- One step of the closing goroutine: `wg.Wait()` returns only on a zero counter. -/
def stepCloser (s : State) : Option State :=
  match s.closer with
  | .waiting =>
    if s.wg = 0 then some { s with closer := .closing, trace := s.trace ++ [.waitReturn] }
    else none
  | .closing => some { s with closer := .finished, closed := true, trace := s.trace ++ [.close] }
  | _ => none

/-- One step of the actor `a`; `none` when `a` is blocked, over or not launched. -/
def step (sep : Char) (word : GoString) (s : State) : Actor → Option State
  | .main => stepFindFiles s
  | .task id =>
    match findTask id s.tasks with
    | none => none
    | some t => stepTask sep word s id t
  | .closer => stepCloser s

/-- The state after the schedule `sched`: each pick takes one step when it can and is
skipped when it cannot. -/
def exec (sep : Char) (word : GoString) (s : State) : List Actor → State
  | [] => s
  | a :: sched =>
    match step sep word s a with
    | none => exec sep word s sched
    | some s' => exec sep word s' sched

/-- The number of picks of `sched` that take a step. -/
def stepsTaken (sep : Char) (word : GoString) (s : State) : List Actor → Nat
  | [] => 0
  | a :: sched =>
    match step sep word s a with
    | none => stepsTaken sep word s sched
    | some s' => stepsTaken sep word s' sched + 1

/-- The paths sent on the channel, in the order of the sends. -/
def sentPaths : List Event → List GoString
  | [] => []
  | .send _ path :: tr => path :: sentPaths tr
  | _ :: tr => sentPaths tr

/-- The sequence delivered to the caller so far. -/
def delivered (s : State) : List GoString := sentPaths s.trace

/-- The call is over: the caller has its result, no launched goroutine is left, and the
closing goroutine, when there is one, has closed the channel. -/
def terminated (s : State) : Bool :=
  s.tasks.isEmpty &&
  match s.main, s.closer with
  | .returned (some _), .absent => true
  | .returned none, .finished => true
  | _, _ => false

/-- An actor that can take a step, when there is one: the caller first, then the oldest
goroutine, then the closing goroutine. -/
def pick (sep : Char) (word : GoString) (s : State) : Option Actor :=
  if (step sep word s .main).isSome then some .main
  else
    match s.tasks with
    | (id, _) :: _ => if (step sep word s (.task id)).isSome then some (.task id) else none
    | [] => if (step sep word s .closer).isSome then some .closer else none

/-- The schedule that runs the call for up to `fuel` steps, always taking `pick`. -/
def schedule (sep : Char) (word : GoString) : Nat → State → List Actor
  | 0, _ => []
  | fuel + 1, s =>
    match pick sep word s with
    | none => []
    | some a =>
      match step sep word s a with
      | none => []
      | some s' => a :: schedule sep word fuel s'

/-! ## Measures on the machine -/

/-- The paths an activation of `checkDirectory` has still to send, its goroutines included. -/
def pendDir (sep : Char) (word : GoString) : DirPC → List GoString
  | .readDir fsys directory => checkDirectory sep word fsys directory
  | .loop directory rest => checkEntries sep word rest directory
  | .spawn directory e rest => checkEntry sep word e directory ++ checkEntries sep word rest directory
  | .ret _ => []

/-- The paths a goroutine has still to send, the goroutines it will launch included. -/
def pendTask (sep : Char) (word : GoString) : Task → List GoString
  | .start directory e => checkEntry sep word e directory
  | .inDir pc => pendDir sep word pc
  | .scan directory name lines => checkFile sep word directory name lines
  | .exit => []

/-- The paths still to send on behalf of the root call. -/
def pendMain (sep : Char) (word : GoString) : MainPC → List GoString
  | .inDir pc => pendDir sep word pc
  | _ => []

/-- The paths still to send in state `s`. -/
def pending (sep : Char) (word : GoString) (s : State) : Multiset GoString :=
  ↑(pendMain sep word s.main) +
    (s.tasks.map (fun p => (↑(pendTask sep word p.2) : Multiset GoString))).sum

/-- One for an activation that has executed `wg.Add(1)` for a goroutine not launched yet. -/
def owedDir : DirPC → Nat
  | .spawn _ _ _ => 1
  | _ => 0

/-- The goroutines registered by `wg.Add(1)` in a task and not launched yet. -/
def owedTask : Task → Nat
  | .inDir pc => owedDir pc
  | _ => 0

/-- The goroutines registered by `wg.Add(1)` in the root call and not launched yet. -/
def owedMain : MainPC → Nat
  | .inDir pc => owedDir pc
  | _ => 0

/-- The goroutines that are registered with the counter and have not ended: those
running, and those whose `wg.Add(1)` is done and whose `go` statement is next. -/
def outstanding (s : State) : Nat :=
  s.tasks.length + owedMain s.main + (s.tasks.map (fun p => owedTask p.2)).sum

mutual
/-- The steps of `checkDirectory` on `fsys`, those of the goroutines it launches included. -/
def costFS : FS → Nat
  | .failing _ => 1
  | .listing es => costEntries es + 1
/-- The steps of the loop over the entries, those of the goroutines it launches included. -/
def costEntries : List DirEntry → Nat
  | [] => 1
  | e :: es => costEntry e + costEntries es + 2
/-- The steps of the goroutine of one entry, from its launch to its `wg.Done()`. -/
def costEntry : DirEntry → Nat
  | .file _ none => 2
  | .file _ (some lines) => lines.length + 3
  | .dir _ none => 2
  | .dir _ (some sub) => costFS sub + 3
end

/-- The steps left in an activation of `checkDirectory`. -/
def costDir : DirPC → Nat
  | .readDir fsys _ => costFS fsys
  | .loop _ rest => costEntries rest
  | .spawn _ e rest => costEntry e + costEntries rest + 1
  | .ret _ => 0

/-- The steps left in a goroutine. -/
def costTask : Task → Nat
  | .start _ e => costEntry e
  | .inDir pc => costDir pc + 2
  | .scan _ _ lines => lines.length + 2
  | .exit => 1

/-- Whether an activation of `checkDirectory` returns an error. -/
def failsDir : DirPC → Bool
  | .readDir (.failing _) _ => true
  | .ret (some _) => true
  | _ => false

/-- The steps left in the caller, with those of the closing goroutine it will launch. -/
def costMain : MainPC → Nat
  | .inDir pc => costDir pc + (if failsDir pc then 1 else 5)
  | .goCloser => 4
  | .retChan => 1
  | .returned _ => 0

/-- The steps left in the closing goroutine. -/
def costCloser : CloserPC → Nat
  | .absent => 0
  | .waiting => 2
  | .closing => 1
  | .finished => 0

/-- The steps left in state `s`. -/
def cost (s : State) : Nat :=
  costMain s.main + (s.tasks.map (fun p => costTask p.2)).sum + costCloser s.closer

/-! ## Invariants of the machine -/

/-- The counter change of an effect. -/
def Effect.adds : Effect → Nat
  | .add => 1
  | _ => 0

/-- The number of goroutines an effect launches. -/
def Effect.launches : Effect → Nat
  | .go _ _ => 1
  | _ => 0

/-- The steps of the goroutine an effect launches. -/
def Effect.cost : Effect → Nat
  | .go _ e => costEntry e
  | _ => 0

/-- The paths an effect sends at once or hands over to the goroutine it launches. -/
def Effect.sends (sep : Char) (word : GoString) : Effect → List GoString
  | .go directory e => checkEntry sep word e directory
  | .send path => [path]
  | _ => []

/-- The steps of the machine, case by case: `Step sep word s a s1` holds when actor `a`
takes `s` to `s1`. -/
inductive Step (sep : Char) (word : GoString) : State → Actor → State → Prop where
  /-- The caller takes a step of the root `checkDirectory`. -/
  | mainDir (s s1 : State) (pc pc1 : DirPC) (eff : Effect) :
      s.main = .inDir pc → stepCheckDirectory pc = some (pc1, eff) →
      applyEffect .main { s with main := .inDir pc1 } eff = some s1 → Step sep word s .main s1
  /-- The root listing failed: `FindFiles` returns the error. -/
  | mainErr (s : State) (err : GoError) :
      s.main = .inDir (.ret (some err)) →
      Step sep word s .main { s with main := .returned (some err) }
  /-- The root call returned no error. -/
  | mainOk (s : State) :
      s.main = .inDir (.ret none) → Step sep word s .main { s with main := .goCloser }
  /-- The caller launches the closing goroutine. -/
  | mainGo (s : State) :
      s.main = .goCloser → Step sep word s .main { s with main := .retChan, closer := .waiting }
  /-- The caller returns the channel. -/
  | mainRet (s : State) :
      s.main = .retChan → Step sep word s .main { s with main := .returned none }
  /-- A goroutine takes a step of its body. -/
  | body (s s1 : State) (id : Nat) (t t1 : Task) (eff : Effect) :
      findTask id s.tasks = some t → stepGoroutine sep word t = some (t1, eff) →
      applyEffect (.task id) { s with tasks := setTask id t1 s.tasks } eff = some s1 →
      Step sep word s (.task id) s1
  /-- A goroutine executes its deferred `wg.Done()` and ends. -/
  | done (s : State) (id : Nat) :
      findTask id s.tasks = some .exit →
      Step sep word s (.task id)
        { s with tasks := removeTask id s.tasks, wg := s.wg - 1, trace := s.trace ++ [.done id] }
  /-- The call `wg.Wait()` returns. -/
  | wait (s : State) :
      s.closer = .waiting → s.wg = 0 →
      Step sep word s .closer { s with closer := .closing, trace := s.trace ++ [.waitReturn] }
  /-- The channel is closed. -/
  | close (s : State) :
      s.closer = .closing →
      Step sep word s .closer
        { s with closer := .finished, closed := true, trace := s.trace ++ [.close] }

/-- The result of `FindFiles` on `fileSystem`: the error of the root listing, if any. -/
def rootError : FS → Option GoError
  | .failing err => some err
  | .listing _ => none

/-- How the control points of the caller and of the closing goroutine go together in a
call on `fileSystem`. -/
def Coherent (fileSystem : FS) (s : State) : Prop :=
  match s.main with
  | .inDir (.readDir f d) =>
    f = fileSystem ∧ d = ['.'] ∧ s.tasks = [] ∧ s.trace = [] ∧ s.closer = .absent ∧
      s.closed = false
  | .inDir (.ret (some e)) =>
    fileSystem = .failing e ∧ s.tasks = [] ∧ s.trace = [] ∧ s.closer = .absent ∧
      s.closed = false
  | .inDir _ => rootError fileSystem = none ∧ s.closer = .absent ∧ s.closed = false
  | .goCloser => rootError fileSystem = none ∧ s.closer = .absent ∧ s.closed = false
  | .returned (some e) =>
    fileSystem = .failing e ∧ s.tasks = [] ∧ s.trace = [] ∧ s.closer = .absent ∧
      s.closed = false
  | _ =>
    rootError fileSystem = none ∧ s.closer ≠ .absent ∧
      (s.closed = true ↔ s.closer = .finished) ∧
      (s.closer ≠ .waiting → s.tasks = [])

/-- The invariant of a call on `fileSystem`. -/
structure Inv (fileSystem : FS) (s : State) : Prop where
  /-- The counter is the number of registered goroutines that have not ended. -/
  wg_eq : s.wg = (outstanding s : Int)
  /-- Identifiers in use are below the next identifier. -/
  ids_lt : ∀ p ∈ s.tasks, p.1 < s.nextId
  /-- No identifier is in use twice. -/
  ids_nodup : (s.tasks.map Prod.fst).Nodup
  /-- The control points go together. -/
  coherent : Coherent fileSystem s

/-- The goroutine an effect adds to the pool when `id` is the next identifier. -/
def Effect.spawned (id : Nat) : Effect → List (Nat × Task)
  | .go directory e => [(id, .start directory e)]
  | _ => []

/-- The events an effect of `who` adds to the trace when `id` is the next identifier. -/
def Effect.events (who : Actor) (id : Nat) : Effect → List Event
  | .none => []
  | .add => [.add who]
  | .go _ _ => [.go who id]
  | .send path => [.send who path]

/-! ## The files of a tree and their relative paths -/

/-- A name a directory entry can have: not empty, not `.` or `..`, and without separator. -/
def validName (sep : Char) (n : GoString) : Bool :=
  decide (n ≠ [] ∧ n ≠ ['.'] ∧ n ≠ ['.', '.'] ∧ sep ∉ n)

mutual
/-- Every entry of the tree has a valid name. -/
def validFS (sep : Char) : FS → Bool
  | .failing _ => true
  | .listing es => validEntries sep es
/-- Every entry of the list, and below it, has a valid name. -/
def validEntries (sep : Char) : List DirEntry → Bool
  | [] => true
  | e :: es => validEntry sep e && validEntries sep es
/-- The entry, and every entry below it, has a valid name. -/
def validEntry (sep : Char) : DirEntry → Bool
  | .file n _ => validName sep n
  | .dir n none => validName sep n
  | .dir n (some sub) => validName sep n && validFS sep sub
end

/-- A file that can be opened, by the chain of directories that leads to it from the
root, its name, and the lines it yields. -/
structure FileAt where
  /-- The names of the directories from the root down to the file. -/
  chain : List GoString
  /-- The name of the file. -/
  name : GoString
  /-- The lines of the file. -/
  lines : List GoString

mutual
/-- The files that can be opened in a tree reached through `chain`, at any depth, in the
order of the listings. -/
def filesFS : FS → List GoString → List FileAt
  | .failing _, _ => []
  | .listing es, chain => filesEntries es chain
/-- The files that can be opened in and below the entries of a list. -/
def filesEntries : List DirEntry → List GoString → List FileAt
  | [], _ => []
  | e :: es, chain => filesEntry e chain ++ filesEntries es chain
/-- The files that can be opened in and below an entry. -/
def filesEntry : DirEntry → List GoString → List FileAt
  | .file _ none, _ => []
  | .file n (some lines), chain => [⟨chain, n, lines⟩]
  | .dir _ none, _ => []
  | .dir n (some sub), chain => filesFS sub (chain ++ [n])
end

/-- The location of an entry relative to the root: the names of the directories that lead
to it and its own name, joined with the separator. -/
def relPath (sep : Char) (chain : List GoString) (name : GoString) : GoString :=
  stringsJoin sep (chain ++ [name])

/-- The relative path of a file. -/
def FileAt.path (sep : Char) (f : FileAt) : GoString := relPath sep f.chain f.name

/-- The `directory` argument `checkDirectory` receives for the directory reached through
`chain`: `.` at the root. -/
def dirPath (sep : Char) (chain : List GoString) : GoString :=
  if chain = [] then ['.'] else stringsJoin sep chain

/-- The lines of a file that contain `word`. -/
def matchingLines (word : GoString) (lines : List GoString) : List GoString :=
  lines.filter (fun line => Contains line word)

/-- The sequence with, for each file that can be opened, in the order of the listings, its
relative path once per line that contains `word`. -/
def expected (sep : Char) (word : GoString) (fileSystem : FS) : List GoString :=
  (filesFS fileSystem []).flatMap
    (fun f => List.replicate (matchingLines word f.lines).length (f.path sep))

/-- An entry of the tree, by the chain of directories that leads to it, its name, and the
lines it yields when it is a file that can be opened. -/
structure Loc where
  /-- The names of the directories from the root down to the entry. -/
  chain : List GoString
  /-- The name of the entry. -/
  name : GoString
  /-- The lines of the entry; `none` for a directory and for a file that cannot be opened. -/
  content : Option (List GoString)

/-- The relative path of an entry. -/
def Loc.path (sep : Char) (l : Loc) : GoString := relPath sep l.chain l.name

mutual
/-- The entries of a tree reached through `chain`, directories included, at any depth. -/
def locsFS : FS → List GoString → List Loc
  | .failing _, _ => []
  | .listing es, chain => locsEntries es chain
/-- The entries of a list and below. -/
def locsEntries : List DirEntry → List GoString → List Loc
  | [], _ => []
  | e :: es, chain => locsEntry e chain ++ locsEntries es chain
/-- An entry and the entries below it. -/
def locsEntry : DirEntry → List GoString → List Loc
  | .file n content, chain => [⟨chain, n, content⟩]
  | .dir n none, chain => [⟨chain, n, none⟩]
  | .dir n (some sub), chain => ⟨chain, n, none⟩ :: locsFS sub (chain ++ [n])
end

/-- The tree of the tests, `testFS` in `finder_test.go`, with each listing in the order
`fstest.MapFS` gives it. -/
def testFS : FS :=
  .listing
    [ mapFile "fruit.txt" "apple, orange",
      mapFile "greeting.txt" "Hello world",
      mapDir "subdirectory"
        [ mapDir "another" [mapFile "greeting3.txt" "This file also contains Hello"],
          mapFile "greeting2.txt" "Hello gophers" ] ]

/-- A run of the call on `fileSystem` to its end, under the schedule of `pick`. -/
def runToEnd (sep : Char) (word : GoString) (fileSystem : FS) : State :=
  exec sep word (initial fileSystem)
    (schedule sep word (cost (initial fileSystem)) (initial fileSystem))

/-- A tree with a file that has the word `Hello` on three of its four lines, and an empty
file. -/
def threeLines : FS :=
  .listing
    [ mapFile "a.txt" "Hello one\nnothing\nHello two\nand Hello three",
      mapFile "empty.txt" "" ]

/-! ## Variations of a tree -/

mutual
/-- The tree with every listing rearranged by `reorder`, which is given the chain of the
directory and its entries. -/
def reorderFS (reorder : List GoString → List DirEntry → List DirEntry) :
    FS → List GoString → FS
  | .failing err, _ => .failing err
  | .listing es, chain => .listing (reorder chain (reorderEntries reorder es chain))
/-- The entries with the listings below them rearranged. -/
def reorderEntries (reorder : List GoString → List DirEntry → List DirEntry) :
    List DirEntry → List GoString → List DirEntry
  | [], _ => []
  | e :: es, chain => reorderEntry reorder e chain :: reorderEntries reorder es chain
/-- The entry with the listings below it rearranged. -/
def reorderEntry (reorder : List GoString → List DirEntry → List DirEntry) :
    DirEntry → List GoString → DirEntry
  | .file n content, _ => .file n content
  | .dir n none, _ => .dir n none
  | .dir n (some sub), chain => .dir n (some (reorderFS reorder sub (chain ++ [n])))
end

/-- An entry below the root on which the traversal fails: a file that cannot be opened, a
directory that cannot be narrowed into, a directory whose listing fails. -/
def failingEntry : DirEntry → Bool
  | .file _ none => true
  | .dir _ none => true
  | .dir _ (some (.failing _)) => true
  | _ => false

mutual
/-- The tree without the failing entries that `drop` selects by chain and name. -/
def pruneFS (drop : List GoString → GoString → Bool) : FS → List GoString → FS
  | .failing err, _ => .failing err
  | .listing es, chain => .listing (pruneEntries drop es chain)
/-- The entries without the selected failing entries, at any depth. -/
def pruneEntries (drop : List GoString → GoString → Bool) :
    List DirEntry → List GoString → List DirEntry
  | [], _ => []
  | e :: es, chain =>
    if failingEntry e && drop chain e.name then pruneEntries drop es chain
    else pruneEntry drop e chain :: pruneEntries drop es chain
/-- The entry without the selected failing entries below it. -/
def pruneEntry (drop : List GoString → GoString → Bool) : DirEntry → List GoString → DirEntry
  | .file n content, _ => .file n content
  | .dir n none, _ => .dir n none
  | .dir n (some sub), chain => .dir n (some (pruneFS drop sub (chain ++ [n])))
end

/-- A tree in which a file cannot be opened, a directory cannot be narrowed into, and a
directory cannot be listed, at the top and one level down. -/
def flakyFS : FS :=
  .listing
    [ .file "locked.txt".data none,
      .dir "noaccess".data none,
      .dir "unreadable".data (some (.failing "permission denied")),
      mapFile "greeting.txt" "Hello world",
      mapDir "sub" [.file "gone.txt".data none, mapFile "x.txt" "well, Hello"] ]

/-- A schedule that goes round the actors `rounds` times, the closing goroutine first,
then the goroutines from the youngest of the first `n` to the oldest, the caller last. -/
def roundRobin (n rounds : Nat) : List Actor :=
  (List.replicate rounds
    (Actor.closer :: ((List.range n).reverse.map Actor.task ++ [Actor.main]))).flatten

/-! ## The caller alone -/

/-- The steps the caller has left inside the root call of `checkDirectory`. -/
def dirLeft : DirPC → Nat
  | .readDir (.failing _) _ => 1
  | .readDir (.listing es) _ => 2 * es.length + 2
  | .loop _ rest => 2 * rest.length + 1
  | .spawn _ _ rest => 2 * rest.length + 2
  | .ret _ => 0

/-- The steps the caller has left before `FindFiles` returns. -/
def mainLeft : MainPC → Nat
  | .inDir pc => dirLeft pc + (if failsDir pc then 1 else 3)
  | .goCloser => 2
  | .retChan => 1
  | .returned _ => 0

/-! ## The trace -/

/-- How the trace `tr`, the identifiers `ids` of the goroutines that have not ended, the
next identifier and the channel flag go together. -/
structure TraceOK (tr : List Event) (ids : List Nat) (next : Nat) (closed : Bool) : Prop where
  /-- A goroutine that has executed `wg.Done()` was launched and is not running. -/
  done_dead : ∀ id, Event.done id ∈ tr → id < next ∧ id ∉ ids
  /-- No goroutine executes `wg.Done()` twice. -/
  done_once : ∀ id, tr.count (Event.done id) ≤ 1
  /-- A launched goroutine has an identifier below the next one. -/
  go_lt : ∀ who id, Event.go who id ∈ tr → id < next
  /-- Every identifier below the next one was launched. -/
  launched : ∀ id, id < next → ∃ who, Event.go who id ∈ tr
  /-- A launched goroutine is running or has executed `wg.Done()`. -/
  ended : ∀ id, id < next → id ∈ ids ∨ Event.done id ∈ tr
  /-- A closed channel was closed by the last event, once, after the end of every goroutine
  launched. -/
  closed_last : closed = true →
    ∃ pre, tr = pre ++ [Event.close] ∧ Event.close ∉ pre ∧
      ∀ who id, Event.go who id ∈ pre → Event.done id ∈ pre
  /-- An open channel was never closed. -/
  open_none : closed = false → Event.close ∉ tr
  /-- A goroutine sends nothing after its `wg.Done()`. -/
  send_before_done : ∀ pre post id, tr = pre ++ Event.done id :: post →
    ∀ path, Event.send (.task id) path ∉ post
  /-- Only launched goroutines send. -/
  send_by_task : ∀ who path, Event.send who path ∈ tr → ∃ id, who = .task id ∧ id < next

/-- The number of `wg.Add(1)` in a trace. -/
def addCount : List Event → Nat
  | [] => 0
  | .add _ :: tr => addCount tr + 1
  | _ :: tr => addCount tr

/-- The number of goroutines launched in a trace. -/
def goCount : List Event → Nat
  | [] => 0
  | .go _ _ :: tr => goCount tr + 1
  | _ :: tr => goCount tr

/-- The number of `wg.Done()` in a trace. -/
def doneCount : List Event → Nat
  | [] => 0
  | .done _ :: tr => doneCount tr + 1
  | _ :: tr => doneCount tr

/-- How the counts of the trace and the pool go together. -/
structure Counts (s : State) : Prop where
  /-- One `wg.Add(1)` per goroutine launched or about to be launched. -/
  adds_eq : addCount s.trace
    = goCount s.trace + owedMain s.main + (s.tasks.map (fun p => owedTask p.2)).sum
  /-- The goroutines launched are those that ended and those in the pool. -/
  gos_eq : goCount s.trace = doneCount s.trace + s.tasks.length
  /-- The next identifier is the number of goroutines launched. -/
  next_eq : s.nextId = goCount s.trace

/-- The file system `os.DirFS("/non-existing/directory")` of the tests: listing it fails. -/
def missingRoot : FS :=
  .failing "open /non-existing/directory: no such file or directory"

/-- The elements of the relative path of an entry. -/
def Loc.elems (l : Loc) : List GoString := l.chain ++ [l.name]

/-- A file that can be opened, as an entry of the tree. -/
def FileAt.toLoc (f : FileAt) : Loc := ⟨f.chain, f.name, some f.lines⟩

mutual
/-- No listing of the tree has two entries with the same name. -/
def distinctFS : FS → Bool
  | .failing _ => true
  | .listing es => decide ((es.map DirEntry.name).Nodup) && distinctEntries es
/-- No listing below the entries has two entries with the same name. -/
def distinctEntries : List DirEntry → Bool
  | [] => true
  | e :: es => distinctEntry e && distinctEntries es
/-- No listing below the entry has two entries with the same name. -/
def distinctEntry : DirEntry → Bool
  | .file _ _ => true
  | .dir _ none => true
  | .dir _ (some sub) => distinctFS sub
end

/-- A content whose first line is as long as the scanner's buffer (`maxScanTokenSize`
times `x`), followed by the line `Hello`. -/
def longLineContent : GoString :=
  List.replicate maxScanTokenSize 'x' ++ '\n' :: "Hello".data

/-- A tree with one file, `big.txt`, whose content is `longLineContent`. -/
def longLineFS : FS :=
  .listing [.file "big.txt".data (some (scanLines longLineContent))]

/-- A tree with one file, `dos.txt`, whose lines end in a carriage return and a newline. -/
def crlfFS : FS :=
  .listing [mapFile "dos.txt" "Hello\r\nbye\r\n"]


/-! ## Theorems -/

/-! ### Schedules -/

/-- A property that holds initially and is kept by every step holds after every schedule. -/
theorem exec_induction (sep : Char) (word : GoString) (P : State → Prop)
    (hstep : ∀ s a s1, P s → step sep word s a = some s1 → P s1) :
    ∀ (sched : List Actor) (s : State), P s → P (exec sep word s sched) := by
  intro sched
  induction sched with
  | nil => intro s h; exact h
  | cons a sched ih =>
    intro s h
    simp only [exec]
    cases hs : step sep word s a with
    | none => exact ih s h
    | some s1 => exact ih s1 (hstep s a s1 h hs)

theorem stepGoroutine_none (sep : Char) (word : GoString) (t : Task)
    (h : stepGoroutine sep word t = none) : t = .exit := by
  cases t with
  | start d e => simp [stepGoroutine] at h
  | inDir pc =>
    simp only [stepGoroutine] at h
    cases hd : stepCheckDirectory pc <;> simp [hd] at h
  | scan d n lines =>
    cases lines with
    | nil => simp [stepGoroutine] at h
    | cons l ls =>
      simp only [stepGoroutine] at h
      split at h <;> simp at h
  | exit => rfl

theorem stepCheckDirectory_none (pc : DirPC) (h : stepCheckDirectory pc = none) : ∃ err, pc = .ret err := by
  cases pc with
  | readDir f d => cases f <;> simp [stepCheckDirectory] at h
  | loop d rest => cases rest <;> simp [stepCheckDirectory] at h
  | spawn d e rest => simp [stepCheckDirectory] at h
  | ret err => exact ⟨err, rfl⟩

/-- Every step of the machine is one of the cases of `Step`. -/
theorem step_sound (sep : Char) (word : GoString) (s s1 : State) (a : Actor)
    (h : step sep word s a = some s1) : Step sep word s a s1 := by
  cases a with
  | main =>
    simp only [step, stepFindFiles] at h
    cases hm : s.main with
    | inDir pc =>
      rw [hm] at h
      simp only at h
      cases hd : stepCheckDirectory pc with
      | some r =>
        obtain ⟨pc1, eff⟩ := r
        rw [hd] at h
        exact Step.mainDir s s1 pc pc1 eff hm hd h
      | none =>
        rw [hd] at h
        obtain ⟨err, rfl⟩ := stepCheckDirectory_none pc hd
        cases err with
        | none =>
          simp only [Option.some.injEq] at h
          subst h
          exact Step.mainOk s hm
        | some e =>
          simp only [Option.some.injEq] at h
          subst h
          exact Step.mainErr s e hm
    | goCloser =>
      rw [hm] at h
      simp only [Option.some.injEq] at h
      subst h
      exact Step.mainGo s hm
    | retChan =>
      rw [hm] at h
      simp only [Option.some.injEq] at h
      subst h
      exact Step.mainRet s hm
    | returned r =>
      rw [hm] at h
      simp at h
  | task id =>
    simp only [step] at h
    cases hf : findTask id s.tasks with
    | none => rw [hf] at h; simp at h
    | some t =>
      rw [hf] at h
      simp only [stepTask] at h
      cases hb : stepGoroutine sep word t with
      | none =>
        rw [hb] at h
        simp only [Option.some.injEq] at h
        subst h
        have := stepGoroutine_none sep word t hb
        subst this
        exact Step.done s id hf
      | some r =>
        obtain ⟨t1, eff⟩ := r
        rw [hb] at h
        exact Step.body s s1 id t t1 eff hf hb h
  | closer =>
    simp only [step, stepCloser] at h
    cases hc : s.closer with
    | absent => rw [hc] at h; simp at h
    | waiting =>
      rw [hc] at h
      simp only at h
      split at h
      · rename_i hw
        simp only [Option.some.injEq] at h
        subst h
        exact Step.wait s hc hw
      · simp at h
    | closing =>
      rw [hc] at h
      simp only [Option.some.injEq] at h
      subst h
      exact Step.close s hc
    | finished => rw [hc] at h; simp at h

/-! ### The pool of goroutines -/

theorem sum_setTask {M : Type} [AddCommMonoid M] (f : Task → M) (id : Nat) (t t1 : Task) :
    ∀ ts : List (Nat × Task), findTask id ts = some t →
      ((setTask id t1 ts).map (fun p => f p.2)).sum + f t
        = (ts.map (fun p => f p.2)).sum + f t1 := by
  intro ts
  induction ts with
  | nil => intro h; simp [findTask] at h
  | cons p ts ih =>
    obtain ⟨i, u⟩ := p
    intro h
    simp only [findTask] at h
    by_cases hi : i = id
    · simp only [hi, if_true, Option.some.injEq] at h
      subst h
      simp only [setTask, hi, if_true, List.map_cons, List.sum_cons]
      abel
    · simp only [hi, if_false] at h
      simp only [setTask, hi, if_false, List.map_cons, List.sum_cons]
      rw [add_assoc, ih h]
      abel

theorem sum_removeTask {M : Type} [AddCommMonoid M] (f : Task → M) (id : Nat) (t : Task) :
    ∀ ts : List (Nat × Task), findTask id ts = some t →
      ((removeTask id ts).map (fun p => f p.2)).sum + f t = (ts.map (fun p => f p.2)).sum := by
  intro ts
  induction ts with
  | nil => intro h; simp [findTask] at h
  | cons p ts ih =>
    obtain ⟨i, u⟩ := p
    intro h
    simp only [findTask] at h
    by_cases hi : i = id
    · simp only [hi, if_true, Option.some.injEq] at h
      subst h
      simp only [removeTask, hi, if_true, List.map_cons, List.sum_cons]
      abel
    · simp only [hi, if_false] at h
      simp only [removeTask, hi, if_false, List.map_cons, List.sum_cons]
      rw [add_assoc, ih h]

theorem length_setTask (id : Nat) (t1 : Task) (ts : List (Nat × Task)) :
    (setTask id t1 ts).length = ts.length := by
  induction ts with
  | nil => rfl
  | cons p ts ih =>
    obtain ⟨i, u⟩ := p
    by_cases hi : i = id <;> simp [setTask, hi, ih]

theorem map_fst_setTask (id : Nat) (t1 : Task) (ts : List (Nat × Task)) :
    (setTask id t1 ts).map Prod.fst = ts.map Prod.fst := by
  induction ts with
  | nil => rfl
  | cons p ts ih =>
    obtain ⟨i, u⟩ := p
    by_cases hi : i = id <;> simp [setTask, hi, ih]

theorem length_removeTask (id : Nat) (t : Task) (ts : List (Nat × Task))
    (h : findTask id ts = some t) : (removeTask id ts).length + 1 = ts.length := by
  induction ts with
  | nil => simp [findTask] at h
  | cons p ts ih =>
    obtain ⟨i, u⟩ := p
    simp only [findTask] at h
    by_cases hi : i = id
    · simp [removeTask, hi]
    · simp only [hi, if_false] at h
      simp [removeTask, hi, ih h]

theorem removeTask_sublist (id : Nat) (ts : List (Nat × Task)) :
    (removeTask id ts).Sublist ts := by
  induction ts with
  | nil => exact List.Sublist.refl _
  | cons p ts ih =>
    obtain ⟨i, u⟩ := p
    by_cases hi : i = id
    · simp only [removeTask, hi, if_true]
      exact List.sublist_cons_self _ _
    · simp only [removeTask, hi, if_false]
      exact ih.cons₂ _

theorem findTask_mem (id : Nat) (t : Task) (ts : List (Nat × Task))
    (h : findTask id ts = some t) : (id, t) ∈ ts := by
  induction ts with
  | nil => simp [findTask] at h
  | cons p ts ih =>
    obtain ⟨i, u⟩ := p
    simp only [findTask] at h
    by_cases hi : i = id
    · simp only [hi, if_true, Option.some.injEq] at h
      simp [hi, h]
    · simp only [hi, if_false] at h
      exact List.mem_cons_of_mem _ (ih h)

theorem removeTask_not_mem (id : Nat) (ts : List (Nat × Task))
    (hnd : (ts.map Prod.fst).Nodup) : id ∉ (removeTask id ts).map Prod.fst := by
  induction ts with
  | nil => simp [removeTask]
  | cons p ts ih =>
    obtain ⟨i, u⟩ := p
    simp only [List.map_cons, List.nodup_cons] at hnd
    by_cases hi : i = id
    · simp only [removeTask, hi, if_true]
      rw [← hi]
      exact hnd.1
    · simp only [removeTask, hi, if_false, List.map_cons, List.mem_cons, not_or]
      exact ⟨fun hh => hi hh.symm, ih hnd.2⟩

theorem setTask_mem (id : Nat) (t1 : Task) (ts : List (Nat × Task)) (p : Nat × Task)
    (h : p ∈ setTask id t1 ts) : p.1 ∈ ts.map Prod.fst := by
  have : p.1 ∈ (setTask id t1 ts).map Prod.fst := List.mem_map_of_mem _ h
  rwa [map_fst_setTask] at this

/-! ### The measures along a step of `checkDirectory` and of a goroutine body -/

theorem stepCheckDirectory_cost (pc pc1 : DirPC) (eff : Effect) (h : stepCheckDirectory pc = some (pc1, eff)) :
    costDir pc = costDir pc1 + eff.cost + 1 ∧ failsDir pc1 = failsDir pc := by
  cases pc with
  | readDir f d =>
    cases f <;> simp only [stepCheckDirectory, Option.some.injEq, Prod.mk.injEq] at h <;>
      obtain ⟨rfl, rfl⟩ := h <;> simp [costDir, costFS, Effect.cost, failsDir]
  | loop d rest =>
    cases rest <;> simp only [stepCheckDirectory, Option.some.injEq, Prod.mk.injEq] at h <;>
      obtain ⟨rfl, rfl⟩ := h <;> simp [costDir, costEntries, Effect.cost, failsDir]
  | spawn d e rest =>
    simp only [stepCheckDirectory, Option.some.injEq, Prod.mk.injEq] at h
    obtain ⟨rfl, rfl⟩ := h
    simp [costDir, Effect.cost, failsDir]
    omega
  | ret err => simp [stepCheckDirectory] at h

theorem stepCheckDirectory_owed (pc pc1 : DirPC) (eff : Effect) (h : stepCheckDirectory pc = some (pc1, eff)) :
    owedDir pc1 + eff.launches = owedDir pc + eff.adds := by
  cases pc with
  | readDir f d =>
    cases f <;> simp only [stepCheckDirectory, Option.some.injEq, Prod.mk.injEq] at h <;>
      obtain ⟨rfl, rfl⟩ := h <;> simp [owedDir, Effect.launches, Effect.adds]
  | loop d rest =>
    cases rest <;> simp only [stepCheckDirectory, Option.some.injEq, Prod.mk.injEq] at h <;>
      obtain ⟨rfl, rfl⟩ := h <;> simp [owedDir, Effect.launches, Effect.adds]
  | spawn d e rest =>
    simp only [stepCheckDirectory, Option.some.injEq, Prod.mk.injEq] at h
    obtain ⟨rfl, rfl⟩ := h
    simp [owedDir, Effect.launches, Effect.adds]
  | ret err => simp [stepCheckDirectory] at h

theorem stepCheckDirectory_pend (sep : Char) (word : GoString) (pc pc1 : DirPC) (eff : Effect)
    (h : stepCheckDirectory pc = some (pc1, eff)) :
    (↑(pendDir sep word pc) : Multiset GoString)
      = ↑(pendDir sep word pc1) + ↑(eff.sends sep word) := by
  cases pc with
  | readDir f d =>
    cases f <;> simp only [stepCheckDirectory, Option.some.injEq, Prod.mk.injEq] at h <;>
      obtain ⟨rfl, rfl⟩ := h <;> simp [pendDir, checkDirectory, Effect.sends]
  | loop d rest =>
    cases rest <;> simp only [stepCheckDirectory, Option.some.injEq, Prod.mk.injEq] at h <;>
      obtain ⟨rfl, rfl⟩ := h <;> simp [pendDir, checkEntries, Effect.sends]
  | spawn d e rest =>
    simp only [stepCheckDirectory, Option.some.injEq, Prod.mk.injEq] at h
    obtain ⟨rfl, rfl⟩ := h
    simp only [pendDir, Effect.sends, Multiset.coe_add]
    exact Multiset.coe_eq_coe.mpr List.perm_append_comm
  | ret err => simp [stepCheckDirectory] at h

theorem stepCheckDirectory_not_send (pc pc1 : DirPC) (eff : Effect) (h : stepCheckDirectory pc = some (pc1, eff)) :
    ∀ path, eff ≠ .send path := by
  cases pc with
  | readDir f d =>
    cases f <;> simp only [stepCheckDirectory, Option.some.injEq, Prod.mk.injEq] at h <;>
      obtain ⟨rfl, rfl⟩ := h <;> simp
  | loop d rest =>
    cases rest <;> simp only [stepCheckDirectory, Option.some.injEq, Prod.mk.injEq] at h <;>
      obtain ⟨rfl, rfl⟩ := h <;> simp
  | spawn d e rest =>
    simp only [stepCheckDirectory, Option.some.injEq, Prod.mk.injEq] at h
    obtain ⟨rfl, rfl⟩ := h
    simp
  | ret err => simp [stepCheckDirectory] at h

theorem costTask_enter (sep : Char) (d : GoString) (e : DirEntry) :
    costEntry e = costTask (enter sep d e) + 1 := by
  cases e with
  | file n o => cases o <;> simp [enter, costEntry, costTask]
  | dir n o => cases o <;> simp [enter, costEntry, costTask, costDir]

theorem pendTask_enter (sep : Char) (word d : GoString) (e : DirEntry) :
    pendTask sep word (enter sep d e) = checkEntry sep word e d := by
  cases e with
  | file n o => cases o <;> simp [enter, checkEntry, pendTask]
  | dir n o => cases o <;> simp [enter, checkEntry, pendTask, pendDir]

theorem owedTask_enter (sep : Char) (d : GoString) (e : DirEntry) :
    owedTask (enter sep d e) = 0 := by
  cases e with
  | file n o => cases o <;> simp [enter, owedTask]
  | dir n o => cases o <;> simp [enter, owedTask, owedDir]

theorem stepGoroutine_cost (sep : Char) (word : GoString) (t t1 : Task) (eff : Effect)
    (h : stepGoroutine sep word t = some (t1, eff)) :
    costTask t = costTask t1 + eff.cost + 1 := by
  cases t with
  | start d e =>
    simp only [stepGoroutine, Option.some.injEq, Prod.mk.injEq] at h
    obtain ⟨rfl, rfl⟩ := h
    simp [costTask, Effect.cost, costTask_enter sep d e]
  | inDir pc =>
    simp only [stepGoroutine] at h
    cases hd : stepCheckDirectory pc with
    | none =>
      rw [hd] at h
      simp only [Option.some.injEq, Prod.mk.injEq] at h
      obtain ⟨rfl, rfl⟩ := h
      obtain ⟨err, rfl⟩ := stepCheckDirectory_none pc hd
      simp [costTask, costDir, Effect.cost]
    | some r =>
      obtain ⟨pc1, eff1⟩ := r
      rw [hd] at h
      simp only [Option.some.injEq, Prod.mk.injEq] at h
      obtain ⟨rfl, rfl⟩ := h
      have := (stepCheckDirectory_cost pc pc1 eff1 hd).1
      simp only [costTask]
      omega
  | scan d n lines =>
    cases lines with
    | nil =>
      simp only [stepGoroutine, Option.some.injEq, Prod.mk.injEq] at h
      obtain ⟨rfl, rfl⟩ := h
      simp [costTask, Effect.cost]
    | cons l ls =>
      simp only [stepGoroutine] at h
      split at h <;> simp only [Option.some.injEq, Prod.mk.injEq] at h <;>
        obtain ⟨rfl, rfl⟩ := h <;> simp [costTask, Effect.cost]
  | exit => simp [stepGoroutine] at h

theorem stepGoroutine_owed (sep : Char) (word : GoString) (t t1 : Task) (eff : Effect)
    (h : stepGoroutine sep word t = some (t1, eff)) :
    owedTask t1 + eff.launches = owedTask t + eff.adds := by
  cases t with
  | start d e =>
    simp only [stepGoroutine, Option.some.injEq, Prod.mk.injEq] at h
    obtain ⟨rfl, rfl⟩ := h
    rw [owedTask_enter]
    simp [owedTask, Effect.launches, Effect.adds]
  | inDir pc =>
    simp only [stepGoroutine] at h
    cases hd : stepCheckDirectory pc with
    | none =>
      rw [hd] at h
      simp only [Option.some.injEq, Prod.mk.injEq] at h
      obtain ⟨rfl, rfl⟩ := h
      obtain ⟨err, rfl⟩ := stepCheckDirectory_none pc hd
      simp [owedTask, owedDir, Effect.launches, Effect.adds]
    | some r =>
      obtain ⟨pc1, eff1⟩ := r
      rw [hd] at h
      simp only [Option.some.injEq, Prod.mk.injEq] at h
      obtain ⟨rfl, rfl⟩ := h
      exact stepCheckDirectory_owed pc pc1 eff1 hd
  | scan d n lines =>
    cases lines with
    | nil =>
      simp only [stepGoroutine, Option.some.injEq, Prod.mk.injEq] at h
      obtain ⟨rfl, rfl⟩ := h
      simp [owedTask, Effect.launches, Effect.adds]
    | cons l ls =>
      simp only [stepGoroutine] at h
      split at h <;> simp only [Option.some.injEq, Prod.mk.injEq] at h <;>
        obtain ⟨rfl, rfl⟩ := h <;> simp [owedTask, Effect.launches, Effect.adds]
  | exit => simp [stepGoroutine] at h

theorem stepGoroutine_pend (sep : Char) (word : GoString) (t t1 : Task) (eff : Effect)
    (h : stepGoroutine sep word t = some (t1, eff)) :
    (↑(pendTask sep word t) : Multiset GoString)
      = ↑(pendTask sep word t1) + ↑(eff.sends sep word) := by
  cases t with
  | start d e =>
    simp only [stepGoroutine, Option.some.injEq, Prod.mk.injEq] at h
    obtain ⟨rfl, rfl⟩ := h
    rw [pendTask_enter]
    simp [pendTask, Effect.sends]
  | inDir pc =>
    simp only [stepGoroutine] at h
    cases hd : stepCheckDirectory pc with
    | none =>
      rw [hd] at h
      simp only [Option.some.injEq, Prod.mk.injEq] at h
      obtain ⟨rfl, rfl⟩ := h
      obtain ⟨err, rfl⟩ := stepCheckDirectory_none pc hd
      simp [pendTask, pendDir, Effect.sends]
    | some r =>
      obtain ⟨pc1, eff1⟩ := r
      rw [hd] at h
      simp only [Option.some.injEq, Prod.mk.injEq] at h
      obtain ⟨rfl, rfl⟩ := h
      exact stepCheckDirectory_pend sep word pc pc1 eff1 hd
  | scan d n lines =>
    cases lines with
    | nil =>
      simp only [stepGoroutine, Option.some.injEq, Prod.mk.injEq] at h
      obtain ⟨rfl, rfl⟩ := h
      simp [pendTask, checkFile, Effect.sends]
    | cons l ls =>
      simp only [stepGoroutine] at h
      split at h
      · rename_i hc
        simp only [Option.some.injEq, Prod.mk.injEq] at h
        obtain ⟨rfl, rfl⟩ := h
        simp only [pendTask, checkFile, Effect.sends, List.filter_cons, hc, if_true,
          List.map_cons]
        rw [Multiset.coe_add]
        exact Multiset.coe_eq_coe.mpr (List.perm_append_singleton _ _).symm
      · rename_i hc
        simp only [Option.some.injEq, Prod.mk.injEq] at h
        obtain ⟨rfl, rfl⟩ := h
        simp [pendTask, checkFile, Effect.sends, List.filter_cons, hc]
  | exit => simp [stepGoroutine] at h

/-! ### The invariant -/

theorem applyEffect_fields (who : Actor) (s s1 : State) (eff : Effect)
    (h : applyEffect who s eff = some s1) :
    s1.main = s.main ∧ s1.closer = s.closer ∧ s1.closed = s.closed ∧
      s1.wg = s.wg + (eff.adds : Int) ∧ s1.tasks = s.tasks ++ eff.spawned s.nextId ∧
      s1.nextId = s.nextId + eff.launches ∧ s1.trace = s.trace ++ eff.events who s.nextId := by
  cases eff with
  | none =>
    simp only [applyEffect, Option.some.injEq] at h
    subst h
    simp [Effect.adds, Effect.spawned, Effect.launches, Effect.events]
  | add =>
    simp only [applyEffect, Option.some.injEq] at h
    subst h
    simp [Effect.adds, Effect.spawned, Effect.launches, Effect.events]
  | go d e =>
    simp only [applyEffect, Option.some.injEq] at h
    subst h
    simp [Effect.adds, Effect.spawned, Effect.launches, Effect.events]
  | send path =>
    simp only [applyEffect] at h
    split at h
    · simp only [Option.some.injEq] at h
      subst h
      simp [Effect.adds, Effect.spawned, Effect.launches, Effect.events]
    · simp at h

theorem spawned_owed (id : Nat) (eff : Effect) :
    ((eff.spawned id).map (fun p => owedTask p.2)).sum = 0 := by
  cases eff <;> simp [Effect.spawned, owedTask]

theorem spawned_length (id : Nat) (eff : Effect) :
    (eff.spawned id).length = eff.launches := by
  cases eff <;> simp [Effect.spawned, Effect.launches]

theorem spawned_cost (id : Nat) (eff : Effect) :
    ((eff.spawned id).map (fun p => costTask p.2)).sum = eff.cost := by
  cases eff <;> simp [Effect.spawned, Effect.cost, costTask]

theorem spawned_pend (who : Actor) (sep : Char) (word : GoString) (id : Nat) (eff : Effect) :
    ((eff.spawned id).map (fun p => (↑(pendTask sep word p.2) : Multiset GoString))).sum
      + ↑(sentPaths (eff.events who id)) = ↑(eff.sends sep word) := by
  cases eff <;> simp [Effect.spawned, Effect.sends, Effect.events, sentPaths, pendTask]

theorem ids_after_effect (ts : List (Nat × Task)) (n : Nat) (eff : Effect)
    (hlt : ∀ p ∈ ts, p.1 < n) (hnd : (ts.map Prod.fst).Nodup) :
    (∀ p ∈ ts ++ eff.spawned n, p.1 < n + eff.launches) ∧
      ((ts ++ eff.spawned n).map Prod.fst).Nodup := by
  cases eff with
  | go d e =>
    simp only [Effect.spawned, Effect.launches]
    constructor
    · intro p hp
      rcases List.mem_append.mp hp with hp | hp
      · have := hlt p hp; omega
      · simp only [List.mem_singleton] at hp
        subst hp
        simp
    · rw [List.map_append, List.nodup_append]
      refine ⟨hnd, by simp, ?_⟩
      intro a ha hb
      simp only [List.map_cons, List.map_nil, List.mem_singleton] at hb
      obtain ⟨p, hp, rfl⟩ := List.mem_map.mp ha
      have := hlt p hp
      omega
  | none =>
    simp only [Effect.spawned, Effect.launches, List.append_nil, Nat.add_zero]
    exact ⟨hlt, hnd⟩
  | add =>
    simp only [Effect.spawned, Effect.launches, List.append_nil, Nat.add_zero]
    exact ⟨hlt, hnd⟩
  | send path =>
    simp only [Effect.spawned, Effect.launches, List.append_nil, Nat.add_zero]
    exact ⟨hlt, hnd⟩

theorem inv_initial (fileSystem : FS) : Inv fileSystem (initial fileSystem) := by
  refine ⟨?_, ?_, ?_, ?_⟩
  · simp [initial, outstanding, owedMain, owedDir]
  · simp [initial]
  · simp [initial]
  · simp [initial, Coherent]

theorem coherent_tasks_of_find (fileSystem : FS) (s : State) (id : Nat) (t : Task)
    (hc : Coherent fileSystem s) (hf : findTask id s.tasks = some t) :
    rootError fileSystem = none ∧
      ((∃ pc, s.main = .inDir pc ∧ (∀ f d, pc ≠ .readDir f d) ∧ (∀ e, pc ≠ .ret (some e)) ∧
          s.closer = .absent ∧ s.closed = false)
        ∨ (s.main = .goCloser ∧ s.closer = .absent ∧ s.closed = false)
        ∨ ((s.main = .retChan ∨ s.main = .returned none) ∧ s.closer = .waiting ∧
            s.closed = false)) := by
  have hne : s.tasks ≠ [] := by
    intro h
    rw [h] at hf
    simp [findTask] at hf
  unfold Coherent at hc
  cases hm : s.main with
  | inDir pc =>
    rw [hm] at hc
    cases pc with
    | readDir f d => exact absurd hc.2.2.1 hne
    | ret err =>
      cases err with
      | some e => exact absurd hc.2.1 hne
      | none => exact ⟨hc.1, Or.inl ⟨_, rfl, by simp, by simp, hc.2.1, hc.2.2⟩⟩
    | loop d rest => exact ⟨hc.1, Or.inl ⟨_, rfl, by simp, by simp, hc.2.1, hc.2.2⟩⟩
    | spawn d e rest => exact ⟨hc.1, Or.inl ⟨_, rfl, by simp, by simp, hc.2.1, hc.2.2⟩⟩
  | goCloser =>
    rw [hm] at hc
    exact ⟨hc.1, Or.inr (Or.inl ⟨rfl, hc.2.1, hc.2.2⟩)⟩
  | retChan =>
    rw [hm] at hc
    have hw : s.closer = .waiting := by
      by_contra hw
      exact hne (hc.2.2.2 hw)
    have hcl : s.closed = false := by
      cases hcd : s.closed with
      | false => rfl
      | true => rw [hc.2.2.1.mp hcd] at hw; simp at hw
    exact ⟨hc.1, Or.inr (Or.inr ⟨Or.inl rfl, hw, hcl⟩)⟩
  | returned r =>
    rw [hm] at hc
    cases r with
    | some e => exact absurd hc.2.1 hne
    | none =>
      have hw : s.closer = .waiting := by
        by_contra hw
        exact hne (hc.2.2.2 hw)
      have hcl : s.closed = false := by
        cases hcd : s.closed with
        | false => rfl
        | true => rw [hc.2.2.1.mp hcd] at hw; simp at hw
      exact ⟨hc.1, Or.inr (Or.inr ⟨Or.inr rfl, hw, hcl⟩)⟩

/-- Coherence only looks at the caller, the closing goroutine, the channel flag, and at
whether the pool and the trace are empty. -/
theorem coherent_of_tasks (fileSystem : FS) (s s1 : State) (id : Nat) (t : Task)
    (hc : Coherent fileSystem s) (hf : findTask id s.tasks = some t)
    (hm : s1.main = s.main) (hcl : s1.closer = s.closer) (hcd : s1.closed = s.closed) :
    Coherent fileSystem s1 := by
  obtain ⟨hr, h | h | h⟩ := coherent_tasks_of_find fileSystem s id t hc hf
  · obtain ⟨pc, hpc, hnr, hne, hab, hcf⟩ := h
    unfold Coherent
    rw [hm, hpc]
    cases pc with
    | readDir f d => exact absurd rfl (hnr f d)
    | ret err =>
      cases err with
      | some e => exact absurd rfl (hne e)
      | none => exact ⟨hr, by rw [hcl, hab], by rw [hcd, hcf]⟩
    | loop d rest => exact ⟨hr, by rw [hcl, hab], by rw [hcd, hcf]⟩
    | spawn d e rest => exact ⟨hr, by rw [hcl, hab], by rw [hcd, hcf]⟩
  · unfold Coherent
    rw [hm, h.1]
    exact ⟨hr, by rw [hcl, h.2.1], by rw [hcd, h.2.2]⟩
  · obtain ⟨hmm, hw, hcf⟩ := h
    unfold Coherent
    rw [hm]
    rcases hmm with hmm | hmm <;> rw [hmm] <;> simp only <;>
      exact ⟨hr, by rw [hcl, hw]; simp, by rw [hcd, hcl, hcf, hw]; simp,
        by rw [hcl, hw]; simp⟩

theorem inv_step (sep : Char) (word : GoString) (fileSystem : FS) (s s1 : State) (a : Actor)
    (hinv : Inv fileSystem s) (hstep : Step sep word s a s1) : Inv fileSystem s1 := by
  obtain ⟨hwg, hlt, hnd, hc⟩ := hinv
  cases hstep
  case mainDir pc pc1 eff hm hd ha =>
    obtain ⟨f1, f2, f3, f4, f5, f6, f7⟩ := applyEffect_fields _ _ _ _ ha
    simp only at f1 f2 f3 f4 f5 f6 f7
    have hids := ids_after_effect s.tasks s.nextId eff hlt hnd
    refine ⟨?_, ?_, ?_, ?_⟩
    · have ho := stepCheckDirectory_owed pc pc1 eff hd
      have hs := spawned_owed s.nextId eff
      have hl := spawned_length s.nextId eff
      rw [f4, hwg]
      simp only [outstanding, f1, f5, hm, owedMain, List.length_append, List.map_append,
        List.sum_append, hs, hl]
      omega
    · rw [f5, f6]; exact hids.1
    · rw [f5]; exact hids.2
    · unfold Coherent at hc ⊢
      rw [hm] at hc
      rw [f1]
      cases pc with
      | readDir f d =>
        obtain ⟨rfl, rfl, h3, h4, h5, h6⟩ := hc
        cases f with
        | failing e =>
          simp only [stepCheckDirectory, Option.some.injEq, Prod.mk.injEq] at hd
          obtain ⟨rfl, rfl⟩ := hd
          refine ⟨rfl, ?_, ?_, ?_, ?_⟩
          · rw [f5, h3]; rfl
          · rw [f7, h4]; rfl
          · rw [f2, h5]
          · rw [f3, h6]
        | listing es =>
          simp only [stepCheckDirectory, Option.some.injEq, Prod.mk.injEq] at hd
          obtain ⟨rfl, rfl⟩ := hd
          exact ⟨rfl, by rw [f2, h5], by rw [f3, h6]⟩
      | loop d rest =>
        cases rest <;> simp only [stepCheckDirectory, Option.some.injEq, Prod.mk.injEq] at hd <;>
          obtain ⟨rfl, rfl⟩ := hd <;> exact ⟨hc.1, by rw [f2, hc.2.1], by rw [f3, hc.2.2]⟩
      | spawn d e rest =>
        simp only [stepCheckDirectory, Option.some.injEq, Prod.mk.injEq] at hd
        obtain ⟨rfl, rfl⟩ := hd
        exact ⟨hc.1, by rw [f2, hc.2.1], by rw [f3, hc.2.2]⟩
      | ret err => simp [stepCheckDirectory] at hd
  case mainErr err hm =>
    refine ⟨?_, hlt, hnd, ?_⟩
    · rw [hwg]
      simp [outstanding, hm, owedMain, owedDir]
    · unfold Coherent at hc ⊢
      rw [hm] at hc
      exact hc
  case mainOk hm =>
    refine ⟨?_, hlt, hnd, ?_⟩
    · rw [hwg]
      simp [outstanding, hm, owedMain, owedDir]
    · unfold Coherent at hc ⊢
      rw [hm] at hc
      exact hc
  case mainGo hm =>
    refine ⟨?_, hlt, hnd, ?_⟩
    · rw [hwg]
      simp [outstanding, hm, owedMain]
    · unfold Coherent at hc ⊢
      rw [hm] at hc
      simp only
      refine ⟨hc.1, by simp, ?_, by simp⟩
      rw [hc.2.2]
      simp
  case mainRet hm =>
    refine ⟨?_, hlt, hnd, ?_⟩
    · rw [hwg]
      simp [outstanding, hm, owedMain]
    · unfold Coherent at hc ⊢
      rw [hm] at hc
      exact hc
  case body id t t1 eff hf hb ha =>
    obtain ⟨f1, f2, f3, f4, f5, f6, f7⟩ := applyEffect_fields _ _ _ _ ha
    simp only at f1 f2 f3 f4 f5 f6 f7
    have hlt1 : ∀ p ∈ setTask id t1 s.tasks, p.1 < s.nextId := by
      intro p hp
      obtain ⟨q, hq, hqp⟩ := List.mem_map.mp (setTask_mem id t1 s.tasks p hp)
      rw [← hqp]
      exact hlt q hq
    have hnd1 : ((setTask id t1 s.tasks).map Prod.fst).Nodup := by
      rw [map_fst_setTask]; exact hnd
    have hids := ids_after_effect (setTask id t1 s.tasks) s.nextId eff hlt1 hnd1
    refine ⟨?_, ?_, ?_, ?_⟩
    · have ho := stepGoroutine_owed sep word t t1 eff hb
      have hs := spawned_owed s.nextId eff
      have hl := spawned_length s.nextId eff
      have hsum := sum_setTask owedTask id t t1 s.tasks hf
      rw [f4, hwg]
      simp only [outstanding, f1, f5, List.length_append, List.map_append,
        List.sum_append, hs, hl, length_setTask]
      omega
    · rw [f5, f6]; exact hids.1
    · rw [f5]; exact hids.2
    · exact coherent_of_tasks fileSystem s s1 id t hc hf f1 f2 f3
  case done id hf =>
    refine ⟨?_, ?_, ?_, ?_⟩
    · have hl := length_removeTask id _ s.tasks hf
      have hsum := sum_removeTask owedTask id _ s.tasks hf
      have h0 : owedTask Task.exit = 0 := rfl
      rw [h0] at hsum
      simp only [outstanding] at hwg ⊢
      rw [hwg]
      omega
    · intro p hp
      exact hlt p ((removeTask_sublist id s.tasks).subset hp)
    · exact hnd.sublist ((removeTask_sublist id s.tasks).map _)
    · exact coherent_of_tasks fileSystem s _ id _ hc hf rfl rfl rfl
  case wait hcw hz =>
    have htasks : s.tasks = [] := by
      rw [hwg] at hz
      simp only [outstanding] at hz
      have : s.tasks.length = 0 := by omega
      exact List.length_eq_zero.mp this
    refine ⟨?_, hlt, hnd, ?_⟩
    · rw [hwg]; rfl
    · unfold Coherent at hc ⊢
      simp only
      cases hm : s.main with
      | inDir pc =>
        rw [hm] at hc
        cases pc with
        | readDir f d => rw [hc.2.2.2.2.1] at hcw; simp at hcw
        | ret err =>
          cases err with
          | some e => rw [hc.2.2.2.1] at hcw; simp at hcw
          | none => rw [hc.2.1] at hcw; simp at hcw
        | loop d rest => rw [hc.2.1] at hcw; simp at hcw
        | spawn d e rest => rw [hc.2.1] at hcw; simp at hcw
      | goCloser => rw [hm] at hc; rw [hc.2.1] at hcw; simp at hcw
      | retChan =>
        rw [hm] at hc
        simp only
        refine ⟨hc.1, by simp, ?_, fun _ => htasks⟩
        have := hc.2.2.1
        rw [hcw] at this
        simpa using this
      | returned r =>
        rw [hm] at hc
        cases r with
        | some e => rw [hc.2.2.2.1] at hcw; simp at hcw
        | none =>
          simp only
          refine ⟨hc.1, by simp, ?_, fun _ => htasks⟩
          have := hc.2.2.1
          rw [hcw] at this
          simpa using this
  case close hcw =>
    refine ⟨?_, hlt, hnd, ?_⟩
    · rw [hwg]; rfl
    · unfold Coherent at hc ⊢
      simp only
      cases hm : s.main with
      | inDir pc =>
        rw [hm] at hc
        cases pc with
        | readDir f d => rw [hc.2.2.2.2.1] at hcw; simp at hcw
        | ret err =>
          cases err with
          | some e => rw [hc.2.2.2.1] at hcw; simp at hcw
          | none => rw [hc.2.1] at hcw; simp at hcw
        | loop d rest => rw [hc.2.1] at hcw; simp at hcw
        | spawn d e rest => rw [hc.2.1] at hcw; simp at hcw
      | goCloser => rw [hm] at hc; rw [hc.2.1] at hcw; simp at hcw
      | retChan =>
        rw [hm] at hc
        simp only
        exact ⟨hc.1, by simp, by simp, fun _ => hc.2.2.2 (by rw [hcw]; simp)⟩
      | returned r =>
        rw [hm] at hc
        cases r with
        | some e => rw [hc.2.2.2.1] at hcw; simp at hcw
        | none =>
          simp only
          exact ⟨hc.1, by simp, by simp, fun _ => hc.2.2.2 (by rw [hcw]; simp)⟩

/-- The invariant holds after every schedule. -/
theorem inv_exec (sep : Char) (word : GoString) (fileSystem : FS) (sched : List Actor) :
    Inv fileSystem (exec sep word (initial fileSystem) sched) :=
  exec_induction sep word (Inv fileSystem)
    (fun s a s1 h hs => inv_step sep word fileSystem s s1 a h (step_sound sep word s s1 a hs))
    sched (initial fileSystem) (inv_initial fileSystem)

/-! ### What is sent and what is left to send -/

theorem sentPaths_append (xs ys : List Event) :
    sentPaths (xs ++ ys) = sentPaths xs ++ sentPaths ys := by
  induction xs with
  | nil => rfl
  | cons e xs ih => cases e <;> simp [sentPaths, ih]

/-- A step moves paths from what is left to send to what is delivered and changes
nothing else. -/
theorem pending_step (sep : Char) (word : GoString) (s s1 : State) (a : Actor)
    (hstep : Step sep word s a s1) :
    (↑(delivered s1) : Multiset GoString) + pending sep word s1
      = ↑(delivered s) + pending sep word s := by
  cases hstep
  case mainDir pc pc1 eff hm hd ha =>
    obtain ⟨f1, f2, f3, f4, f5, f6, f7⟩ := applyEffect_fields _ _ _ _ ha
    simp only at f1 f2 f3 f4 f5 f6 f7
    have hp := stepCheckDirectory_pend sep word pc pc1 eff hd
    have hs := spawned_pend .main sep word s.nextId eff
    simp only [delivered, pending, f1, f5, f7, hm, pendMain, sentPaths_append, List.map_append,
      List.sum_append, hp, ← hs, ← Multiset.coe_add]
    abel
  case mainErr err hm => simp [delivered, pending, hm, pendMain, pendDir]
  case mainOk hm => simp [delivered, pending, hm, pendMain, pendDir]
  case mainGo hm => simp [delivered, pending, hm, pendMain]
  case mainRet hm => simp [delivered, pending, hm, pendMain]
  case body id t t1 eff hf hb ha =>
    obtain ⟨f1, f2, f3, f4, f5, f6, f7⟩ := applyEffect_fields _ _ _ _ ha
    simp only at f1 f2 f3 f4 f5 f6 f7
    have hp := stepGoroutine_pend sep word t t1 eff hb
    have hs := spawned_pend (.task id) sep word s.nextId eff
    have hsum := sum_setTask (fun u => (↑(pendTask sep word u) : Multiset GoString))
      id t t1 s.tasks hf
    beta_reduce at hsum
    rw [hp] at hsum
    have h1 : ((setTask id t1 s.tasks).map
          (fun p => (↑(pendTask sep word p.2) : Multiset GoString))).sum
        + ↑(eff.sends sep word) + ↑(pendTask sep word t1)
        = (s.tasks.map (fun p => (↑(pendTask sep word p.2) : Multiset GoString))).sum
          + ↑(pendTask sep word t1) := by
      rw [← hsum]; abel
    have h2 := add_right_cancel h1
    simp only [delivered, pending, f1, f5, f7, sentPaths_append, List.map_append,
      List.sum_append, ← Multiset.coe_add]
    rw [← h2, ← hs]
    abel
  case done id hf =>
    have hsum := sum_removeTask (fun u => (↑(pendTask sep word u) : Multiset GoString))
      id _ s.tasks hf
    beta_reduce at hsum
    have h0 : pendTask sep word Task.exit = [] := rfl
    rw [h0, Multiset.coe_nil, add_zero] at hsum
    simp [delivered, pending, sentPaths_append, sentPaths, hsum]
  case wait hcw hz => simp [delivered, pending, sentPaths_append, sentPaths]
  case close hcw => simp [delivered, pending, sentPaths_append, sentPaths]

/-- After every schedule, what is delivered and what is left to send make up the sends of
the sequential reading. -/
theorem pending_exec (sep : Char) (word : GoString) (fileSystem : FS) (sched : List Actor) :
    (↑(delivered (exec sep word (initial fileSystem) sched)) : Multiset GoString)
        + pending sep word (exec sep word (initial fileSystem) sched)
      = ↑(checkDirectory sep word fileSystem ['.']) := by
  refine exec_induction sep word
    (fun s => (↑(delivered s) : Multiset GoString) + pending sep word s
      = ↑(checkDirectory sep word fileSystem ['.'])) ?_ sched (initial fileSystem) ?_
  · intro s a s1 h hs
    rw [pending_step sep word s s1 a (step_sound sep word s s1 a hs)]
    exact h
  · simp [delivered, pending, initial, sentPaths, pendMain, pendDir]

theorem pending_terminated (sep : Char) (word : GoString) (s : State)
    (h : terminated s = true) : pending sep word s = 0 := by
  simp only [terminated, Bool.and_eq_true, List.isEmpty_iff] at h
  obtain ⟨ht, hm⟩ := h
  cases hmm : s.main with
  | inDir pc => rw [hmm] at hm; simp at hm
  | goCloser => rw [hmm] at hm; simp at hm
  | retChan => rw [hmm] at hm; simp at hm
  | returned r => simp [pending, ht, hmm, pendMain]

/-- When the call is over, the delivered sequence is a rearrangement of the sends of the
sequential reading. -/
theorem delivered_perm (sep : Char) (word : GoString) (fileSystem : FS) (sched : List Actor)
    (h : terminated (exec sep word (initial fileSystem) sched) = true) :
    (delivered (exec sep word (initial fileSystem) sched)).Perm
      (checkDirectory sep word fileSystem ['.']) := by
  have := pending_exec sep word fileSystem sched
  rw [pending_terminated sep word _ h, add_zero] at this
  exact Multiset.coe_eq_coe.mp this

/-- At any time, what has been delivered is part of the sends of the sequential reading. -/
theorem delivered_le (sep : Char) (word : GoString) (fileSystem : FS) (sched : List Actor) :
    (↑(delivered (exec sep word (initial fileSystem) sched)) : Multiset GoString)
      ≤ ↑(checkDirectory sep word fileSystem ['.']) := by
  rw [← pending_exec sep word fileSystem sched]
  exact Multiset.le_add_right _ _

/-! ### Steps left -/

theorem cost_step (sep : Char) (word : GoString) (fileSystem : FS) (s s1 : State) (a : Actor)
    (hinv : Inv fileSystem s) (hstep : Step sep word s a s1) : cost s = cost s1 + 1 := by
  obtain ⟨hwg, hlt, hnd, hc⟩ := hinv
  cases hstep
  case mainDir pc pc1 eff hm hd ha =>
    obtain ⟨f1, f2, f3, f4, f5, f6, f7⟩ := applyEffect_fields _ _ _ _ ha
    simp only at f1 f2 f3 f4 f5 f6 f7
    obtain ⟨h1, h2⟩ := stepCheckDirectory_cost pc pc1 eff hd
    have hs := spawned_cost s.nextId eff
    simp only [cost, f1, f2, f5, hm, costMain, List.map_append, List.sum_append, hs, h2]
    omega
  case mainErr err hm => simp only [cost, hm, costMain, costDir, failsDir, if_true]; omega
  case mainOk hm =>
    simp only [cost, hm, costMain, costDir, failsDir, Bool.false_eq_true, if_false]; omega
  case mainGo hm =>
    unfold Coherent at hc
    rw [hm] at hc
    simp only [cost, hm, costMain, hc.2.1, costCloser]
    omega
  case mainRet hm => simp only [cost, hm, costMain]; omega
  case body id t t1 eff hf hb ha =>
    obtain ⟨f1, f2, f3, f4, f5, f6, f7⟩ := applyEffect_fields _ _ _ _ ha
    simp only at f1 f2 f3 f4 f5 f6 f7
    have h1 := stepGoroutine_cost sep word t t1 eff hb
    have hs := spawned_cost s.nextId eff
    have hsum := sum_setTask costTask id t t1 s.tasks hf
    simp only [cost, f1, f2, f5, List.map_append, List.sum_append, hs]
    omega
  case done id hf =>
    have hsum := sum_removeTask costTask id _ s.tasks hf
    have h0 : costTask Task.exit = 1 := rfl
    rw [h0] at hsum
    simp only [cost]
    omega
  case wait hcw hz => simp only [cost, hcw, costCloser]
  case close hcw => simp only [cost, hcw, costCloser]

/-- Every pick that takes a step uses up one of the steps left. -/
theorem cost_exec (sep : Char) (word : GoString) (fileSystem : FS) (sched : List Actor) :
    cost (exec sep word (initial fileSystem) sched)
        + stepsTaken sep word (initial fileSystem) sched
      = cost (initial fileSystem) := by
  have key : ∀ (sched : List Actor) (s : State), Inv fileSystem s →
      cost (exec sep word s sched) + stepsTaken sep word s sched = cost s := by
    intro sched
    induction sched with
    | nil => intro s _; rfl
    | cons a sched ih =>
      intro s hinv
      simp only [exec, stepsTaken]
      cases hs : step sep word s a with
      | none => exact ih s hinv
      | some s1 =>
        have hst := step_sound sep word s s1 a hs
        have := ih s1 (inv_step sep word fileSystem s s1 a hinv hst)
        have := cost_step sep word fileSystem s s1 a hinv hst
        simp only
        omega
  exact key sched (initial fileSystem) (inv_initial fileSystem)

theorem costTask_pos (t : Task) : 0 < costTask t := by
  cases t with
  | start d e =>
    cases e with
    | file n o => cases o <;> simp [costTask, costEntry]
    | dir n o => cases o <;> simp [costTask, costEntry]
  | inDir pc => simp [costTask]
  | scan d n lines => simp [costTask]
  | exit => simp [costTask]

theorem terminated_iff_cost (fileSystem : FS) (s : State) (hinv : Inv fileSystem s) :
    terminated s = true ↔ cost s = 0 := by
  have hc := hinv.coherent
  unfold Coherent at hc
  constructor
  · intro h
    simp only [terminated, Bool.and_eq_true, List.isEmpty_iff] at h
    obtain ⟨ht, hm⟩ := h
    cases hmm : s.main with
    | inDir pc => rw [hmm] at hm; simp at hm
    | goCloser => rw [hmm] at hm; simp at hm
    | retChan => rw [hmm] at hm; simp at hm
    | returned r =>
      rw [hmm] at hm
      cases r with
      | some e =>
        cases hcl : s.closer <;> rw [hcl] at hm <;> simp at hm
        simp [cost, ht, hmm, costMain, hcl, costCloser]
      | none =>
        cases hcl : s.closer <;> rw [hcl] at hm <;> simp at hm
        simp [cost, ht, hmm, costMain, hcl, costCloser]
  · intro h
    simp only [cost] at h
    have h1 : costMain s.main = 0 := by omega
    have h2 : (s.tasks.map (fun p => costTask p.2)).sum = 0 := by omega
    have h3 : costCloser s.closer = 0 := by omega
    have ht : s.tasks = [] := by
      cases hts : s.tasks with
      | nil => rfl
      | cons p ts =>
        rw [hts] at h2
        have := costTask_pos p.2
        simp only [List.map_cons, List.sum_cons] at h2
        omega
    cases hmm : s.main with
    | inDir pc =>
      rw [hmm] at h1
      simp only [costMain] at h1
      split at h1 <;> omega
    | goCloser => rw [hmm] at h1; simp [costMain] at h1
    | retChan => rw [hmm] at h1; simp [costMain] at h1
    | returned r =>
      rw [hmm] at hc
      cases r with
      | some e => simp [terminated, ht, hmm, hc.2.2.2.1]
      | none =>
        cases hcl : s.closer with
        | absent => exact absurd hcl hc.2.1
        | waiting => rw [hcl] at h3; simp [costCloser] at h3
        | closing => rw [hcl] at h3; simp [costCloser] at h3
        | finished => simp [terminated, ht, hmm, hcl]

theorem stepFindFiles_isSome (s : State) (h : ∀ r, s.main ≠ .returned r) :
    (stepFindFiles s).isSome = true := by
  unfold stepFindFiles
  cases hm : s.main with
  | inDir pc =>
    simp only
    cases hd : stepCheckDirectory pc with
    | none =>
      obtain ⟨err, rfl⟩ := stepCheckDirectory_none pc hd
      cases err <;> simp
    | some r =>
      obtain ⟨pc1, eff⟩ := r
      simp only
      have hns := stepCheckDirectory_not_send pc pc1 eff hd
      cases eff with
      | send path => exact absurd rfl (hns path)
      | none => simp [applyEffect]
      | add => simp [applyEffect]
      | go d e => simp [applyEffect]
  | goCloser => simp
  | retChan => simp
  | returned r => exact absurd hm (h r)

theorem stepTask_isSome (sep : Char) (word : GoString) (s : State) (id : Nat) (t : Task)
    (h : s.main = .returned none) : (stepTask sep word s id t).isSome = true := by
  unfold stepTask
  cases hb : stepGoroutine sep word t with
  | none => simp
  | some r =>
    obtain ⟨t1, eff⟩ := r
    simp only
    cases eff with
    | send path => simp [applyEffect, canSend, h]
    | none => simp [applyEffect]
    | add => simp [applyEffect]
    | go d e => simp [applyEffect]

/-- A call that is not over can take a step: the actor chosen by `pick` is not blocked. -/
theorem progress (sep : Char) (word : GoString) (fileSystem : FS) (s : State)
    (hinv : Inv fileSystem s) (hnt : terminated s = false) :
    ∃ a s1, pick sep word s = some a ∧ step sep word s a = some s1 := by
  have key : ∃ a, pick sep word s = some a ∧ (step sep word s a).isSome = true := by
    unfold pick
    by_cases hmain : (step sep word s .main).isSome = true
    · exact ⟨.main, by simp [hmain], hmain⟩
    · have hret : ∃ r, s.main = .returned r := by
        by_contra hno
        push_neg at hno
        exact hmain (stepFindFiles_isSome s hno)
      obtain ⟨r, hr⟩ := hret
      have hc := hinv.coherent
      unfold Coherent at hc
      rw [hr] at hc
      simp only [hmain, if_false]
      cases r with
      | some e =>
        simp [terminated, hr, hc.2.1, hc.2.2.2.1] at hnt
      | none =>
        cases hts : s.tasks with
        | cons p ts =>
          obtain ⟨id, t⟩ := p
          have hf : findTask id s.tasks = some t := by simp [hts, findTask]
          have hs : (step sep word s (.task id)).isSome = true := by
            simp only [step, hf]
            exact stepTask_isSome sep word s id t hr
          exact ⟨.task id, by simp [hs], hs⟩
        | nil =>
          have hwg : s.wg = 0 := by
            rw [hinv.wg_eq]
            simp [outstanding, hts, hr, owedMain]
          cases hcl : s.closer with
          | absent => exact absurd hcl hc.2.1
          | waiting =>
            have hs : (step sep word s .closer).isSome = true := by
              simp [step, stepCloser, hcl, hwg]
            exact ⟨.closer, by simp [hs], hs⟩
          | closing =>
            have hs : (step sep word s .closer).isSome = true := by
              simp [step, stepCloser, hcl]
            exact ⟨.closer, by simp [hs], hs⟩
          | finished => simp [terminated, hr, hts, hcl] at hnt
  obtain ⟨a, hp, hs⟩ := key
  obtain ⟨s1, hs1⟩ := Option.isSome_iff_exists.mp hs
  exact ⟨a, s1, hp, hs1⟩

/-! ### Strings and paths -/

theorem hasPrefix_iff (s pre : GoString) : HasPrefix s pre = true ↔ pre <+: s := by
  induction pre generalizing s with
  | nil => cases s <;> simp [HasPrefix]
  | cons d pre ih =>
    cases s with
    | nil => simp [HasPrefix]
    | cons c s =>
      simp only [HasPrefix, Bool.and_eq_true, beq_iff_eq, ih, List.cons_prefix_cons]
      constructor
      · rintro ⟨h1, h2⟩; exact ⟨h1.symm, h2⟩
      · rintro ⟨h1, h2⟩; exact ⟨h1.symm, h2⟩

/-- The function `Contains` decides whether `substr` is a literal substring of `s`. -/
theorem contains_iff (s substr : GoString) : Contains s substr = true ↔ substr <:+: s := by
  induction s with
  | nil =>
    simp only [Contains, hasPrefix_iff, List.prefix_nil, List.infix_nil]
  | cons c s ih =>
    simp only [Contains, Bool.or_eq_true, hasPrefix_iff, ih, List.infix_cons_iff]

theorem splitElems_no_sep (sep : Char) (s : GoString) (h : sep ∉ s) :
    splitElems sep s = [s] := by
  induction s with
  | nil => rfl
  | cons c cs ih =>
    simp only [List.mem_cons, not_or] at h
    simp only [splitElems]
    rw [if_neg (fun hh => h.1 hh.symm), ih h.2]

theorem splitElems_append (sep : Char) (a b : GoString) (h : sep ∉ a) :
    splitElems sep (a ++ sep :: b) = a :: splitElems sep b := by
  induction a with
  | nil => simp [splitElems]
  | cons c cs ih =>
    simp only [List.mem_cons, not_or] at h
    have e := ih h.2
    have hc : ¬ c = sep := fun hh => h.1 hh.symm
    simp only [List.cons_append, splitElems, hc, if_false, List.append_eq, e]

theorem stringsJoin_cons (sep : Char) (e : GoString) (es : List GoString) (h : es ≠ []) :
    stringsJoin sep (e :: es) = e ++ sep :: stringsJoin sep es := by
  cases es with
  | nil => exact absurd rfl h
  | cons x xs => rfl

/-- Splitting a joined path gives back its elements when none contains the separator. -/
theorem splitElems_stringsJoin (sep : Char) (es : List GoString) (hne : es ≠ [])
    (h : ∀ e ∈ es, sep ∉ e) : splitElems sep (stringsJoin sep es) = es := by
  induction es with
  | nil => exact absurd rfl hne
  | cons e es ih =>
    cases es with
    | nil => simpa [stringsJoin] using splitElems_no_sep sep e (h e (by simp))
    | cons x xs =>
      rw [stringsJoin_cons sep e (x :: xs) (by simp),
        splitElems_append sep e _ (h e (by simp)),
        ih (by simp) (fun y hy => h y (List.mem_cons_of_mem _ hy))]

theorem stringsJoin_snoc (sep : Char) (es : List GoString) (n : GoString) (hne : es ≠ []) :
    stringsJoin sep (es ++ [n]) = stringsJoin sep es ++ sep :: n := by
  induction es with
  | nil => exact absurd rfl hne
  | cons e es ih =>
    cases es with
    | nil => rfl
    | cons x xs =>
      rw [List.cons_append, stringsJoin_cons sep e _ (by simp), ih (by simp),
        stringsJoin_cons sep e (x :: xs) (by simp)]
      simp

theorem validName_iff (sep : Char) (n : GoString) :
    validName sep n = true ↔ n ≠ [] ∧ n ≠ ['.'] ∧ n ≠ ['.', '.'] ∧ sep ∉ n := by
  simp [validName]

theorem cleanElem_valid (sep : Char) (rooted : Bool) (out : List GoString) (e : GoString)
    (h : validName sep e = true) : cleanElem rooted out e = e :: out := by
  obtain ⟨h1, h2, h3, _⟩ := (validName_iff sep e).mp h
  simp [cleanElem, h1, h2, h3]

theorem foldl_cleanElem_valid (sep : Char) (rooted : Bool) (es out : List GoString)
    (h : ∀ e ∈ es, validName sep e = true) :
    es.foldl (cleanElem rooted) out = es.reverse ++ out := by
  induction es generalizing out with
  | nil => rfl
  | cons e es ih =>
    rw [List.foldl_cons, cleanElem_valid sep rooted out e (h e (by simp)),
      ih _ (fun y hy => h y (List.mem_cons_of_mem _ hy))]
    simp

theorem stringsJoin_ne_nil (sep : Char) (es : List GoString) (hne : es ≠ [])
    (h : ∀ e ∈ es, validName sep e = true) : stringsJoin sep es ≠ [] := by
  cases es with
  | nil => exact absurd rfl hne
  | cons e es =>
    have he := ((validName_iff sep e).mp (h e (by simp))).1
    cases es with
    | nil => simpa [stringsJoin] using he
    | cons x xs =>
      rw [stringsJoin_cons sep e _ (by simp)]
      simp [he]

theorem stringsJoin_head (sep : Char) (es : List GoString) (hne : es ≠ [])
    (h : ∀ e ∈ es, validName sep e = true) : (stringsJoin sep es).head? ≠ some sep := by
  cases es with
  | nil => exact absurd rfl hne
  | cons e es =>
    obtain ⟨he, _, _, hs⟩ := (validName_iff sep e).mp (h e (by simp))
    have : (stringsJoin sep (e :: es)).head? = e.head? := by
      cases es with
      | nil => rfl
      | cons x xs =>
        rw [stringsJoin_cons sep e _ (by simp)]
        cases e with
        | nil => exact absurd rfl he
        | cons c cs => rfl
    rw [this]
    cases e with
    | nil => exact absurd rfl he
    | cons c cs =>
      simp only [List.head?_cons, ne_eq, Option.some.injEq]
      intro hc
      exact hs (by simp [hc])

/-- Cleaning a path made of valid names changes nothing. -/
theorem clean_stringsJoin (sep : Char) (es : List GoString) (hne : es ≠ [])
    (h : ∀ e ∈ es, validName sep e = true) :
    Clean sep (stringsJoin sep es) = stringsJoin sep es := by
  have hn := stringsJoin_ne_nil sep es hne h
  have hh := stringsJoin_head sep es hne h
  have hsplit := splitElems_stringsJoin sep es hne
    (fun e he => ((validName_iff sep e).mp (h e he)).2.2.2)
  have hr : ((stringsJoin sep es).head? == some sep) = false := by
    simpa using hh
  simp only [Clean, hn, if_false, hr, hsplit, foldl_cleanElem_valid sep false es [] h,
    List.append_nil, List.reverse_reverse, Bool.false_eq_true, List.reverse_eq_nil_iff, hne]

/-- The path `checkDirectory` and `checkFile` build for the entry `n` of the directory
reached through `chain` is the relative path of the entry. -/
theorem join_dirPath (sep : Char) (hsep : sep ≠ '.') (chain : List GoString) (n : GoString)
    (hc : ∀ c ∈ chain, validName sep c = true) (hn : validName sep n = true) :
    Join sep [dirPath sep chain, n] = relPath sep chain n := by
  have hall : ∀ e ∈ chain ++ [n], validName sep e = true := by
    intro e he
    rcases List.mem_append.mp he with he | he
    · exact hc e he
    · simp only [List.mem_singleton] at he; rw [he]; exact hn
  by_cases hch : chain = []
  · subst hch
    obtain ⟨h1, h2, h3, h4⟩ := (validName_iff sep n).mp hn
    have hsplit : splitElems sep ('.' :: sep :: n) = [['.'], n] := by
      have := splitElems_append sep ['.'] n (by simpa using hsep)
      rw [splitElems_no_sep sep n h4] at this
      simpa using this
    have hr : ((some '.' : Option Char) == some sep) = false := by
      simpa using fun h => hsep h.symm
    simp [Join, dirPath, relPath, stringsJoin, Clean, hsplit, cleanElem, h1, h2, h3, hr]
  · have hd : dirPath sep chain = stringsJoin sep chain := by simp [dirPath, hch]
    have hdn := stringsJoin_ne_nil sep chain hch hc
    rw [hd]
    simp only [Join, List.dropWhile_cons, hdn, decide_False, Bool.false_eq_true, if_false]
    have : stringsJoin sep [stringsJoin sep chain, n] = stringsJoin sep (chain ++ [n]) := by
      rw [stringsJoin_snoc sep chain n hch]
      rfl
    rw [this, clean_stringsJoin sep (chain ++ [n]) (by simp) hall]
    rfl

/-! ### The sequential reading, file by file -/

theorem checkFile_eq (sep : Char) (word directory name : GoString) (lines : List GoString) :
    checkFile sep word directory name lines
      = List.replicate (matchingLines word lines).length (Join sep [directory, name]) := by
  simp [checkFile, matchingLines, List.map_const']

mutual
theorem checkDirectory_eq (sep : Char) (hsep : sep ≠ '.') (word : GoString) :
    ∀ (fsys : FS) (chain : List GoString), validFS sep fsys = true →
      (∀ c ∈ chain, validName sep c = true) →
      checkDirectory sep word fsys (dirPath sep chain)
        = (filesFS fsys chain).flatMap
            (fun f => List.replicate (matchingLines word f.lines).length (f.path sep))
  | .failing _, _, _, _ => by simp [checkDirectory, filesFS]
  | .listing es, chain, hv, hc => by
    simp only [checkDirectory, filesFS]
    exact checkEntries_eq sep hsep word es chain (by simpa [validFS] using hv) hc
theorem checkEntries_eq (sep : Char) (hsep : sep ≠ '.') (word : GoString) :
    ∀ (es : List DirEntry) (chain : List GoString), validEntries sep es = true →
      (∀ c ∈ chain, validName sep c = true) →
      checkEntries sep word es (dirPath sep chain)
        = (filesEntries es chain).flatMap
            (fun f => List.replicate (matchingLines word f.lines).length (f.path sep))
  | [], _, _, _ => by simp [checkEntries, filesEntries]
  | e :: es, chain, hv, hc => by
    simp only [validEntries, Bool.and_eq_true] at hv
    simp only [checkEntries, filesEntries, List.flatMap_append]
    rw [checkEntry_eq sep hsep word e chain hv.1 hc,
      checkEntries_eq sep hsep word es chain hv.2 hc]
theorem checkEntry_eq (sep : Char) (hsep : sep ≠ '.') (word : GoString) :
    ∀ (e : DirEntry) (chain : List GoString), validEntry sep e = true →
      (∀ c ∈ chain, validName sep c = true) →
      checkEntry sep word e (dirPath sep chain)
        = (filesEntry e chain).flatMap
            (fun f => List.replicate (matchingLines word f.lines).length (f.path sep))
  | .file _ none, _, _, _ => by simp [checkEntry, filesEntry]
  | .file n (some lines), chain, hv, hc => by
    simp only [validEntry] at hv
    simp only [checkEntry, filesEntry, checkFile_eq, join_dirPath sep hsep chain n hc hv,
      List.flatMap_cons, List.flatMap_nil, List.append_nil, FileAt.path]
  | .dir _ none, _, _, _ => by simp [checkEntry, filesEntry]
  | .dir n (some sub), chain, hv, hc => by
    simp only [validEntry, Bool.and_eq_true] at hv
    have hc1 : ∀ c ∈ chain ++ [n], validName sep c = true := by
      intro c hcm
      rcases List.mem_append.mp hcm with h | h
      · exact hc c h
      · simp only [List.mem_singleton] at h; rw [h]; exact hv.1
    have hd : Join sep [dirPath sep chain, n] = dirPath sep (chain ++ [n]) := by
      rw [join_dirPath sep hsep chain n hc hv.1]
      simp [dirPath, relPath]
    simp only [checkEntry, filesEntry, hd]
    exact checkDirectory_eq sep hsep word sub (chain ++ [n]) hv.2 hc1
end

/-- On a tree with valid names, the sequential reading sends, for each file that can be
opened, its relative path once per line that contains the word. -/
theorem sends_eq_expected (sep : Char) (hsep : sep ≠ '.') (word : GoString) (fileSystem : FS)
    (hv : validFS sep fileSystem = true) :
    checkDirectory sep word fileSystem ['.'] = expected sep word fileSystem := by
  have := checkDirectory_eq sep hsep word fileSystem [] hv (by simp)
  simpa [dirPath, expected] using this

/-- The schedule of `pick` with enough fuel runs the call to its end. -/
theorem schedule_terminates (sep : Char) (word : GoString) (fileSystem : FS) :
    ∀ (fuel : Nat) (s : State), Inv fileSystem s → cost s ≤ fuel →
      terminated (exec sep word s (schedule sep word fuel s)) = true := by
  intro fuel
  induction fuel with
  | zero =>
    intro s hinv hc
    simp only [schedule, exec]
    exact (terminated_iff_cost fileSystem s hinv).mpr (by omega)
  | succ fuel ih =>
    intro s hinv hc
    cases ht : terminated s with
    | true =>
      have h0 := (terminated_iff_cost fileSystem s hinv).mp ht
      simp only [schedule]
      cases hp : pick sep word s with
      | none => simpa [exec] using ht
      | some a =>
        simp only
        cases hs : step sep word s a with
        | none => simpa [exec] using ht
        | some s1 =>
          have := cost_step sep word fileSystem s s1 a hinv (step_sound sep word s s1 a hs)
          omega
    | false =>
      obtain ⟨a, s1, hp, hs⟩ := progress sep word fileSystem s hinv ht
      have hst := step_sound sep word s s1 a hs
      have hcost := cost_step sep word fileSystem s s1 a hinv hst
      simp only [schedule, hp, hs, exec]
      exact ih s1 (inv_step sep word fileSystem s s1 a hinv hst) (by omega)

theorem mem_expected (sep : Char) (word : GoString) (fileSystem : FS) (p : GoString) :
    p ∈ expected sep word fileSystem ↔
      ∃ f ∈ filesFS fileSystem [], f.path sep = p ∧ ∃ line ∈ f.lines, word <:+: line := by
  simp only [expected, List.mem_flatMap, List.mem_replicate, matchingLines]
  constructor
  · rintro ⟨f, hf, hk, hp⟩
    refine ⟨f, hf, hp.symm, ?_⟩
    obtain ⟨line, hl⟩ := List.exists_mem_of_ne_nil _
      (List.ne_nil_of_length_pos (Nat.pos_of_ne_zero hk))
    obtain ⟨h1, h2⟩ := List.mem_filter.mp hl
    exact ⟨line, h1, (contains_iff line word).mp h2⟩
  · rintro ⟨f, hf, hp, line, hl, hw⟩
    refine ⟨f, hf, ?_, hp.symm⟩
    have : line ∈ f.lines.filter (fun line => Contains line word) :=
      List.mem_filter.mpr ⟨hl, (contains_iff line word).mpr hw⟩
    exact fun h0 => List.ne_nil_of_mem this (List.length_eq_zero.mp h0)

mutual
theorem files_sub_locsFS :
    ∀ (fsys : FS) (chain : List GoString) (f : FileAt), f ∈ filesFS fsys chain →
      (⟨f.chain, f.name, some f.lines⟩ : Loc) ∈ locsFS fsys chain
  | .failing _, _, _, h => by simp [filesFS] at h
  | .listing es, chain, f, h => by
    simp only [filesFS] at h
    simp only [locsFS]
    exact files_sub_locsEntries es chain f h
theorem files_sub_locsEntries :
    ∀ (es : List DirEntry) (chain : List GoString) (f : FileAt), f ∈ filesEntries es chain →
      (⟨f.chain, f.name, some f.lines⟩ : Loc) ∈ locsEntries es chain
  | [], _, _, h => by simp [filesEntries] at h
  | e :: es, chain, f, h => by
    simp only [filesEntries, List.mem_append] at h
    simp only [locsEntries, List.mem_append]
    rcases h with h | h
    · exact Or.inl (files_sub_locsEntry e chain f h)
    · exact Or.inr (files_sub_locsEntries es chain f h)
theorem files_sub_locsEntry :
    ∀ (e : DirEntry) (chain : List GoString) (f : FileAt), f ∈ filesEntry e chain →
      (⟨f.chain, f.name, some f.lines⟩ : Loc) ∈ locsEntry e chain
  | .file _ none, _, _, h => by simp [filesEntry] at h
  | .file n (some lines), chain, f, h => by
    simp only [filesEntry, List.mem_singleton] at h
    subst h
    simp [locsEntry]
  | .dir _ none, _, _, h => by simp [filesEntry] at h
  | .dir n (some sub), chain, f, h => by
    simp only [filesEntry] at h
    simp only [locsEntry]
    exact List.mem_cons_of_mem _ (files_sub_locsFS sub (chain ++ [n]) f h)
end

/-! ### Distinct names give distinct paths -/

mutual
theorem locs_shapeFS :
    ∀ (fsys : FS) (chain : List GoString) (l : Loc), l ∈ locsFS fsys chain →
      ∃ n rest, l.elems = chain ++ n :: rest
  | .failing _, _, _, h => by simp [locsFS] at h
  | .listing es, chain, l, h => by
    simp only [locsFS] at h
    obtain ⟨e, _, rest, hr⟩ := locs_shapeEntries es chain l h
    exact ⟨e.name, rest, hr⟩
theorem locs_shapeEntries :
    ∀ (es : List DirEntry) (chain : List GoString) (l : Loc), l ∈ locsEntries es chain →
      ∃ e ∈ es, ∃ rest, l.elems = chain ++ e.name :: rest
  | [], _, _, h => by simp [locsEntries] at h
  | e :: es, chain, l, h => by
    simp only [locsEntries, List.mem_append] at h
    rcases h with h | h
    · obtain ⟨rest, hr⟩ := locs_shapeEntry e chain l h
      exact ⟨e, by simp, rest, hr⟩
    · obtain ⟨e1, he1, rest, hr⟩ := locs_shapeEntries es chain l h
      exact ⟨e1, List.mem_cons_of_mem _ he1, rest, hr⟩
theorem locs_shapeEntry :
    ∀ (e : DirEntry) (chain : List GoString) (l : Loc), l ∈ locsEntry e chain →
      ∃ rest, l.elems = chain ++ e.name :: rest
  | .file n c, chain, l, h => by
    simp only [locsEntry, List.mem_singleton] at h
    subst h
    exact ⟨[], rfl⟩
  | .dir n none, chain, l, h => by
    simp only [locsEntry, List.mem_singleton] at h
    subst h
    exact ⟨[], rfl⟩
  | .dir n (some sub), chain, l, h => by
    simp only [locsEntry, List.mem_cons] at h
    rcases h with h | h
    · subst h
      exact ⟨[], rfl⟩
    · obtain ⟨m, rest, hr⟩ := locs_shapeFS sub (chain ++ [n]) l h
      exact ⟨m :: rest, by simp [hr, DirEntry.name]⟩
end

mutual
theorem locs_nodupFS :
    ∀ (fsys : FS) (chain : List GoString), distinctFS fsys = true →
      ((locsFS fsys chain).map Loc.elems).Nodup
  | .failing _, _, _ => by simp [locsFS]
  | .listing es, chain, h => by
    simp only [distinctFS, Bool.and_eq_true, decide_eq_true_eq] at h
    simp only [locsFS]
    exact locs_nodupEntries es chain h.1 h.2
theorem locs_nodupEntries :
    ∀ (es : List DirEntry) (chain : List GoString), (es.map DirEntry.name).Nodup →
      distinctEntries es = true → ((locsEntries es chain).map Loc.elems).Nodup
  | [], _, _, _ => by simp [locsEntries]
  | e :: es, chain, hn, h => by
    simp only [distinctEntries, Bool.and_eq_true] at h
    simp only [List.map_cons, List.nodup_cons] at hn
    simp only [locsEntries, List.map_append]
    refine List.Nodup.append (locs_nodupEntry e chain h.1)
      (locs_nodupEntries es chain hn.2 h.2) ?_
    intro x hx1 hx2
    obtain ⟨l1, hl1, rfl⟩ := List.mem_map.mp hx1
    obtain ⟨l2, hl2, heq⟩ := List.mem_map.mp hx2
    obtain ⟨r1, hr1⟩ := locs_shapeEntry e chain l1 hl1
    obtain ⟨e2, he2, r2, hr2⟩ := locs_shapeEntries es chain l2 hl2
    rw [hr1, hr2] at heq
    have := List.append_cancel_left heq
    simp only [List.cons.injEq] at this
    exact hn.1 (by rw [← this.1]; exact List.mem_map_of_mem _ he2)
theorem locs_nodupEntry :
    ∀ (e : DirEntry) (chain : List GoString), distinctEntry e = true →
      ((locsEntry e chain).map Loc.elems).Nodup
  | .file _ _, _, _ => by simp [locsEntry]
  | .dir _ none, _, _ => by simp [locsEntry]
  | .dir n (some sub), chain, h => by
    simp only [distinctEntry] at h
    simp only [locsEntry, List.map_cons, List.nodup_cons]
    refine ⟨?_, locs_nodupFS sub (chain ++ [n]) h⟩
    intro hm
    obtain ⟨l, hl, heq⟩ := List.mem_map.mp hm
    obtain ⟨m, rest, hr⟩ := locs_shapeFS sub (chain ++ [n]) l hl
    rw [hr] at heq
    have h1 : (chain ++ [n]) ++ m :: rest = (chain ++ [n]) ++ [] := by
      rw [List.append_nil]
      exact heq
    have := List.append_cancel_left h1
    simp at this
end

mutual
theorem locs_validFS (sep : Char) :
    ∀ (fsys : FS) (chain : List GoString) (l : Loc), l ∈ locsFS fsys chain →
      validFS sep fsys = true → (∀ c ∈ chain, validName sep c = true) →
      ∀ c ∈ l.elems, validName sep c = true
  | .failing _, _, _, h, _, _ => by simp [locsFS] at h
  | .listing es, chain, l, h, hv, hc => by
    simp only [locsFS] at h
    exact locs_validEntries sep es chain l h (by simpa [validFS] using hv) hc
theorem locs_validEntries (sep : Char) :
    ∀ (es : List DirEntry) (chain : List GoString) (l : Loc), l ∈ locsEntries es chain →
      validEntries sep es = true → (∀ c ∈ chain, validName sep c = true) →
      ∀ c ∈ l.elems, validName sep c = true
  | [], _, _, h, _, _ => by simp [locsEntries] at h
  | e :: es, chain, l, h, hv, hc => by
    simp only [locsEntries, List.mem_append] at h
    simp only [validEntries, Bool.and_eq_true] at hv
    rcases h with h | h
    · exact locs_validEntry sep e chain l h hv.1 hc
    · exact locs_validEntries sep es chain l h hv.2 hc
theorem locs_validEntry (sep : Char) :
    ∀ (e : DirEntry) (chain : List GoString) (l : Loc), l ∈ locsEntry e chain →
      validEntry sep e = true → (∀ c ∈ chain, validName sep c = true) →
      ∀ c ∈ l.elems, validName sep c = true
  | .file n content, chain, l, h, hv, hc => by
    simp only [locsEntry, List.mem_singleton] at h
    subst h
    simp only [validEntry] at hv
    intro c hcm
    rcases List.mem_append.mp hcm with h | h
    · exact hc c h
    · simp only [List.mem_singleton] at h; rw [h]; exact hv
  | .dir n none, chain, l, h, hv, hc => by
    simp only [locsEntry, List.mem_singleton] at h
    subst h
    simp only [validEntry] at hv
    intro c hcm
    rcases List.mem_append.mp hcm with h | h
    · exact hc c h
    · simp only [List.mem_singleton] at h; rw [h]; exact hv
  | .dir n (some sub), chain, l, h, hv, hc => by
    simp only [validEntry, Bool.and_eq_true] at hv
    have hc1 : ∀ c ∈ chain ++ [n], validName sep c = true := by
      intro c hcm
      rcases List.mem_append.mp hcm with h | h
      · exact hc c h
      · simp only [List.mem_singleton] at h; rw [h]; exact hv.1
    simp only [locsEntry, List.mem_cons] at h
    rcases h with h | h
    · subst h
      exact hc1
    · exact locs_validFS sep sub (chain ++ [n]) l h hv.2 hc1
end

mutual
theorem files_sublistFS :
    ∀ (fsys : FS) (chain : List GoString),
      ((filesFS fsys chain).map FileAt.toLoc).Sublist (locsFS fsys chain)
  | .failing _, _ => by simp [filesFS, locsFS]
  | .listing es, chain => by
    simp only [filesFS, locsFS]
    exact files_sublistEntries es chain
theorem files_sublistEntries :
    ∀ (es : List DirEntry) (chain : List GoString),
      ((filesEntries es chain).map FileAt.toLoc).Sublist (locsEntries es chain)
  | [], _ => by simp [filesEntries, locsEntries]
  | e :: es, chain => by
    simp only [filesEntries, locsEntries, List.map_append]
    exact (files_sublistEntry e chain).append (files_sublistEntries es chain)
theorem files_sublistEntry :
    ∀ (e : DirEntry) (chain : List GoString),
      ((filesEntry e chain).map FileAt.toLoc).Sublist (locsEntry e chain)
  | .file _ none, _ => by simp [filesEntry]
  | .file n (some lines), chain => by simp [filesEntry, locsEntry, FileAt.toLoc]
  | .dir _ none, _ => by simp [filesEntry]
  | .dir n (some sub), chain => by
    simp only [filesEntry, locsEntry]
    exact (files_sublistFS sub (chain ++ [n])).cons _
end

/-- On a tree with valid names where no listing repeats a name, different entries have
different relative paths. -/
theorem locs_paths_nodup (sep : Char) (fileSystem : FS) (hv : validFS sep fileSystem = true)
    (hd : distinctFS fileSystem = true) :
    ((locsFS fileSystem []).map (Loc.path sep)).Nodup := by
  have h1 := locs_nodupFS fileSystem [] hd
  have h2 : (locsFS fileSystem []).map (Loc.path sep)
      = ((locsFS fileSystem []).map Loc.elems).map (stringsJoin sep) := by
    rw [List.map_map]
    rfl
  rw [h2]
  refine List.Nodup.map_on ?_ h1
  intro x hx y hy hxy
  obtain ⟨l1, hl1, rfl⟩ := List.mem_map.mp hx
  obtain ⟨l2, hl2, rfl⟩ := List.mem_map.mp hy
  have v1 := locs_validFS sep fileSystem [] l1 hl1 hv (by simp)
  have v2 := locs_validFS sep fileSystem [] l2 hl2 hv (by simp)
  have s1 := splitElems_stringsJoin sep l1.elems (by simp [Loc.elems])
    (fun e he => ((validName_iff sep e).mp (v1 e he)).2.2.2)
  have s2 := splitElems_stringsJoin sep l2.elems (by simp [Loc.elems])
    (fun e he => ((validName_iff sep e).mp (v2 e he)).2.2.2)
  rw [← s1, ← s2, hxy]

theorem files_paths_nodup (sep : Char) (fileSystem : FS) (hv : validFS sep fileSystem = true)
    (hd : distinctFS fileSystem = true) :
    ((filesFS fileSystem []).map (FileAt.path sep)).Nodup := by
  have h1 := locs_paths_nodup sep fileSystem hv hd
  have h2 := (files_sublistFS fileSystem []).map (Loc.path sep)
  have h3 : ((filesFS fileSystem []).map FileAt.toLoc).map (Loc.path sep)
      = (filesFS fileSystem []).map (FileAt.path sep) := by
    rw [List.map_map]
    rfl
  rw [h3] at h2
  exact h1.sublist h2

/-! ### The lines the scanner yields -/

theorem rawLines_long (xs : GoString) (h : '\n' ∉ xs) :
    rawLines (xs ++ '\n' :: "Hello".data) = [xs, "Hello".data] := by
  have e : splitElems '\n' "Hello".data = ["Hello".data] := by decide
  have hne : "Hello".data ≠ [] := by decide
  unfold rawLines
  rw [splitElems_append '\n' xs _ h, e]
  have hl : [xs, "Hello".data].getLast? = some "Hello".data := rfl
  simp only [hl, Option.some.injEq, hne, if_false]

/-- The scanner yields nothing from a content whose first line fills its buffer. -/
theorem scanLines_long (xs : GoString) (h : '\n' ∉ xs) (hl : maxScanTokenSize ≤ xs.length) :
    scanLines (xs ++ '\n' :: "Hello".data) = [] := by
  unfold scanLines
  rw [rawLines_long xs h, List.takeWhile_cons]
  have : decide (xs.length < maxScanTokenSize) = false := by
    simpa using hl
  rw [this]
  rfl

theorem contains_hello_of_xs (xs : GoString) (h : ∀ c ∈ xs, c = 'x') :
    Contains xs "Hello".data = false := by
  cases hc : Contains xs "Hello".data with
  | false => rfl
  | true =>
    have hin := (contains_iff xs "Hello".data).mp hc
    have hm : 'H' ∈ xs := hin.subset (by decide)
    exact absurd (h 'H' hm) (by decide)

theorem longLine_rawLines :
    rawLines longLineContent = [List.replicate maxScanTokenSize 'x', "Hello".data] :=
  rawLines_long _ (fun hm => absurd (List.eq_of_mem_replicate hm) (by decide))

theorem longLine_scanLines : scanLines longLineContent = [] :=
  scanLines_long _ (fun hm => absurd (List.eq_of_mem_replicate hm) (by decide))
    (List.length_replicate _ _).ge

theorem longLineFS_eq : longLineFS = .listing [.file "big.txt".data (some [])] := by
  unfold longLineFS
  rw [longLine_scanLines]

/-- Every line the scanner yields is a newline-delimited line of the content that fits
the buffer, without its trailing carriage return. -/
theorem mem_scanLines (data line : GoString) (h : line ∈ scanLines data) :
    ∃ r ∈ rawLines data, r.length < maxScanTokenSize ∧ line = dropCR r := by
  unfold scanLines at h
  obtain ⟨r, hr, rfl⟩ := List.mem_map.mp h
  exact ⟨r, (List.takeWhile_sublist _).subset hr,
    by simpa using List.mem_takeWhile_imp hr, rfl⟩

/-- When every newline-delimited line of the content fits the buffer, the scanner yields
all of them, each without its trailing carriage return. -/
theorem scanLines_short (data : GoString)
    (h : ∀ r ∈ rawLines data, r.length < maxScanTokenSize) :
    scanLines data = (rawLines data).map dropCR := by
  unfold scanLines
  rw [List.takeWhile_eq_self_iff.mpr (fun r hr => by simpa using h r hr)]

theorem dropCR_cr (line : GoString) : dropCR (line ++ ['\r']) = line := by
  unfold dropCR
  rw [List.getLast?_concat, if_pos rfl, List.dropLast_concat]

theorem dropCR_id (line : GoString) (h : line.getLast? ≠ some '\r') : dropCR line = line := by
  unfold dropCR
  rw [if_neg h]


/-- On a tree with valid names, every delivered path is the path of a file with a line
that contains the word. -/
theorem delivered_from_matching_file (sep : Char) (hsep : sep ≠ '.') (word : GoString)
    (fileSystem : FS) (hv : validFS sep fileSystem = true) (sched : List Actor) :
    ∀ p ∈ delivered (exec sep word (initial fileSystem) sched),
      ∃ f ∈ filesFS fileSystem [], f.path sep = p ∧ ∃ line ∈ f.lines, word <:+: line := by
  intro p hp
  have hle := delivered_le sep word fileSystem sched
  have : p ∈ (↑(checkDirectory sep word fileSystem ['.']) : Multiset GoString) :=
    Multiset.mem_of_le hle (Multiset.mem_coe.mpr hp)
  rw [Multiset.mem_coe, sends_eq_expected sep hsep word fileSystem hv] at this
  exact (mem_expected sep word fileSystem p).mp this

/-- Claim C1, as the claim states it, fails.  The content of `big.txt` has the newline-delimited
line `Hello`, but the line before it fills the buffer of the scanner, which stops there and
yields no line: the call is over with nothing delivered.  And the content of `dos.txt` has
the newline-delimited line `Hello` followed by a carriage return, which contains `o`
followed by a carriage return, but the scanner yields the line without its carriage
return and nothing is delivered for that word. -/
theorem long_line_hides_matching_file :
    "Hello".data ∈ rawLines longLineContent ∧
    Contains "Hello".data "Hello".data = true ∧
    scanLines longLineContent = [] ∧
    terminated (runToEnd '/' "Hello".data longLineFS) = true ∧
    delivered (runToEnd '/' "Hello".data longLineFS) = [] ∧
    "Hello\r".data ∈ rawLines "Hello\r\nbye\r\n".data ∧
    Contains "Hello\r".data "o\r".data = true ∧
    terminated (runToEnd '/' "o\r".data crlfFS) = true ∧
    delivered (runToEnd '/' "o\r".data crlfFS) = [] := by
  refine ⟨?_, by decide, longLine_scanLines, ?_, ?_, by decide, by decide, by decide,
    by decide⟩
  · rw [longLine_rawLines]
    simp
  · rw [longLineFS_eq]
    decide
  · rw [longLineFS_eq]
    decide

/-- Claim C1, amended.  On a tree whose entries have valid names, what `FindFiles` delivers
is, as a set, the relative paths of the files from which the scanner yields a line that
contains the word: every delivered path is the path of such a file, a finished call has
delivered each of them, no entry without such a line (a directory, a file that cannot be
opened, a file whose lines all lack the word) is delivered when no listing repeats a
name, and nothing is delivered when no file has such a line.  The lines of a file served
from memory are those of `scanLines`: each is a newline-delimited line of the content that
fits the buffer of the scanner, without its trailing carriage return, and they are all
of these lines when every one fits. -/
theorem findFiles_delivers_matching_files (sep : Char) (hsep : sep ≠ '.') (word : GoString)
    (fileSystem : FS) (hv : validFS sep fileSystem = true) (sched : List Actor) :
    (∀ p ∈ delivered (exec sep word (initial fileSystem) sched),
        ∃ f ∈ filesFS fileSystem [], f.path sep = p ∧ ∃ line ∈ f.lines, word <:+: line) ∧
    (terminated (exec sep word (initial fileSystem) sched) = true →
        ∀ f ∈ filesFS fileSystem [], (∃ line ∈ f.lines, word <:+: line) →
          f.path sep ∈ delivered (exec sep word (initial fileSystem) sched)) ∧
    (distinctFS fileSystem = true →
        ∀ l ∈ locsFS fileSystem [],
          (∀ lines, l.content = some lines → ∀ line ∈ lines, ¬ word <:+: line) →
          l.path sep ∉ delivered (exec sep word (initial fileSystem) sched)) ∧
    ((∀ f ∈ filesFS fileSystem [], ∀ line ∈ f.lines, ¬ word <:+: line) →
        delivered (exec sep word (initial fileSystem) sched) = []) ∧
    (∀ (name data : String) (chain : List GoString),
        filesEntry (mapFile name data) chain
          = ([⟨chain, name.data, scanLines data.data⟩] : List FileAt)) ∧
    (∀ (data line : GoString), line ∈ scanLines data →
        ∃ r ∈ rawLines data, r.length < maxScanTokenSize ∧ line = dropCR r) ∧
    (∀ data : GoString, (∀ r ∈ rawLines data, r.length < maxScanTokenSize) →
        scanLines data = (rawLines data).map dropCR) ∧
    (∀ line : GoString, dropCR (line ++ ['\r']) = line) ∧
    (∀ line : GoString, line.getLast? ≠ some '\r' → dropCR line = line) := by
  have hsub := delivered_from_matching_file sep hsep word fileSystem hv sched
  refine ⟨hsub, ?_, ?_, ?_, fun _ _ _ => rfl, mem_scanLines, scanLines_short, dropCR_cr, dropCR_id⟩
  · intro ht f hf hline
    have hperm := delivered_perm sep word fileSystem sched ht
    rw [sends_eq_expected sep hsep word fileSystem hv] at hperm
    exact hperm.symm.subset ((mem_expected sep word fileSystem _).mpr ⟨f, hf, rfl, hline⟩)
  · intro hdist l hl hno hmem
    have hnd := locs_paths_nodup sep fileSystem hv hdist
    obtain ⟨f, hf, hp, line, hline, hw⟩ := hsub _ hmem
    have hfl := files_sub_locsFS fileSystem [] f hf
    have heq : (⟨f.chain, f.name, some f.lines⟩ : Loc) = l :=
      List.inj_on_of_nodup_map hnd hfl hl (by simpa [Loc.path, FileAt.path] using hp)
    exact hno f.lines (by rw [← heq]) line hline hw
  · intro hno
    apply List.eq_nil_iff_forall_not_mem.mpr
    intro p hp
    obtain ⟨f, hf, _, line, hline, hw⟩ := hsub p hp
    exact hno f hf line hline hw

/-- Witness for claim C1: the tree of the tests, searched for `Hello` and for `xyz`. -/
theorem findFiles_delivers_matching_files_witness :
    ((∀ p ∈ delivered (runToEnd '/' "Hello".data testFS),
        ∃ f ∈ filesFS testFS [], f.path '/' = p ∧ ∃ line ∈ f.lines, "Hello".data <:+: line) ∧
      (terminated (runToEnd '/' "Hello".data testFS) = true →
        ∀ f ∈ filesFS testFS [], (∃ line ∈ f.lines, "Hello".data <:+: line) →
          f.path '/' ∈ delivered (runToEnd '/' "Hello".data testFS)) ∧
      (distinctFS testFS = true →
        ∀ l ∈ locsFS testFS [],
          (∀ lines, l.content = some lines → ∀ line ∈ lines, ¬ "Hello".data <:+: line) →
          l.path '/' ∉ delivered (runToEnd '/' "Hello".data testFS)) ∧
      ((∀ f ∈ filesFS testFS [], ∀ line ∈ f.lines, ¬ "Hello".data <:+: line) →
        delivered (runToEnd '/' "Hello".data testFS) = [])) ∧
    validFS '/' testFS = true ∧
    distinctFS testFS = true ∧
    terminated (runToEnd '/' "Hello".data testFS) = true ∧
    delivered (runToEnd '/' "Hello".data testFS)
      = ["greeting.txt".data, "subdirectory/greeting2.txt".data,
          "subdirectory/another/greeting3.txt".data] ∧
    terminated (runToEnd '/' "xyz".data testFS) = true ∧
    delivered (runToEnd '/' "xyz".data testFS) = [] :=
  by
  have h := findFiles_delivers_matching_files '/' (by decide) "Hello".data testFS (by decide)
    (schedule '/' "Hello".data (cost (initial testFS)) (initial testFS))
  exact ⟨⟨h.1, h.2.1, h.2.2.1, h.2.2.2.1⟩,
    by decide, by decide, by decide, by decide, by decide, by decide⟩

theorem stringsJoin_getLast (sep : Char) (es : List GoString) (hne : es ≠ [])
    (h : ∀ e ∈ es, validName sep e = true) : (stringsJoin sep es).getLast? ≠ some sep := by
  induction es with
  | nil => exact absurd rfl hne
  | cons e es ih =>
    cases es with
    | nil =>
      obtain ⟨_, _, _, hs⟩ := (validName_iff sep e).mp (h e (by simp))
      intro hl
      exact hs (List.mem_of_mem_getLast? hl)
    | cons x xs =>
      have hrest : ∀ y ∈ x :: xs, validName sep y = true :=
        fun y hy => h y (List.mem_cons_of_mem _ hy)
      have hn := stringsJoin_ne_nil sep (x :: xs) (by simp) hrest
      rw [stringsJoin_cons sep e _ (by simp), List.getLast?_append_cons]
      have : (sep :: stringsJoin sep (x :: xs)).getLast? = (stringsJoin sep (x :: xs)).getLast? :=
        List.getLast?_append_of_ne_nil [sep] hn
      rw [this]
      exact ih (by simp) hrest

mutual
theorem files_validFS (sep : Char) :
    ∀ (fsys : FS) (chain : List GoString) (f : FileAt), f ∈ filesFS fsys chain →
      validFS sep fsys = true → (∀ c ∈ chain, validName sep c = true) →
      ∀ c ∈ f.chain ++ [f.name], validName sep c = true
  | .failing _, _, _, h, _, _ => by simp [filesFS] at h
  | .listing es, chain, f, h, hv, hc => by
    simp only [filesFS] at h
    exact files_validEntries sep es chain f h (by simpa [validFS] using hv) hc
theorem files_validEntries (sep : Char) :
    ∀ (es : List DirEntry) (chain : List GoString) (f : FileAt), f ∈ filesEntries es chain →
      validEntries sep es = true → (∀ c ∈ chain, validName sep c = true) →
      ∀ c ∈ f.chain ++ [f.name], validName sep c = true
  | [], _, _, h, _, _ => by simp [filesEntries] at h
  | e :: es, chain, f, h, hv, hc => by
    simp only [filesEntries, List.mem_append] at h
    simp only [validEntries, Bool.and_eq_true] at hv
    rcases h with h | h
    · exact files_validEntry sep e chain f h hv.1 hc
    · exact files_validEntries sep es chain f h hv.2 hc
theorem files_validEntry (sep : Char) :
    ∀ (e : DirEntry) (chain : List GoString) (f : FileAt), f ∈ filesEntry e chain →
      validEntry sep e = true → (∀ c ∈ chain, validName sep c = true) →
      ∀ c ∈ f.chain ++ [f.name], validName sep c = true
  | .file _ none, _, _, h, _, _ => by simp [filesEntry] at h
  | .file n (some lines), chain, f, h, hv, hc => by
    simp only [filesEntry, List.mem_singleton] at h
    subst h
    simp only [validEntry] at hv
    intro c hcm
    rcases List.mem_append.mp hcm with h | h
    · exact hc c h
    · simp only [List.mem_singleton] at h; rw [h]; exact hv
  | .dir _ none, _, _, h, _, _ => by simp [filesEntry] at h
  | .dir n (some sub), chain, f, h, hv, hc => by
    simp only [filesEntry] at h
    simp only [validEntry, Bool.and_eq_true] at hv
    refine files_validFS sep sub (chain ++ [n]) f h hv.2 ?_
    intro c hcm
    rcases List.mem_append.mp hcm with h | h
    · exact hc c h
    · simp only [List.mem_singleton] at h; rw [h]; exact hv.1
end

/-- Claim C5.  On a tree whose entries have valid names, every delivered path is the
relative path of a file of the tree: the names of the directories that lead to the file
and the name of the file, joined with the separator.  Its elements are exactly these
names, so none is empty, `.` or `..`; it neither starts nor ends with the separator; and
for a file of the root it is the name of the file. -/
theorem delivered_paths_are_relative (sep : Char) (hsep : sep ≠ '.') (word : GoString)
    (fileSystem : FS) (hv : validFS sep fileSystem = true) (sched : List Actor) :
    ∀ p ∈ delivered (exec sep word (initial fileSystem) sched),
      ∃ f ∈ filesFS fileSystem [],
        p = stringsJoin sep (f.chain ++ [f.name]) ∧
        splitElems sep p = f.chain ++ [f.name] ∧
        (∀ e ∈ splitElems sep p, e ≠ [] ∧ e ≠ ['.'] ∧ e ≠ ['.', '.']) ∧
        p.head? ≠ some sep ∧ p.getLast? ≠ some sep ∧
        (f.chain = [] → p = f.name) := by
  intro p hp
  obtain ⟨f, hf, hpath, _⟩ :=
    delivered_from_matching_file sep hsep word fileSystem hv sched p hp
  have hval := files_validFS sep fileSystem [] f hf hv (by simp)
  have hne : f.chain ++ [f.name] ≠ [] := by simp
  have hsplit := splitElems_stringsJoin sep (f.chain ++ [f.name]) hne
    (fun e he => ((validName_iff sep e).mp (hval e he)).2.2.2)
  have hp1 : p = stringsJoin sep (f.chain ++ [f.name]) := by
    rw [← hpath]; rfl
  refine ⟨f, hf, hp1, ?_, ?_, ?_, ?_, ?_⟩
  · rw [hp1]; exact hsplit
  · rw [hp1, hsplit]
    intro e he
    obtain ⟨h1, h2, h3, _⟩ := (validName_iff sep e).mp (hval e he)
    exact ⟨h1, h2, h3⟩
  · rw [hp1]; exact stringsJoin_head sep _ hne hval
  · rw [hp1]; exact stringsJoin_getLast sep _ hne hval
  · intro hch
    rw [hp1, hch]
    rfl

/-- Witness for claim C5: the three paths delivered on the tree of the tests. -/
theorem delivered_paths_are_relative_witness :
    (∀ p ∈ delivered (runToEnd '/' "Hello".data testFS),
      ∃ f ∈ filesFS testFS [],
        p = stringsJoin '/' (f.chain ++ [f.name]) ∧
        splitElems '/' p = f.chain ++ [f.name] ∧
        (∀ e ∈ splitElems '/' p, e ≠ [] ∧ e ≠ ['.'] ∧ e ≠ ['.', '.']) ∧
        p.head? ≠ some '/' ∧ p.getLast? ≠ some '/' ∧
        (f.chain = [] → p = f.name)) ∧
    delivered (runToEnd '/' "Hello".data testFS)
      = ["greeting.txt".data, "subdirectory/greeting2.txt".data,
          "subdirectory/another/greeting3.txt".data] ∧
    delivered (runToEnd '\\' "Hello".data testFS)
      = ["greeting.txt".data, "subdirectory\\greeting2.txt".data,
          "subdirectory\\another\\greeting3.txt".data] :=
  ⟨delivered_paths_are_relative '/' (by decide) "Hello".data testFS (by decide)
      (schedule '/' "Hello".data (cost (initial testFS)) (initial testFS)),
    by decide, by decide⟩

theorem count_flatMap_replicate {α β : Type} [BEq β] [LawfulBEq β] (key : α → β) (k : α → Nat) :
    ∀ (l : List α), (l.map key).Nodup → ∀ a ∈ l,
      (l.flatMap (fun x => List.replicate (k x) (key x))).count (key a) = k a := by
  intro l
  induction l with
  | nil => intro _ a ha; simp at ha
  | cons x xs ih =>
    intro hnd a ha
    simp only [List.map_cons, List.nodup_cons] at hnd
    simp only [List.flatMap_cons, List.count_append]
    rcases List.mem_cons.mp ha with rfl | hxs
    · have h0 : (xs.flatMap (fun x => List.replicate (k x) (key x))).count (key a) = 0 := by
        apply List.count_eq_zero.mpr
        intro hm
        obtain ⟨y, hy, hyk⟩ := List.mem_flatMap.mp hm
        have := (List.mem_replicate.mp hyk).2
        exact hnd.1 (by rw [this]; exact List.mem_map_of_mem _ hy)
      rw [h0, List.count_replicate_self, Nat.add_zero]
    · have hne : key x ≠ key a := by
        intro h
        exact hnd.1 (by rw [h]; exact List.mem_map_of_mem _ hxs)
      have h0 : (List.replicate (k x) (key x)).count (key a) = 0 := by
        apply List.count_eq_zero.mpr
        intro hm
        exact hne (List.mem_replicate.mp hm).2.symm
      rw [h0, ih hnd.2 a hxs, Nat.zero_add]

theorem matchingLines_eq (word : GoString) (lines : List GoString) :
    matchingLines word lines = lines.filter (fun line => decide (word <:+: line)) := by
  unfold matchingLines
  apply List.filter_congr
  intro line _
  by_cases h : word <:+: line
  · simp [h, (contains_iff line word).mpr h]
  · have : Contains line word = false := by
      cases hc : Contains line word with
      | false => rfl
      | true => exact absurd ((contains_iff line word).mp hc) h
    simp [h, this]

theorem matchingLines_empty (lines : List GoString) : matchingLines [] lines = lines := by
  rw [matchingLines_eq]
  simp

/-- Claim C10, as the claim states it, fails.  The content of `big.txt` has two
newline-delimited lines, one of which contains `Hello`, but the first fills the buffer of
the scanner, which stops there: the path is delivered neither once for `Hello` nor twice
for the empty word, but not at all.  And the content of `dos.txt` has one
newline-delimited line that contains `o` followed by a carriage return, but the scanner
yields the line without its carriage return and the path is not delivered. -/
theorem long_line_lines_not_counted :
    ((rawLines longLineContent).filter (fun line => Contains line "Hello".data)).length = 1 ∧
    (rawLines longLineContent).length = 2 ∧
    terminated (runToEnd '/' "Hello".data longLineFS) = true ∧
    (delivered (runToEnd '/' "Hello".data longLineFS)).count "big.txt".data = 0 ∧
    terminated (runToEnd '/' [] longLineFS) = true ∧
    (delivered (runToEnd '/' [] longLineFS)).count "big.txt".data = 0 ∧
    ((rawLines "Hello\r\nbye\r\n".data).filter
      (fun line => Contains line "o\r".data)).length = 1 ∧
    terminated (runToEnd '/' "o\r".data crlfFS) = true ∧
    (delivered (runToEnd '/' "o\r".data crlfFS)).count "dos.txt".data = 0 := by
  have hx : Contains (List.replicate maxScanTokenSize 'x') "Hello".data = false :=
    contains_hello_of_xs _ (fun c hc => List.eq_of_mem_replicate hc)
  have hh : Contains "Hello".data "Hello".data = true := by decide
  refine ⟨?_, ?_, ?_, ?_, ?_, ?_, by decide, by decide, by decide⟩
  · rw [longLine_rawLines]
    simp only [List.filter_cons, hx, hh, Bool.false_eq_true, if_false, if_true,
      List.filter_nil, List.length_cons, List.length_nil]
  · rw [longLine_rawLines]
    rfl
  · rw [longLineFS_eq]
    decide
  · rw [longLineFS_eq]
    decide
  · rw [longLineFS_eq]
    decide
  · rw [longLineFS_eq]
    decide

/-- Claim C10, amended.  When a call on a tree with valid names is over, the delivered
sequence consists, for each file that can be opened, of the path of the file once per
line the scanner yields from the file that contains the word: it is a rearrangement of
`expected`, its length is the total number of such lines, and, when no listing repeats a
name, each path occurs as many times as its file has such lines; for the empty word
that is the number of lines the scanner yields from the file, so a file that yields no
line does not occur.  The lines of a file served from memory are those of `scanLines`:
each is a newline-delimited line of the content that fits the buffer of the scanner,
without its trailing carriage return, and they are all of these lines when every one
fits. -/
theorem delivered_once_per_matching_line (sep : Char) (hsep : sep ≠ '.') (word : GoString)
    (fileSystem : FS) (hv : validFS sep fileSystem = true) (sched : List Actor)
    (hterm : terminated (exec sep word (initial fileSystem) sched) = true) :
    (delivered (exec sep word (initial fileSystem) sched)).Perm
        (expected sep word fileSystem) ∧
    (delivered (exec sep word (initial fileSystem) sched)).length
        = ((filesFS fileSystem []).map
            (fun f => (f.lines.filter (fun line => decide (word <:+: line))).length)).sum ∧
    (distinctFS fileSystem = true →
        ∀ f ∈ filesFS fileSystem [],
          (delivered (exec sep word (initial fileSystem) sched)).count (f.path sep)
            = (f.lines.filter (fun line => decide (word <:+: line))).length ∧
          (word = [] →
            (delivered (exec sep word (initial fileSystem) sched)).count (f.path sep)
              = f.lines.length)) ∧
    (∀ (name data : String) (chain : List GoString),
        filesEntry (mapFile name data) chain
          = ([⟨chain, name.data, scanLines data.data⟩] : List FileAt)) ∧
    (∀ (data line : GoString), line ∈ scanLines data →
        ∃ r ∈ rawLines data, r.length < maxScanTokenSize ∧ line = dropCR r) ∧
    (∀ data : GoString, (∀ r ∈ rawLines data, r.length < maxScanTokenSize) →
        scanLines data = (rawLines data).map dropCR) ∧
    (∀ line : GoString, dropCR (line ++ ['\r']) = line) ∧
    (∀ line : GoString, line.getLast? ≠ some '\r' → dropCR line = line) := by
  have hperm := delivered_perm sep word fileSystem sched hterm
  rw [sends_eq_expected sep hsep word fileSystem hv] at hperm
  refine ⟨hperm, ?_, ?_, fun _ _ _ => rfl, mem_scanLines, scanLines_short, dropCR_cr, dropCR_id⟩
  · rw [hperm.length_eq]
    simp only [expected, List.length_flatMap, matchingLines_eq]
    congr 1
    apply List.map_congr_left
    intro f _
    simp
  · intro hdist f hf
    have hnd := files_paths_nodup sep fileSystem hv hdist
    have hcount : (delivered (exec sep word (initial fileSystem) sched)).count (f.path sep)
        = (matchingLines word f.lines).length := by
      have h1 : (delivered (exec sep word (initial fileSystem) sched)).count (f.path sep)
          = (expected sep word fileSystem).count (f.path sep) := hperm.countP_eq _
      exact h1.trans
        (count_flatMap_replicate (FileAt.path sep)
          (fun f => (matchingLines word f.lines).length) (filesFS fileSystem []) hnd f hf)
    refine ⟨by rw [hcount, matchingLines_eq], ?_⟩
    intro hw
    rw [hcount, hw, matchingLines_empty]

/-- Witness for claim C10: a file with the word on three lines is delivered three times,
and with the empty word once per line, the empty file never. -/
theorem delivered_once_per_matching_line_witness :
    validFS '/' threeLines = true ∧
    distinctFS threeLines = true ∧
    terminated (runToEnd '/' "Hello".data threeLines) = true ∧
    delivered (runToEnd '/' "Hello".data threeLines)
      = ["a.txt".data, "a.txt".data, "a.txt".data] ∧
    delivered (runToEnd '/' [] threeLines)
      = ["a.txt".data, "a.txt".data, "a.txt".data, "a.txt".data] ∧
    ((delivered (runToEnd '/' "Hello".data threeLines)).Perm
        (expected '/' "Hello".data threeLines) ∧
      (delivered (runToEnd '/' "Hello".data threeLines)).length
        = ((filesFS threeLines []).map
            (fun f => (f.lines.filter
              (fun line => decide ("Hello".data <:+: line))).length)).sum ∧
      (distinctFS threeLines = true →
        ∀ f ∈ filesFS threeLines [],
          (delivered (runToEnd '/' "Hello".data threeLines)).count (f.path '/')
            = (f.lines.filter (fun line => decide ("Hello".data <:+: line))).length ∧
          ("Hello".data = [] →
            (delivered (runToEnd '/' "Hello".data threeLines)).count (f.path '/')
              = f.lines.length))) :=
  by
  have h := delivered_once_per_matching_line '/' (by decide) "Hello".data threeLines
    (by decide)
    (schedule '/' "Hello".data (cost (initial threeLines)) (initial threeLines))
    (by decide)
  exact ⟨by decide, by decide, by decide, by decide, by decide, h.1, h.2.1, h.2.2.1⟩

/-- Claim C2, evaluated on the code.  On a file with the word on three lines `checkFile`
does not stop at the first of them: under every schedule the path is delivered at most
three times, and a finished call has delivered it three times, not once. -/
theorem three_matching_lines_delivered_thrice (sched : List Actor) :
    (delivered (exec '/' "Hello".data (initial threeLines) sched)).length ≤ 3 ∧
    (terminated (exec '/' "Hello".data (initial threeLines) sched) = true →
      delivered (exec '/' "Hello".data (initial threeLines) sched)
        = ["a.txt".data, "a.txt".data, "a.txt".data]) ∧
    terminated (runToEnd '/' "Hello".data threeLines) = true ∧
    (delivered (runToEnd '/' "Hello".data threeLines)).count "a.txt".data = 3 := by
  have hs : checkDirectory '/' "Hello".data threeLines ['.']
      = List.replicate 3 "a.txt".data := by decide
  refine ⟨?_, ?_, by decide, by decide⟩
  · have := Multiset.card_le_card (delivered_le '/' "Hello".data threeLines sched)
    rw [hs] at this
    simpa using this
  · intro ht
    have hp := delivered_perm '/' "Hello".data threeLines sched ht
    rw [hs] at hp
    exact List.perm_replicate.mp hp

/-! ### Rearranged listings -/

theorem checkEntries_flatMap (sep : Char) (word : GoString) (es : List DirEntry)
    (d : GoString) :
    checkEntries sep word es d = es.flatMap (fun e => checkEntry sep word e d) := by
  induction es with
  | nil => simp [checkEntries]
  | cons e es ih => simp [checkEntries, ih]

mutual
theorem sends_reorderFS (sep : Char) (word : GoString)
    (reorder : List GoString → List DirEntry → List DirEntry)
    (hr : ∀ chain es, (reorder chain es).Perm es) :
    ∀ (fsys : FS) (chain : List GoString) (d : GoString),
      (checkDirectory sep word (reorderFS reorder fsys chain) d).Perm (checkDirectory sep word fsys d)
  | .failing _, _, _ => by simp [reorderFS, checkDirectory]
  | .listing es, chain, d => by
    simp only [reorderFS, checkDirectory]
    refine List.Perm.trans ?_ (sends_reorderEntries sep word reorder hr es chain d)
    rw [checkEntries_flatMap, checkEntries_flatMap]
    exact (hr chain _).flatMap_right _
theorem sends_reorderEntries (sep : Char) (word : GoString)
    (reorder : List GoString → List DirEntry → List DirEntry)
    (hr : ∀ chain es, (reorder chain es).Perm es) :
    ∀ (es : List DirEntry) (chain : List GoString) (d : GoString),
      (checkEntries sep word (reorderEntries reorder es chain) d).Perm
        (checkEntries sep word es d)
  | [], _, _ => by simp [reorderEntries, checkEntries]
  | e :: es, chain, d => by
    simp only [reorderEntries, checkEntries]
    exact (sends_reorderEntry sep word reorder hr e chain d).append
      (sends_reorderEntries sep word reorder hr es chain d)
theorem sends_reorderEntry (sep : Char) (word : GoString)
    (reorder : List GoString → List DirEntry → List DirEntry)
    (hr : ∀ chain es, (reorder chain es).Perm es) :
    ∀ (e : DirEntry) (chain : List GoString) (d : GoString),
      (checkEntry sep word (reorderEntry reorder e chain) d).Perm (checkEntry sep word e d)
  | .file _ _, _, _ => by simp [reorderEntry]
  | .dir _ none, _, _ => by simp [reorderEntry]
  | .dir n (some sub), chain, d => by
    simp only [reorderEntry, checkEntry]
    exact sends_reorderFS sep word reorder hr sub (chain ++ [n]) _
end

/-- Claim C9.  The paths a finished call has delivered depend on the tree and the word
only: two finished calls on the same tree, under any two schedules, and a finished call
on the tree with its listings in another order, deliver the same paths the same number
of times, hence the same set of paths. -/
theorem delivered_independent_of_order (sep : Char) (word : GoString) (fileSystem : FS)
    (reorder : List GoString → List DirEntry → List DirEntry)
    (hr : ∀ chain es, (reorder chain es).Perm es) (sched1 sched2 sched3 : List Actor)
    (h1 : terminated (exec sep word (initial fileSystem) sched1) = true)
    (h2 : terminated (exec sep word (initial fileSystem) sched2) = true)
    (h3 : terminated (exec sep word (initial (reorderFS reorder fileSystem [])) sched3)
      = true) :
    (delivered (exec sep word (initial fileSystem) sched1)).Perm
        (delivered (exec sep word (initial fileSystem) sched2)) ∧
    (delivered (exec sep word (initial fileSystem) sched1)).Perm
        (delivered (exec sep word (initial (reorderFS reorder fileSystem [])) sched3)) ∧
    (∀ p, p ∈ delivered (exec sep word (initial fileSystem) sched1) ↔
        p ∈ delivered (exec sep word (initial fileSystem) sched2)) ∧
    (∀ p, p ∈ delivered (exec sep word (initial fileSystem) sched1) ↔
        p ∈ delivered (exec sep word (initial (reorderFS reorder fileSystem [])) sched3)) := by
  have p1 := delivered_perm sep word fileSystem sched1 h1
  have p2 := delivered_perm sep word fileSystem sched2 h2
  have p3 := delivered_perm sep word (reorderFS reorder fileSystem []) sched3 h3
  have p4 := sends_reorderFS sep word reorder hr fileSystem [] ['.']
  have q2 := p1.trans p2.symm
  have q3 := p1.trans (p3.trans p4).symm
  exact ⟨q2, q3, fun p => q2.mem_iff, fun p => q3.mem_iff⟩

/-- Witness for claim C9: the tree of the tests under two schedules, and with every
listing reversed, where the same three paths arrive in another order. -/
theorem delivered_independent_of_order_witness :
    delivered (runToEnd '/' "Hello".data testFS)
      = ["greeting.txt".data, "subdirectory/greeting2.txt".data,
          "subdirectory/another/greeting3.txt".data] ∧
    delivered (exec '/' "Hello".data
        (initial (reorderFS (fun _ es => es.reverse) testFS [])) (roundRobin 6 24))
      = ["subdirectory/greeting2.txt".data, "greeting.txt".data,
          "subdirectory/another/greeting3.txt".data] ∧
    ((delivered (runToEnd '/' "Hello".data testFS)).Perm
        (delivered (exec '/' "Hello".data (initial testFS) (roundRobin 6 24))) ∧
      (delivered (runToEnd '/' "Hello".data testFS)).Perm
        (delivered (exec '/' "Hello".data
          (initial (reorderFS (fun _ es => es.reverse) testFS [])) (roundRobin 6 24))) ∧
      (∀ p, p ∈ delivered (runToEnd '/' "Hello".data testFS) ↔
        p ∈ delivered (exec '/' "Hello".data (initial testFS) (roundRobin 6 24))) ∧
      (∀ p, p ∈ delivered (runToEnd '/' "Hello".data testFS) ↔
        p ∈ delivered (exec '/' "Hello".data
          (initial (reorderFS (fun _ es => es.reverse) testFS [])) (roundRobin 6 24)))) :=
  ⟨by decide, by decide,
    delivered_independent_of_order '/' "Hello".data testFS (fun _ es => es.reverse)
      (fun _ es => List.reverse_perm es)
      (schedule '/' "Hello".data (cost (initial testFS)) (initial testFS))
      (roundRobin 6 24) (roundRobin 6 24) (by decide) (by decide) (by decide)⟩

/-! ### Failing entries -/

theorem sends_failingEntry (sep : Char) (word : GoString) (e : DirEntry) (d : GoString)
    (h : failingEntry e = true) : checkEntry sep word e d = [] := by
  cases e with
  | file n o =>
    cases o with
    | none => simp [checkEntry]
    | some lines => simp [failingEntry] at h
  | dir n o =>
    cases o with
    | none => simp [checkEntry]
    | some sub =>
      cases sub with
      | failing err => simp [checkEntry, checkDirectory]
      | listing es => simp [failingEntry] at h

mutual
theorem sends_pruneFS (sep : Char) (word : GoString) (drop : List GoString → GoString → Bool) :
    ∀ (fsys : FS) (chain : List GoString) (d : GoString),
      checkDirectory sep word (pruneFS drop fsys chain) d = checkDirectory sep word fsys d
  | .failing _, _, _ => by simp [pruneFS, checkDirectory]
  | .listing es, chain, d => by
    simp only [pruneFS, checkDirectory]
    exact sends_pruneEntries sep word drop es chain d
theorem sends_pruneEntries (sep : Char) (word : GoString)
    (drop : List GoString → GoString → Bool) :
    ∀ (es : List DirEntry) (chain : List GoString) (d : GoString),
      checkEntries sep word (pruneEntries drop es chain) d = checkEntries sep word es d
  | [], _, _ => by simp [pruneEntries]
  | e :: es, chain, d => by
    simp only [pruneEntries]
    split
    · rename_i h
      simp only [Bool.and_eq_true] at h
      rw [sends_pruneEntries sep word drop es chain d]
      simp [checkEntries, sends_failingEntry sep word e d h.1]
    · simp only [checkEntries]
      rw [sends_pruneEntry sep word drop e chain d,
        sends_pruneEntries sep word drop es chain d]
theorem sends_pruneEntry (sep : Char) (word : GoString)
    (drop : List GoString → GoString → Bool) :
    ∀ (e : DirEntry) (chain : List GoString) (d : GoString),
      checkEntry sep word (pruneEntry drop e chain) d = checkEntry sep word e d
  | .file _ _, _, _ => by simp [pruneEntry]
  | .dir _ none, _, _ => by simp [pruneEntry]
  | .dir n (some sub), chain, d => by
    simp only [pruneEntry, checkEntry]
    exact sends_pruneFS sep word drop sub (chain ++ [n]) _
end

theorem returned_rootError (sep : Char) (word : GoString) (fileSystem : FS)
    (sched : List Actor) (r : Option GoError)
    (h : (exec sep word (initial fileSystem) sched).main = .returned r) :
    r = rootError fileSystem := by
  have hc := (inv_exec sep word fileSystem sched).coherent
  unfold Coherent at hc
  rw [h] at hc
  cases r with
  | some e => rw [hc.1]; rfl
  | none => exact hc.1.symm

theorem terminated_returned (s : State) (h : terminated s = true) :
    ∃ r, s.main = .returned r := by
  simp only [terminated, Bool.and_eq_true] at h
  cases hm : s.main with
  | returned r => exact ⟨r, rfl⟩
  | inDir pc => rw [hm] at h; simp at h
  | goCloser => rw [hm] at h; simp at h
  | retChan => rw [hm] at h; simp at h

/-- A finished call of the machine, under any schedule, agrees with the sequential
reading: the same error, or the same paths up to their order. -/
theorem findFiles_run (sep : Char) (word : GoString) (fileSystem : FS) (sched : List Actor)
    (h : terminated (exec sep word (initial fileSystem) sched) = true) :
    match FindFiles sep fileSystem word with
    | .error err =>
      (exec sep word (initial fileSystem) sched).main = .returned (some err) ∧
        delivered (exec sep word (initial fileSystem) sched) = []
    | .ok paths =>
      (exec sep word (initial fileSystem) sched).main = .returned none ∧
        (delivered (exec sep word (initial fileSystem) sched)).Perm paths := by
  obtain ⟨r, hr⟩ := terminated_returned _ h
  have hr1 := returned_rootError sep word fileSystem sched r hr
  have hp := delivered_perm sep word fileSystem sched h
  cases fileSystem with
  | failing err =>
    simp only [FindFiles]
    rw [hr, hr1]
    exact ⟨rfl, List.perm_nil.mp (by simpa [checkDirectory] using hp)⟩
  | listing es =>
    simp only [FindFiles]
    rw [hr, hr1]
    exact ⟨rfl, hp⟩

/-- Claim C4.  When the root listing succeeds, an entry on which the traversal fails (a
file that cannot be opened, a directory that cannot be narrowed into or listed) sends
nothing, `FindFiles` returns no error, and a finished call delivers what a finished call
delivers on the tree without any selection of these entries. -/
theorem failures_below_root_absorbed (sep : Char) (word : GoString) (es : List DirEntry)
    (drop : List GoString → GoString → Bool) (sched sched1 : List Actor)
    (h : terminated (exec sep word (initial (.listing es)) sched) = true)
    (h1 : terminated (exec sep word (initial (pruneFS drop (.listing es) [])) sched1) = true) :
    (exec sep word (initial (.listing es)) sched).main = .returned none ∧
    (∀ e d, failingEntry e = true → checkEntry sep word e d = []) ∧
    (delivered (exec sep word (initial (.listing es)) sched)).Perm
      (delivered (exec sep word (initial (pruneFS drop (.listing es) [])) sched1)) := by
  refine ⟨?_, fun e d he => sends_failingEntry sep word e d he, ?_⟩
  · obtain ⟨r, hr⟩ := terminated_returned _ h
    rw [hr, returned_rootError sep word (.listing es) sched r hr]
    rfl
  · have p1 := delivered_perm sep word (.listing es) sched h
    have p2 := delivered_perm sep word (pruneFS drop (.listing es) []) sched1 h1
    rw [sends_pruneFS sep word drop (.listing es) [] ['.']] at p2
    exact p1.trans p2.symm

/-- Witness for claim C4: a tree with three failing entries at the top and one a level
down, against the tree without them. -/
theorem failures_below_root_absorbed_witness :
    delivered (runToEnd '/' "Hello".data flakyFS)
      = ["greeting.txt".data, "sub/x.txt".data] ∧
    delivered (runToEnd '/' "Hello".data (pruneFS (fun _ _ => true) flakyFS []))
      = ["greeting.txt".data, "sub/x.txt".data] ∧
    ((runToEnd '/' "Hello".data flakyFS).main = .returned none ∧
      (∀ e d, failingEntry e = true → checkEntry '/' "Hello".data e d = []) ∧
      (delivered (runToEnd '/' "Hello".data flakyFS)).Perm
        (delivered (runToEnd '/' "Hello".data (pruneFS (fun _ _ => true) flakyFS [])))) :=
  ⟨by decide, by decide,
    failures_below_root_absorbed '/' "Hello".data _ (fun _ _ => true)
      (schedule '/' "Hello".data (cost (initial flakyFS)) (initial flakyFS))
      (schedule '/' "Hello".data (cost (initial (pruneFS (fun _ _ => true) flakyFS [])))
        (initial (pruneFS (fun _ _ => true) flakyFS [])))
      (by decide) (by decide)⟩

/-! ### The caller -/

theorem stepCheckDirectory_left (pc pc1 : DirPC) (eff : Effect) (h : stepCheckDirectory pc = some (pc1, eff)) :
    dirLeft pc = dirLeft pc1 + 1 := by
  cases pc with
  | readDir f d =>
    cases f <;> simp only [stepCheckDirectory, Option.some.injEq, Prod.mk.injEq] at h <;>
      obtain ⟨rfl, rfl⟩ := h <;> simp [dirLeft]
  | loop d rest =>
    cases rest <;> simp only [stepCheckDirectory, Option.some.injEq, Prod.mk.injEq] at h <;>
      obtain ⟨rfl, rfl⟩ := h <;> simp [dirLeft]
    omega
  | spawn d e rest =>
    simp only [stepCheckDirectory, Option.some.injEq, Prod.mk.injEq] at h
    obtain ⟨rfl, rfl⟩ := h
    simp [dirLeft]
  | ret err => simp [stepCheckDirectory] at h

theorem mainLeft_step (sep : Char) (word : GoString) (s s1 : State) (a : Actor)
    (hstep : Step sep word s a s1) :
    (a = .main → mainLeft s.main = mainLeft s1.main + 1) ∧ (a ≠ .main → s1.main = s.main) := by
  cases hstep
  case mainDir pc pc1 eff hm hd ha =>
    obtain ⟨f1, _⟩ := applyEffect_fields _ _ _ _ ha
    simp only at f1
    refine ⟨fun _ => ?_, fun h => absurd rfl h⟩
    have h1 := stepCheckDirectory_left pc pc1 eff hd
    have h2 := (stepCheckDirectory_cost pc pc1 eff hd).2
    rw [hm, f1]
    simp only [mainLeft, h2]
    omega
  case mainErr err hm =>
    exact ⟨fun _ => by simp [hm, mainLeft, dirLeft, failsDir], fun h => absurd rfl h⟩
  case mainOk hm =>
    exact ⟨fun _ => by simp [hm, mainLeft, dirLeft, failsDir], fun h => absurd rfl h⟩
  case mainGo hm => exact ⟨fun _ => by simp [hm, mainLeft], fun h => absurd rfl h⟩
  case mainRet hm => exact ⟨fun _ => by simp [hm, mainLeft], fun h => absurd rfl h⟩
  case body id t t1 eff hf hb ha =>
    obtain ⟨f1, _⟩ := applyEffect_fields _ _ _ _ ha
    exact ⟨fun h => by simp at h, fun _ => f1⟩
  case done id hf => exact ⟨fun h => by simp at h, fun _ => rfl⟩
  case wait hcw hz => exact ⟨fun h => by simp at h, fun _ => rfl⟩
  case close hcw => exact ⟨fun h => by simp at h, fun _ => rfl⟩

theorem mainLeft_zero (m : MainPC) (h : mainLeft m = 0) : ∃ r, m = .returned r := by
  cases m with
  | inDir pc =>
    simp only [mainLeft] at h
    split at h <;> omega
  | goCloser => simp [mainLeft] at h
  | retChan => simp [mainLeft] at h
  | returned r => exact ⟨r, rfl⟩

/-- The caller is never blocked: each of its picks is one of its steps until it returns. -/
theorem mainLeft_exec (sep : Char) (word : GoString) :
    ∀ (sched : List Actor) (s : State),
      mainLeft (exec sep word s sched).main = mainLeft s.main - sched.count .main := by
  intro sched
  induction sched with
  | nil => intro s; simp [exec]
  | cons a sched ih =>
    intro s
    simp only [exec]
    cases hs : step sep word s a with
    | none =>
      simp only
      rw [ih s]
      by_cases ha : a = .main
      · subst ha
        have hret : ∃ r, s.main = .returned r := by
          by_contra hno
          push_neg at hno
          have := stepFindFiles_isSome s hno
          simp only [step] at hs
          rw [hs] at this
          simp at this
        obtain ⟨r, hr⟩ := hret
        simp [hr, mainLeft]
      · rw [List.count_cons_of_ne (fun h => ha h.symm)]
    | some s1 =>
      simp only
      rw [ih s1]
      obtain ⟨h1, h2⟩ := mainLeft_step sep word s s1 a (step_sound sep word s s1 a hs)
      by_cases ha : a = .main
      · subst ha
        rw [List.count_cons_self, h1 rfl]
        omega
      · rw [List.count_cons_of_ne (fun h => ha h.symm), h2 ha]

/-- Claim C3.  `FindFiles` returns an error exactly when the listing of the root fails:
whatever it returns is the error of the root listing if there is one and no error
otherwise, it does return once the caller has been given enough steps, when it returns
an error no goroutine was launched and nothing happened on the channel, and when it
returns no error the closing goroutine has been launched. -/
theorem findFiles_error_iff_root_listing_fails (sep : Char) (word : GoString)
    (fileSystem : FS) (sched : List Actor) :
    (∀ r, (exec sep word (initial fileSystem) sched).main = .returned r →
        r = rootError fileSystem) ∧
    (mainLeft (initial fileSystem).main ≤ sched.count .main →
        (exec sep word (initial fileSystem) sched).main = .returned (rootError fileSystem)) ∧
    (∀ err, (exec sep word (initial fileSystem) sched).main = .returned (some err) →
        fileSystem = .failing err ∧
        (exec sep word (initial fileSystem) sched).closer = .absent ∧
        (exec sep word (initial fileSystem) sched).tasks = [] ∧
        (exec sep word (initial fileSystem) sched).trace = []) ∧
    ((exec sep word (initial fileSystem) sched).main = .returned none →
        (∃ es, fileSystem = .listing es) ∧
        (exec sep word (initial fileSystem) sched).closer ≠ .absent) ∧
    (∀ err, rootError fileSystem = some err ↔ fileSystem = .failing err) := by
  have hc := (inv_exec sep word fileSystem sched).coherent
  unfold Coherent at hc
  refine ⟨fun r hr => returned_rootError sep word fileSystem sched r hr, ?_, ?_, ?_, ?_⟩
  · intro hle
    have h0 := mainLeft_exec sep word sched (initial fileSystem)
    have : mainLeft (exec sep word (initial fileSystem) sched).main = 0 := by omega
    obtain ⟨r, hr⟩ := mainLeft_zero _ this
    rw [hr, returned_rootError sep word fileSystem sched r hr]
  · intro err herr
    rw [herr] at hc
    exact ⟨hc.1, hc.2.2.2.1, hc.2.1, hc.2.2.1⟩
  · intro hnone
    rw [hnone] at hc
    refine ⟨?_, hc.2.1⟩
    cases fileSystem with
    | failing e => simp [rootError] at hc
    | listing es => exact ⟨es, rfl⟩
  · intro err
    cases fileSystem with
    | failing e => simp [rootError]
    | listing es => simp [rootError]

/-! ### Termination -/

theorem effect_progress (who : Actor) (id : Nat) (eff : Effect) :
    eff.launches + (sentPaths (eff.events who id)).length ≤ 1 := by
  cases eff <;> simp [Effect.launches, Effect.events, sentPaths]

theorem launched_sent_step (sep : Char) (word : GoString) (s s1 : State) (a : Actor)
    (hstep : Step sep word s a s1) :
    s1.nextId + (delivered s1).length ≤ s.nextId + (delivered s).length + 1 := by
  cases hstep
  case mainDir pc pc1 eff hm hd ha =>
    obtain ⟨_, _, _, _, _, f6, f7⟩ := applyEffect_fields _ _ _ _ ha
    simp only at f6 f7
    have := effect_progress .main s.nextId eff
    simp only [delivered, f6, f7, sentPaths_append, List.length_append]
    omega
  case mainErr err hm => simp [delivered]
  case mainOk hm => simp [delivered]
  case mainGo hm => simp [delivered]
  case mainRet hm => simp [delivered]
  case body id t t1 eff hf hb ha =>
    obtain ⟨_, _, _, _, _, f6, f7⟩ := applyEffect_fields _ _ _ _ ha
    simp only at f6 f7
    have := effect_progress (.task id) s.nextId eff
    simp only [delivered, f6, f7, sentPaths_append, List.length_append]
    omega
  case done id hf => simp [delivered, sentPaths_append, sentPaths]
  case wait hcw hz => simp [delivered, sentPaths_append, sentPaths]
  case close hcw => simp [delivered, sentPaths_append, sentPaths]

theorem launched_sent_exec (sep : Char) (word : GoString) :
    ∀ (sched : List Actor) (s : State),
      (exec sep word s sched).nextId + (delivered (exec sep word s sched)).length
        ≤ s.nextId + (delivered s).length + stepsTaken sep word s sched := by
  intro sched
  induction sched with
  | nil => intro s; simp [exec, stepsTaken]
  | cons a sched ih =>
    intro s
    simp only [exec, stepsTaken]
    cases hs : step sep word s a with
    | none => exact ih s
    | some s1 =>
      have h1 := ih s1
      have h2 := launched_sent_step sep word s s1 a (step_sound sep word s s1 a hs)
      simp only
      omega

theorem terminated_stuck (sep : Char) (word : GoString) (fileSystem : FS) (s : State)
    (hinv : Inv fileSystem s) (ht : terminated s = true) (a : Actor) :
    step sep word s a = none := by
  cases hs : step sep word s a with
  | none => rfl
  | some s1 =>
    have h0 := (terminated_iff_cost fileSystem s hinv).mp ht
    have := cost_step sep word fileSystem s s1 a hinv (step_sound sep word s s1 a hs)
    omega

/-- Claim C6.  A call on a tree whose root can be listed comes to its end under every
schedule: every pick that takes a step uses up one of the `cost` steps the call has,
the goroutines launched and the paths sent are no more than the steps taken, a call
that is not over can always take a step, and a call that is over has returned the
channel, has no goroutine left and has closed the channel.  The schedule of `pick`
reaches that end. -/
theorem draining_terminates (sep : Char) (word : GoString) (es : List DirEntry)
    (sched : List Actor) :
    cost (exec sep word (initial (.listing es)) sched)
        + stepsTaken sep word (initial (.listing es)) sched
      = cost (initial (.listing es)) ∧
    (exec sep word (initial (.listing es)) sched).nextId
        + (delivered (exec sep word (initial (.listing es)) sched)).length
      ≤ stepsTaken sep word (initial (.listing es)) sched ∧
    (terminated (exec sep word (initial (.listing es)) sched) = false →
      ∃ a s1, step sep word (exec sep word (initial (.listing es)) sched) a = some s1) ∧
    (terminated (exec sep word (initial (.listing es)) sched) = true →
      (exec sep word (initial (.listing es)) sched).main = .returned none ∧
      (exec sep word (initial (.listing es)) sched).tasks = [] ∧
      (exec sep word (initial (.listing es)) sched).closed = true ∧
      ∀ a, step sep word (exec sep word (initial (.listing es)) sched) a = none) ∧
    terminated (runToEnd sep word (.listing es)) = true ∧
    (runToEnd sep word (.listing es)).closed = true := by
  have hinv := inv_exec sep word (.listing es) sched
  have hclosed : ∀ sched1, terminated (exec sep word (initial (.listing es)) sched1) = true →
      (exec sep word (initial (.listing es)) sched1).main = .returned none ∧
      (exec sep word (initial (.listing es)) sched1).tasks = [] ∧
      (exec sep word (initial (.listing es)) sched1).closed = true := by
    intro sched1 ht
    have hc := (inv_exec sep word (.listing es) sched1).coherent
    obtain ⟨r, hr⟩ := terminated_returned _ ht
    have hr1 := returned_rootError sep word (.listing es) sched1 r hr
    simp only [rootError] at hr1
    subst hr1
    unfold Coherent at hc
    rw [hr] at hc
    simp only [terminated, Bool.and_eq_true, List.isEmpty_iff, hr] at ht
    have hfin : (exec sep word (initial (.listing es)) sched1).closer = .finished := by
      cases hcl : (exec sep word (initial (.listing es)) sched1).closer <;>
        rw [hcl] at ht <;> simp at ht
    exact ⟨hr, ht.1, hc.2.2.1.mpr hfin⟩
  have hend : terminated (runToEnd sep word (.listing es)) = true :=
    schedule_terminates sep word (.listing es) _ _ (inv_initial _) (le_refl _)
  refine ⟨cost_exec sep word (.listing es) sched, ?_, ?_, ?_, hend, ?_⟩
  · have := launched_sent_exec sep word sched (initial (.listing es))
    simpa [initial, delivered, sentPaths] using this
  · intro hnt
    obtain ⟨a, s1, _, hs⟩ := progress sep word (.listing es) _ hinv hnt
    exact ⟨a, s1, hs⟩
  · intro ht
    obtain ⟨h1, h2, h3⟩ := hclosed sched ht
    exact ⟨h1, h2, h3, fun a => terminated_stuck sep word (.listing es) _ hinv ht a⟩
  · exact (hclosed _ hend).2.2

/-! ### The trace, event by event -/

theorem append_singleton_split {α : Type} (xs pre post : List α) (e x : α)
    (h : xs ++ [e] = pre ++ x :: post) :
    (post = [] ∧ pre = xs ∧ x = e) ∨ ∃ post1, post = post1 ++ [e] ∧ xs = pre ++ x :: post1 := by
  rcases List.eq_nil_or_concat post with hp | ⟨post1, b, hp⟩
  · subst hp
    have := List.append_inj' h rfl
    exact Or.inl ⟨rfl, this.1.symm, by simpa using this.2.symm⟩
  · subst hp
    have h1 : xs ++ [e] = (pre ++ x :: post1) ++ [b] := by simpa using h
    have := List.append_inj' h1 rfl
    refine Or.inr ⟨post1, ?_, this.1⟩
    have hb : e = b := by simpa using this.2
    rw [hb, List.concat_eq_append]

/-- An event that is neither a launch, a send, a `wg.Done()` nor the closing of the
channel. -/
theorem traceOK_neutral (tr : List Event) (ids : List Nat) (n : Nat) (e : Event)
    (h : TraceOK tr ids n false)
    (h1 : ∀ id, e ≠ .done id) (h2 : ∀ who id, e ≠ .go who id)
    (h3 : ∀ who p, e ≠ .send who p) (h4 : e ≠ .close) : TraceOK (tr ++ [e]) ids n false := by
  refine ⟨?_, ?_, ?_, ?_, ?_, ?_, ?_, ?_, ?_⟩
  · intro id hm
    rcases List.mem_append.mp hm with hm | hm
    · exact h.done_dead id hm
    · simp only [List.mem_singleton] at hm
      exact absurd hm.symm (h1 id)
  · intro id
    rw [List.count_append, List.count_singleton]
    rw [if_neg (by simpa using fun hh => h1 id hh), Nat.add_zero]
    exact h.done_once id
  · intro who id hm
    rcases List.mem_append.mp hm with hm | hm
    · exact h.go_lt who id hm
    · simp only [List.mem_singleton] at hm
      exact absurd hm.symm (h2 who id)
  · intro id hid
    obtain ⟨who, hw⟩ := h.launched id hid
    exact ⟨who, List.mem_append_left _ hw⟩
  · intro id hid
    rcases h.ended id hid with hh | hh
    · exact Or.inl hh
    · exact Or.inr (List.mem_append_left _ hh)
  · intro hc; simp at hc
  · intro _ hm
    rcases List.mem_append.mp hm with hm | hm
    · exact h.open_none rfl hm
    · simp only [List.mem_singleton] at hm
      exact h4 hm.symm
  · intro pre post id hsplit path hm
    rcases append_singleton_split tr pre post e _ hsplit with ⟨_, _, hx⟩ | ⟨post1, hp, htr⟩
    · exact h1 id hx.symm
    · rw [hp] at hm
      rcases List.mem_append.mp hm with hm | hm
      · exact h.send_before_done pre post1 id htr path hm
      · simp only [List.mem_singleton] at hm
        exact h3 _ _ hm.symm
  · intro who path hm
    rcases List.mem_append.mp hm with hm | hm
    · exact h.send_by_task who path hm
    · simp only [List.mem_singleton] at hm
      exact absurd hm.symm (h3 who path)

/-- The launch of the goroutine with the next identifier. -/
theorem traceOK_go (tr : List Event) (ids : List Nat) (n : Nat) (who : Actor)
    (h : TraceOK tr ids n false) :
    TraceOK (tr ++ [.go who n]) (ids ++ [n]) (n + 1) false := by
  refine ⟨?_, ?_, ?_, ?_, ?_, ?_, ?_, ?_, ?_⟩
  · intro id hm
    rcases List.mem_append.mp hm with hm | hm
    · obtain ⟨h1, h2⟩ := h.done_dead id hm
      refine ⟨by omega, ?_⟩
      intro hmem
      rcases List.mem_append.mp hmem with hmem | hmem
      · exact h2 hmem
      · simp only [List.mem_singleton] at hmem
        omega
    · simp at hm
  · intro id
    rw [List.count_append, List.count_singleton]
    rw [if_neg (by simp), Nat.add_zero]
    exact h.done_once id
  · intro w id hm
    rcases List.mem_append.mp hm with hm | hm
    · have := h.go_lt w id hm; omega
    · simp only [List.mem_singleton, Event.go.injEq] at hm
      omega
  · intro id hid
    by_cases hlt : id < n
    · obtain ⟨w, hw⟩ := h.launched id hlt
      exact ⟨w, List.mem_append_left _ hw⟩
    · have : id = n := by omega
      subst this
      exact ⟨who, by simp⟩
  · intro id hid
    by_cases hlt : id < n
    · rcases h.ended id hlt with hh | hh
      · exact Or.inl (List.mem_append_left _ hh)
      · exact Or.inr (List.mem_append_left _ hh)
    · have : id = n := by omega
      subst this
      exact Or.inl (by simp)
  · intro hc; simp at hc
  · intro _ hm
    rcases List.mem_append.mp hm with hm | hm
    · exact h.open_none rfl hm
    · simp at hm
  · intro pre post id hsplit path hm
    rcases append_singleton_split tr pre post _ _ hsplit with ⟨_, _, hx⟩ | ⟨post1, hp, htr⟩
    · simp at hx
    · rw [hp] at hm
      rcases List.mem_append.mp hm with hm | hm
      · exact h.send_before_done pre post1 id htr path hm
      · simp at hm
  · intro w path hm
    rcases List.mem_append.mp hm with hm | hm
    · obtain ⟨id, h1, h2⟩ := h.send_by_task w path hm
      exact ⟨id, h1, by omega⟩
    · simp at hm

/-- A send by a goroutine that has not ended. -/
theorem traceOK_send (tr : List Event) (ids : List Nat) (n id : Nat) (p : GoString)
    (h : TraceOK tr ids n false) (hid : id ∈ ids) (hlt : id < n) :
    TraceOK (tr ++ [.send (.task id) p]) ids n false := by
  refine ⟨?_, ?_, ?_, ?_, ?_, ?_, ?_, ?_, ?_⟩
  · intro j hm
    rcases List.mem_append.mp hm with hm | hm
    · exact h.done_dead j hm
    · simp at hm
  · intro j
    rw [List.count_append, List.count_singleton]
    rw [if_neg (by simp), Nat.add_zero]
    exact h.done_once j
  · intro w j hm
    rcases List.mem_append.mp hm with hm | hm
    · exact h.go_lt w j hm
    · simp at hm
  · intro j hj
    obtain ⟨w, hw⟩ := h.launched j hj
    exact ⟨w, List.mem_append_left _ hw⟩
  · intro j hj
    rcases h.ended j hj with hh | hh
    · exact Or.inl hh
    · exact Or.inr (List.mem_append_left _ hh)
  · intro hc; simp at hc
  · intro _ hm
    rcases List.mem_append.mp hm with hm | hm
    · exact h.open_none rfl hm
    · simp at hm
  · intro pre post j hsplit path hm
    rcases append_singleton_split tr pre post _ _ hsplit with ⟨_, _, hx⟩ | ⟨post1, hp, htr⟩
    · simp at hx
    · rw [hp] at hm
      rcases List.mem_append.mp hm with hm | hm
      · exact h.send_before_done pre post1 j htr path hm
      · simp only [List.mem_singleton, Event.send.injEq, Actor.task.injEq] at hm
        have hd : Event.done j ∈ tr := by rw [htr]; simp
        exact (h.done_dead j hd).2 (by rw [hm.1]; exact hid)
  · intro w path hm
    rcases List.mem_append.mp hm with hm | hm
    · exact h.send_by_task w path hm
    · simp only [List.mem_singleton, Event.send.injEq] at hm
      exact ⟨id, hm.1, hlt⟩

/-- The `wg.Done()` of a goroutine that has not ended. -/
theorem traceOK_done (tr : List Event) (ids ids1 : List Nat) (n id : Nat)
    (h : TraceOK tr ids n false) (hid : id ∈ ids) (hlt : id < n) (hgone : id ∉ ids1)
    (hsub : ∀ j, j ∈ ids1 → j ∈ ids) (hkeep : ∀ j, j ∈ ids → j ≠ id → j ∈ ids1) :
    TraceOK (tr ++ [.done id]) ids1 n false := by
  have hnot : Event.done id ∉ tr := fun hm => (h.done_dead id hm).2 hid
  refine ⟨?_, ?_, ?_, ?_, ?_, ?_, ?_, ?_, ?_⟩
  · intro j hm
    rcases List.mem_append.mp hm with hm | hm
    · obtain ⟨h1, h2⟩ := h.done_dead j hm
      exact ⟨h1, fun hj => h2 (hsub j hj)⟩
    · simp only [List.mem_singleton, Event.done.injEq] at hm
      subst hm
      exact ⟨hlt, hgone⟩
  · intro j
    rw [List.count_append, List.count_singleton]
    by_cases hj : j = id
    · subst hj
      rw [List.count_eq_zero.mpr hnot]
      simp
    · rw [if_neg (by simpa using fun hh => hj hh.symm), Nat.add_zero]
      exact h.done_once j
  · intro w j hm
    rcases List.mem_append.mp hm with hm | hm
    · exact h.go_lt w j hm
    · simp at hm
  · intro j hj
    obtain ⟨w, hw⟩ := h.launched j hj
    exact ⟨w, List.mem_append_left _ hw⟩
  · intro j hj
    by_cases hji : j = id
    · subst hji
      exact Or.inr (by simp)
    · rcases h.ended j hj with hh | hh
      · exact Or.inl (hkeep j hh hji)
      · exact Or.inr (List.mem_append_left _ hh)
  · intro hc; simp at hc
  · intro _ hm
    rcases List.mem_append.mp hm with hm | hm
    · exact h.open_none rfl hm
    · simp at hm
  · intro pre post j hsplit path hm
    rcases append_singleton_split tr pre post _ _ hsplit with ⟨hp, _, _⟩ | ⟨post1, hp, htr⟩
    · rw [hp] at hm
      simp at hm
    · rw [hp] at hm
      rcases List.mem_append.mp hm with hm | hm
      · exact h.send_before_done pre post1 j htr path hm
      · simp at hm
  · intro w path hm
    rcases List.mem_append.mp hm with hm | hm
    · exact h.send_by_task w path hm
    · simp at hm

/-- The closing of the channel when no goroutine is left. -/
theorem traceOK_close (tr : List Event) (n : Nat) (h : TraceOK tr [] n false) :
    TraceOK (tr ++ [.close]) [] n true := by
  refine ⟨?_, ?_, ?_, ?_, ?_, ?_, ?_, ?_, ?_⟩
  · intro j hm
    rcases List.mem_append.mp hm with hm | hm
    · exact h.done_dead j hm
    · simp at hm
  · intro j
    rw [List.count_append, List.count_singleton]
    rw [if_neg (by simp), Nat.add_zero]
    exact h.done_once j
  · intro w j hm
    rcases List.mem_append.mp hm with hm | hm
    · exact h.go_lt w j hm
    · simp at hm
  · intro j hj
    obtain ⟨w, hw⟩ := h.launched j hj
    exact ⟨w, List.mem_append_left _ hw⟩
  · intro j hj
    rcases h.ended j hj with hh | hh
    · exact Or.inl hh
    · exact Or.inr (List.mem_append_left _ hh)
  · intro _
    refine ⟨tr, rfl, h.open_none rfl, ?_⟩
    intro w j hm
    rcases h.ended j (h.go_lt w j hm) with hh | hh
    · simp at hh
    · exact hh
  · intro hc; simp at hc
  · intro pre post j hsplit path hm
    rcases append_singleton_split tr pre post _ _ hsplit with ⟨_, _, hx⟩ | ⟨post1, hp, htr⟩
    · simp at hx
    · rw [hp] at hm
      rcases List.mem_append.mp hm with hm | hm
      · exact h.send_before_done pre post1 j htr path hm
      · simp at hm
  · intro w path hm
    rcases List.mem_append.mp hm with hm | hm
    · exact h.send_by_task w path hm
    · simp at hm

theorem coherent_open (fileSystem : FS) (s : State) (hc : Coherent fileSystem s)
    (h : s.closer ≠ .finished) : s.closed = false := by
  unfold Coherent at hc
  cases hm : s.main with
  | inDir pc =>
    rw [hm] at hc
    cases pc with
    | readDir f d => exact hc.2.2.2.2.2
    | ret err =>
      cases err with
      | some e => exact hc.2.2.2.2
      | none => exact hc.2.2
    | loop d rest => exact hc.2.2
    | spawn d e rest => exact hc.2.2
  | goCloser => rw [hm] at hc; exact hc.2.2
  | retChan =>
    rw [hm] at hc
    cases hcd : s.closed with
    | false => rfl
    | true => exact absurd (hc.2.2.1.mp hcd) h
  | returned r =>
    rw [hm] at hc
    cases r with
    | some e => exact hc.2.2.2.2
    | none =>
      cases hcd : s.closed with
      | false => rfl
      | true => exact absurd (hc.2.2.1.mp hcd) h

theorem coherent_closing (fileSystem : FS) (s : State) (hc : Coherent fileSystem s)
    (h : s.closer = .closing ∨ s.closer = .finished) :
    s.tasks = [] ∧ (s.main = .retChan ∨ s.main = .returned none) := by
  unfold Coherent at hc
  have hna : s.closer ≠ .absent := by rcases h with h | h <;> rw [h] <;> simp
  have hnw : s.closer ≠ .waiting := by rcases h with h | h <;> rw [h] <;> simp
  cases hm : s.main with
  | inDir pc =>
    rw [hm] at hc
    cases pc with
    | readDir f d => exact absurd hc.2.2.2.2.1 hna
    | ret err =>
      cases err with
      | some e => exact absurd hc.2.2.2.1 hna
      | none => exact absurd hc.2.1 hna
    | loop d rest => exact absurd hc.2.1 hna
    | spawn d e rest => exact absurd hc.2.1 hna
  | goCloser => rw [hm] at hc; exact absurd hc.2.1 hna
  | retChan => rw [hm] at hc; exact ⟨hc.2.2.2 hnw, Or.inl rfl⟩
  | returned r =>
    rw [hm] at hc
    cases r with
    | some e => exact absurd hc.2.2.2.1 hna
    | none => exact ⟨hc.2.2.2 hnw, Or.inr rfl⟩

theorem removeTask_keep (id j : Nat) (ts : List (Nat × Task)) (hj : j ∈ ts.map Prod.fst)
    (hne : j ≠ id) : j ∈ (removeTask id ts).map Prod.fst := by
  induction ts with
  | nil => simp at hj
  | cons p ts ih =>
    obtain ⟨i, u⟩ := p
    simp only [List.map_cons, List.mem_cons] at hj
    by_cases hi : i = id
    · simp only [removeTask, hi, if_true]
      rcases hj with hj | hj
      · exact absurd (hj.trans hi) hne
      · exact hj
    · simp only [removeTask, hi, if_false, List.map_cons, List.mem_cons]
      rcases hj with hj | hj
      · exact Or.inl hj
      · exact Or.inr (ih hj)

theorem traceOK_effect (tr : List Event) (ids : List Nat) (n : Nat) (who : Actor)
    (eff : Effect) (h : TraceOK tr ids n false)
    (hsend : ∀ p, eff = .send p → ∃ id, who = .task id ∧ id ∈ ids ∧ id < n) :
    TraceOK (tr ++ eff.events who n) (ids ++ (eff.spawned n).map Prod.fst)
      (n + eff.launches) false := by
  cases eff with
  | none => simpa [Effect.events, Effect.spawned, Effect.launches] using h
  | add =>
    simp only [Effect.events, Effect.spawned, Effect.launches, List.map_nil, List.append_nil,
      Nat.add_zero]
    exact traceOK_neutral tr ids n _ h (by simp) (by simp) (by simp) (by simp)
  | go d e =>
    simp only [Effect.events, Effect.spawned, Effect.launches, List.map_cons, List.map_nil]
    exact traceOK_go tr ids n who h
  | send p =>
    obtain ⟨id, rfl, hid, hlt⟩ := hsend p rfl
    simp only [Effect.events, Effect.spawned, Effect.launches, List.map_nil, List.append_nil,
      Nat.add_zero]
    exact traceOK_send tr ids n id p h hid hlt

/-- The trace stays well formed along a step. -/
theorem traceOK_step (sep : Char) (word : GoString) (fileSystem : FS) (s s1 : State)
    (a : Actor) (hinv : Inv fileSystem s)
    (h : TraceOK s.trace (s.tasks.map Prod.fst) s.nextId s.closed)
    (hstep : Step sep word s a s1) :
    TraceOK s1.trace (s1.tasks.map Prod.fst) s1.nextId s1.closed := by
  obtain ⟨hwg, hlt, hnd, hc⟩ := hinv
  cases hstep
  case mainDir pc pc1 eff hm hd ha =>
    obtain ⟨f1, f2, f3, f4, f5, f6, f7⟩ := applyEffect_fields _ _ _ _ ha
    simp only at f1 f2 f3 f4 f5 f6 f7
    have hopen : s.closed = false := by
      apply coherent_open fileSystem s hc
      unfold Coherent at hc
      rw [hm] at hc
      cases pc with
      | readDir f d => rw [hc.2.2.2.2.1]; simp
      | ret err => simp [stepCheckDirectory] at hd
      | loop d rest => rw [hc.2.1]; simp
      | spawn d e rest => rw [hc.2.1]; simp
    rw [hopen] at h
    rw [f3, f5, f6, f7, hopen, List.map_append]
    exact traceOK_effect _ _ _ _ eff h
      (fun p hp => absurd hp (stepCheckDirectory_not_send pc pc1 eff hd p))
  case mainErr err hm => exact h
  case mainOk hm => exact h
  case mainGo hm => exact h
  case mainRet hm => exact h
  case body id t t1 eff hf hb ha =>
    obtain ⟨f1, f2, f3, f4, f5, f6, f7⟩ := applyEffect_fields _ _ _ _ ha
    simp only at f1 f2 f3 f4 f5 f6 f7
    have hopen : s.closed = false := by
      obtain ⟨_, hh | hh | hh⟩ := coherent_tasks_of_find fileSystem s id t hc hf
      · obtain ⟨_, _, _, _, _, h6⟩ := hh; exact h6
      · exact hh.2.2
      · exact hh.2.2
    have hmem := findTask_mem id t s.tasks hf
    have hid : id ∈ s.tasks.map Prod.fst := List.mem_map_of_mem Prod.fst hmem
    rw [hopen] at h
    rw [f3, f5, f6, f7, hopen, List.map_append, map_fst_setTask]
    exact traceOK_effect _ _ _ _ eff h (fun p _ => ⟨id, rfl, hid, hlt _ hmem⟩)
  case done id hf =>
    have hopen : s.closed = false := by
      obtain ⟨_, hh | hh | hh⟩ := coherent_tasks_of_find fileSystem s id _ hc hf
      · obtain ⟨_, _, _, _, _, h6⟩ := hh; exact h6
      · exact hh.2.2
      · exact hh.2.2
    have hmem := findTask_mem id _ s.tasks hf
    have hid : id ∈ s.tasks.map Prod.fst := List.mem_map_of_mem Prod.fst hmem
    rw [hopen] at h
    simp only [hopen]
    exact traceOK_done _ _ _ _ id h hid (hlt _ hmem) (removeTask_not_mem id s.tasks hnd)
      (fun j hj => ((removeTask_sublist id s.tasks).map Prod.fst).subset hj)
      (fun j hj hne => removeTask_keep id j s.tasks hj hne)
  case wait hcw hz =>
    have hopen : s.closed = false := coherent_open fileSystem s hc (by rw [hcw]; simp)
    rw [hopen] at h
    simp only [hopen]
    exact traceOK_neutral _ _ _ _ h (by simp) (by simp) (by simp) (by simp)
  case close hcw =>
    have hopen : s.closed = false := coherent_open fileSystem s hc (by rw [hcw]; simp)
    have ht := (coherent_closing fileSystem s hc (Or.inl hcw)).1
    rw [hopen, ht] at h
    simp only [ht]
    exact traceOK_close _ _ h

/-- The trace is well formed after every schedule. -/
theorem traceOK_exec (sep : Char) (word : GoString) (fileSystem : FS) (sched : List Actor) :
    TraceOK (exec sep word (initial fileSystem) sched).trace
      ((exec sep word (initial fileSystem) sched).tasks.map Prod.fst)
      (exec sep word (initial fileSystem) sched).nextId
      (exec sep word (initial fileSystem) sched).closed := by
  have key := exec_induction sep word
    (fun s => Inv fileSystem s ∧ TraceOK s.trace (s.tasks.map Prod.fst) s.nextId s.closed)
    (fun s a s1 h hs =>
      ⟨inv_step sep word fileSystem s s1 a h.1 (step_sound sep word s s1 a hs),
        traceOK_step sep word fileSystem s s1 a h.1 h.2 (step_sound sep word s s1 a hs)⟩)
    sched (initial fileSystem)
    ⟨inv_initial fileSystem, by
      refine ⟨?_, ?_, ?_, ?_, ?_, ?_, ?_, ?_, ?_⟩ <;> simp [initial]⟩
  exact key.2

/-! ### Counting the events -/

theorem addCount_append (xs ys : List Event) :
    addCount (xs ++ ys) = addCount xs + addCount ys := by
  induction xs with
  | nil => simp [addCount]
  | cons e xs ih =>
    cases e <;> simp [addCount, ih]
    omega

theorem goCount_append (xs ys : List Event) :
    goCount (xs ++ ys) = goCount xs + goCount ys := by
  induction xs with
  | nil => simp [goCount]
  | cons e xs ih =>
    cases e <;> simp [goCount, ih]
    omega

theorem doneCount_append (xs ys : List Event) :
    doneCount (xs ++ ys) = doneCount xs + doneCount ys := by
  induction xs with
  | nil => simp [doneCount]
  | cons e xs ih =>
    cases e <;> simp [doneCount, ih]
    omega

theorem counts_events (who : Actor) (n : Nat) (eff : Effect) :
    addCount (eff.events who n) = eff.adds ∧ goCount (eff.events who n) = eff.launches ∧
      doneCount (eff.events who n) = 0 := by
  cases eff <;> simp [Effect.events, Effect.adds, Effect.launches, addCount, goCount, doneCount]

theorem counts_step (sep : Char) (word : GoString) (s s1 : State) (a : Actor)
    (h : Counts s) (hstep : Step sep word s a s1) : Counts s1 := by
  obtain ⟨h1, h2, h3⟩ := h
  cases hstep
  case mainDir pc pc1 eff hm hd ha =>
    obtain ⟨f1, f2, f3, f4, f5, f6, f7⟩ := applyEffect_fields _ _ _ _ ha
    simp only at f1 f2 f3 f4 f5 f6 f7
    obtain ⟨c1, c2, c3⟩ := counts_events .main s.nextId eff
    have ho := stepCheckDirectory_owed pc pc1 eff hd
    have hs := spawned_owed s.nextId eff
    have hl := spawned_length s.nextId eff
    rw [hm] at h1
    simp only [owedMain] at h1
    refine ⟨?_, ?_, ?_⟩
    · simp only [f1, f5, f7, addCount_append, goCount_append, c1, c2, owedMain,
        List.map_append, List.sum_append, hs]
      omega
    · simp only [f5, f7, goCount_append, doneCount_append, c2, c3, List.length_append, hl]
      omega
    · simp only [f6, f7, goCount_append, c2]
      omega
  case mainErr err hm =>
    exact ⟨by simpa [hm, owedMain, owedDir] using h1, h2, h3⟩
  case mainOk hm =>
    exact ⟨by simpa [hm, owedMain, owedDir] using h1, h2, h3⟩
  case mainGo hm =>
    exact ⟨by simpa [hm, owedMain] using h1, h2, h3⟩
  case mainRet hm =>
    exact ⟨by simpa [hm, owedMain] using h1, h2, h3⟩
  case body id t t1 eff hf hb ha =>
    obtain ⟨f1, f2, f3, f4, f5, f6, f7⟩ := applyEffect_fields _ _ _ _ ha
    simp only at f1 f2 f3 f4 f5 f6 f7
    obtain ⟨c1, c2, c3⟩ := counts_events (.task id) s.nextId eff
    have ho := stepGoroutine_owed sep word t t1 eff hb
    have hs := spawned_owed s.nextId eff
    have hl := spawned_length s.nextId eff
    have hsum := sum_setTask owedTask id t t1 s.tasks hf
    refine ⟨?_, ?_, ?_⟩
    · simp only [f1, f5, f7, addCount_append, goCount_append, c1, c2,
        List.map_append, List.sum_append, hs]
      omega
    · simp only [f5, f7, goCount_append, doneCount_append, c2, c3, List.length_append, hl,
        length_setTask]
      omega
    · simp only [f6, f7, goCount_append, c2]
      omega
  case done id hf =>
    have hl := length_removeTask id _ s.tasks hf
    have hsum := sum_removeTask owedTask id _ s.tasks hf
    have h0 : owedTask Task.exit = 0 := rfl
    rw [h0] at hsum
    refine ⟨?_, ?_, ?_⟩
    · simp only [addCount_append, goCount_append, addCount, goCount]
      omega
    · simp only [goCount_append, doneCount_append, goCount, doneCount]
      omega
    · simp only [goCount_append, goCount]
      omega
  case wait hcw hz =>
    refine ⟨?_, ?_, ?_⟩
    · simp only [addCount_append, goCount_append, addCount, goCount]
      omega
    · simp only [goCount_append, doneCount_append, goCount, doneCount]
      omega
    · simp only [goCount_append, goCount]
      omega
  case close hcw =>
    refine ⟨?_, ?_, ?_⟩
    · simp only [addCount_append, goCount_append, addCount, goCount]
      omega
    · simp only [goCount_append, doneCount_append, goCount, doneCount]
      omega
    · simp only [goCount_append, goCount]
      omega

theorem counts_exec (sep : Char) (word : GoString) (fileSystem : FS) (sched : List Actor) :
    Counts (exec sep word (initial fileSystem) sched) :=
  exec_induction sep word Counts
    (fun s a s1 h hs => counts_step sep word s s1 a h (step_sound sep word s s1 a hs))
    sched (initial fileSystem)
    ⟨by simp [initial, addCount, goCount, owedMain, owedDir],
      by simp [initial, goCount, doneCount], by simp [initial, goCount]⟩

/-- Once the caller has left the root call and the pool is empty, no step launches a
goroutine. -/
theorem quiet_step (sep : Char) (word : GoString) (s s1 : State) (a : Actor)
    (ht : s.tasks = []) (hm : ∀ pc, s.main ≠ .inDir pc) (hstep : Step sep word s a s1) :
    s1.tasks = [] ∧ (∀ pc, s1.main ≠ .inDir pc) ∧ s1.nextId = s.nextId := by
  cases hstep
  case mainDir pc pc1 eff hmm hd ha => exact absurd hmm (hm pc)
  case mainErr err hmm => exact absurd hmm (hm _)
  case mainOk hmm => exact absurd hmm (hm _)
  case mainGo hmm => exact ⟨ht, by simp, rfl⟩
  case mainRet hmm => exact ⟨ht, by simp, rfl⟩
  case body id t t1 eff hf hb ha => rw [ht] at hf; simp [findTask] at hf
  case done id hf => rw [ht] at hf; simp [findTask] at hf
  case wait hcw hz => exact ⟨ht, hm, rfl⟩
  case close hcw => exact ⟨ht, hm, rfl⟩

theorem quiet_exec (sep : Char) (word : GoString) (s : State)
    (ht : s.tasks = []) (hm : ∀ pc, s.main ≠ .inDir pc) (sched : List Actor) :
    (exec sep word s sched).tasks = [] ∧ (exec sep word s sched).nextId = s.nextId := by
  have key := exec_induction sep word
    (fun s1 => s1.tasks = [] ∧ (∀ pc, s1.main ≠ .inDir pc) ∧ s1.nextId = s.nextId)
    (fun s0 a s1 h hs => by
      obtain ⟨h1, h2, h3⟩ := quiet_step sep word s0 s1 a h.1 h.2.1
        (step_sound sep word s0 s1 a hs)
      exact ⟨h1, h2, h3.trans h.2.2⟩)
    sched s ⟨ht, hm, rfl⟩
  exact ⟨key.1, key.2.2⟩

theorem outstanding_zero (s : State) (h : outstanding s = 0) :
    s.tasks = [] ∧ owedMain s.main = 0 := by
  simp only [outstanding] at h
  exact ⟨List.length_eq_zero.mp (by omega), by omega⟩

/-- Claim C7, as the claim states it, fails on a call whose root cannot be listed: the
call is over after two steps of the caller, `FindFiles` has returned the error, and the
channel it created has not been closed. -/
theorem channel_not_closed_on_error :
    terminated (exec '/' "Hello".data (initial missingRoot) [.main, .main]) = true ∧
    (exec '/' "Hello".data (initial missingRoot) [.main, .main]).main
      = .returned (some "open /non-existing/directory: no such file or directory") ∧
    (exec '/' "Hello".data (initial missingRoot) [.main, .main]).trace.count Event.close = 0 ∧
    (exec '/' "Hello".data (initial missingRoot) [.main, .main]).closed = false :=
  ⟨by decide, rfl, by decide, by decide⟩

/-- Claim C7, amended.  Under every schedule the channel is closed at most once, and
exactly once by a finished call whose root could be listed; the closing is the last event
of the trace, so no send follows it, and it comes after the `wg.Done()` of every
goroutine launched, with the counter at zero and the pool empty from the return of
`wg.Wait()` on; a goroutine sends nothing after its own `wg.Done()`, and only launched
goroutines send. -/
theorem channel_closed_once_after_all_tasks (sep : Char) (word : GoString) (fileSystem : FS)
    (sched : List Actor) :
    (exec sep word (initial fileSystem) sched).trace.count Event.close ≤ 1 ∧
    (terminated (exec sep word (initial fileSystem) sched) = true →
      rootError fileSystem = none →
      (exec sep word (initial fileSystem) sched).trace.count Event.close = 1) ∧
    (∀ pre post, (exec sep word (initial fileSystem) sched).trace = pre ++ Event.close :: post →
      post = [] ∧ (∀ who id, Event.go who id ∈ pre → Event.done id ∈ pre) ∧
      (∀ who path, Event.send who path ∉ post)) ∧
    (∀ pre post id,
      (exec sep word (initial fileSystem) sched).trace = pre ++ Event.done id :: post →
      ∀ path, Event.send (.task id) path ∉ post) ∧
    (∀ who path, Event.send who path ∈ (exec sep word (initial fileSystem) sched).trace →
      ∃ id, who = .task id ∧ id < (exec sep word (initial fileSystem) sched).nextId) ∧
    (((exec sep word (initial fileSystem) sched).closer = .closing ∨
        (exec sep word (initial fileSystem) sched).closer = .finished) →
      (exec sep word (initial fileSystem) sched).wg = 0 ∧
      (exec sep word (initial fileSystem) sched).tasks = []) := by
  have hinv := inv_exec sep word fileSystem sched
  have htr := traceOK_exec sep word fileSystem sched
  have hcount : ∀ b, (exec sep word (initial fileSystem) sched).closed = b →
      (exec sep word (initial fileSystem) sched).trace.count Event.close
        = if b = true then 1 else 0 := by
    intro b hb
    cases b with
    | false =>
      simpa using List.count_eq_zero.mpr (htr.open_none hb)
    | true =>
      obtain ⟨pre, hpre, hno, _⟩ := htr.closed_last hb
      rw [hpre, List.count_append, List.count_eq_zero.mpr hno]
      simp
  refine ⟨?_, ?_, ?_, htr.send_before_done, htr.send_by_task, ?_⟩
  · have := hcount _ rfl
    split at this <;> omega
  · intro ht hroot
    have hc := hinv.coherent
    obtain ⟨r, hr⟩ := terminated_returned _ ht
    have hr1 := returned_rootError sep word fileSystem sched r hr
    rw [hroot] at hr1
    subst hr1
    simp only [terminated, Bool.and_eq_true, List.isEmpty_iff, hr] at ht
    have hfin : (exec sep word (initial fileSystem) sched).closer = .finished := by
      cases hcl : (exec sep word (initial fileSystem) sched).closer <;>
        rw [hcl] at ht <;> simp at ht
    unfold Coherent at hc
    rw [hr] at hc
    have := hcount true (hc.2.2.1.mpr hfin)
    simpa using this
  · intro pre post hsplit
    have hmem : Event.close ∈ (exec sep word (initial fileSystem) sched).trace := by
      rw [hsplit]; simp
    have hclosed : (exec sep word (initial fileSystem) sched).closed = true := by
      cases hb : (exec sep word (initial fileSystem) sched).closed with
      | true => rfl
      | false => exact absurd hmem (htr.open_none hb)
    obtain ⟨pre1, hpre, hno, hall⟩ := htr.closed_last hclosed
    rw [hpre] at hsplit
    rcases append_singleton_split pre1 pre post _ _ hsplit with ⟨hp, hpp, _⟩ | ⟨post1, _, hp1⟩
    · subst hp
      subst hpp
      exact ⟨rfl, hall, by simp⟩
    · exact absurd (by rw [hp1]; simp) hno
  · intro hcl
    obtain ⟨ht, hm⟩ := coherent_closing fileSystem _ hinv.coherent hcl
    refine ⟨?_, ht⟩
    rw [hinv.wg_eq]
    rcases hm with hm | hm <;> simp [outstanding, ht, hm, owedMain]

/-- Claim C8, as the claim states it, fails.  In the call on `flakyFS`, once the caller
has executed `wg.Add(1)` for the first entry the counter is one while no goroutine has
been launched; and after the goroutine of that entry has been launched and has ended,
the counter is zero and no goroutine is running, yet two steps of the caller later a
further goroutine has been launched. -/
theorem counter_zero_before_later_launch :
    (exec '/' "Hello".data (initial flakyFS) [.main, .main]).wg = 1 ∧
    (exec '/' "Hello".data (initial flakyFS) [.main, .main]).nextId = 0 ∧
    (exec '/' "Hello".data (initial flakyFS)
      [.main, .main, .main, .task 0, .task 0]).wg = 0 ∧
    (exec '/' "Hello".data (initial flakyFS)
      [.main, .main, .main, .task 0, .task 0]).tasks.length = 0 ∧
    (exec '/' "Hello".data (initial flakyFS)
      [.main, .main, .main, .task 0, .task 0]).nextId = 1 ∧
    (exec '/' "Hello".data
      (exec '/' "Hello".data (initial flakyFS) [.main, .main, .main, .task 0, .task 0])
      [.main, .main]).tasks.length = 1 ∧
    (exec '/' "Hello".data
      (exec '/' "Hello".data (initial flakyFS) [.main, .main, .main, .task 0, .task 0])
      [.main, .main]).nextId = 2 := by
  decide

/-- Claim C8, amended.  Under every schedule the counter is the number of goroutines
registered by `wg.Add(1)` that have not ended, those running and those whose `go`
statement is next; it is the number of `wg.Add(1)` less the number of `wg.Done()`; there
is one `wg.Add(1)` per goroutine launched or about to be launched, and one `wg.Done()`
per goroutine that has ended, none for one that has not; the counter is never negative;
when it is zero no goroutine is running or registered; and when it is zero after the
caller has left the root call of `checkDirectory`, no goroutine is launched any more. -/
theorem counter_counts_registered_goroutines (sep : Char) (word : GoString)
    (fileSystem : FS) (sched : List Actor) :
    (exec sep word (initial fileSystem) sched).wg
      = (outstanding (exec sep word (initial fileSystem) sched) : Int) ∧
    (addCount (exec sep word (initial fileSystem) sched).trace : Int)
        - (doneCount (exec sep word (initial fileSystem) sched).trace : Int)
      = (exec sep word (initial fileSystem) sched).wg ∧
    addCount (exec sep word (initial fileSystem) sched).trace
      = goCount (exec sep word (initial fileSystem) sched).trace
        + (outstanding (exec sep word (initial fileSystem) sched)
          - (exec sep word (initial fileSystem) sched).tasks.length) ∧
    (∀ id, id < (exec sep word (initial fileSystem) sched).nextId →
      (id ∈ (exec sep word (initial fileSystem) sched).tasks.map Prod.fst ∧
        (exec sep word (initial fileSystem) sched).trace.count (Event.done id) = 0) ∨
      (id ∉ (exec sep word (initial fileSystem) sched).tasks.map Prod.fst ∧
        (exec sep word (initial fileSystem) sched).trace.count (Event.done id) = 1)) ∧
    0 ≤ (exec sep word (initial fileSystem) sched).wg ∧
    ((exec sep word (initial fileSystem) sched).wg = 0 →
      (exec sep word (initial fileSystem) sched).tasks = [] ∧
      outstanding (exec sep word (initial fileSystem) sched) = 0) ∧
    ((exec sep word (initial fileSystem) sched).wg = 0 →
      (∀ pc, (exec sep word (initial fileSystem) sched).main ≠ .inDir pc) →
      ∀ sched1,
        (exec sep word (exec sep word (initial fileSystem) sched) sched1).tasks = [] ∧
        (exec sep word (exec sep word (initial fileSystem) sched) sched1).nextId
          = (exec sep word (initial fileSystem) sched).nextId) := by
  have hinv := inv_exec sep word fileSystem sched
  have htr := traceOK_exec sep word fileSystem sched
  have hcn := counts_exec sep word fileSystem sched
  have hwg := hinv.wg_eq
  have hz : (exec sep word (initial fileSystem) sched).wg = 0 →
      (exec sep word (initial fileSystem) sched).tasks = [] ∧
      outstanding (exec sep word (initial fileSystem) sched) = 0 := by
    intro h0
    rw [hwg] at h0
    have h1 : outstanding (exec sep word (initial fileSystem) sched) = 0 := by omega
    exact ⟨(outstanding_zero _ h1).1, h1⟩
  refine ⟨hwg, ?_, ?_, ?_, ?_, hz, ?_⟩
  · have h1 := hcn.adds_eq
    have h2 := hcn.gos_eq
    rw [hwg]
    simp only [outstanding]
    omega
  · have h1 := hcn.adds_eq
    simp only [outstanding]
    omega
  · intro id hid
    by_cases hmem : id ∈ (exec sep word (initial fileSystem) sched).tasks.map Prod.fst
    · refine Or.inl ⟨hmem, List.count_eq_zero.mpr ?_⟩
      intro hd
      exact (htr.done_dead id hd).2 hmem
    · refine Or.inr ⟨hmem, ?_⟩
      rcases htr.ended id hid with hh | hh
      · exact absurd hh hmem
      · have h1 := htr.done_once id
        have h2 : 0 < (exec sep word (initial fileSystem) sched).trace.count (Event.done id) :=
          List.count_pos_iff.mpr hh
        omega
  · rw [hwg]; omega
  · intro h0 hm sched1
    exact quiet_exec sep word _ (hz h0).1 hm sched1

/-- Witness for claim C3: a root that does not exist gives the error of its listing, the
tree of the tests gives none. -/
theorem findFiles_error_iff_root_listing_fails_witness :
    (runToEnd '/' "Hello".data missingRoot).main
      = .returned (some "open /non-existing/directory: no such file or directory") ∧
    (runToEnd '/' "Hello".data missingRoot).trace = [] ∧
    (runToEnd '/' "Hello".data testFS).main = .returned none :=
  ⟨(findFiles_error_iff_root_listing_fails '/' "Hello".data missingRoot
      (schedule '/' "Hello".data (cost (initial missingRoot)) (initial missingRoot))).2.1
      (by decide),
    by decide,
    (findFiles_error_iff_root_listing_fails '/' "Hello".data testFS
      (schedule '/' "Hello".data (cost (initial testFS)) (initial testFS))).2.1
      (by decide)⟩

/-- Witness for claim C6: a root without entries, where the call is over after seven
steps with the channel closed and nothing delivered. -/
theorem draining_terminates_witness :
    cost (initial (.listing [])) = 7 ∧
    terminated (runToEnd '/' "Hello".data (.listing [])) = true ∧
    (runToEnd '/' "Hello".data (.listing [])).closed = true ∧
    delivered (runToEnd '/' "Hello".data (.listing [])) = [] :=
  ⟨by decide, (draining_terminates '/' "Hello".data [] []).2.2.2.2.1,
    (draining_terminates '/' "Hello".data [] []).2.2.2.2.2, by decide⟩

end Filefinder
